import Mathlib

/-!
Verification development for the WebExtension manifest transformer
(`packages/transformers/webextension/src/WebExtensionTransformer.js`).

The JavaScript source is embedded shallowly:

* JavaScript strings are `String` (operated on through their `List Char` data
  where splitting is involved, mirroring `String.prototype.split`);
* the parsed manifest document is a `Json` tree;
* the mutable asset (its registered dependencies) is threaded explicitly as a
  `List Dep`, and `asset.addURLDependency` is `addDep`, returning an opaque
  placeholder token derived from the registration counter;
* thrown `ThrowableDiagnostic`s and raw JavaScript exceptions (`TypeError`
  and friends) become the `Except Err` error channel: `Err.diag` carries the
  structured diagnostic, `Err.jsError` stands for any raw exception;
* the filesystem (`fs.exists`, `fs.readdir`) and glob expansion are an
  abstract `FSModel`, and the JSON source-map pointer index `ptrs` is an
  abstract `String → Bool` membership function (`getJSONSourceLocation` only
  feeds the pointer and a key/value selector into the recorded location, and
  throws when the pointer is absent from the index).
-/

namespace WebExt

/-! ## Character-list utilities (JavaScript string primitives) -/

/-- Split helper: first group and remaining groups.  `splitPredA p cs` models
JavaScript `cs.split(sep)` where `p` recognises the separator characters. -/
def splitPredA (p : Char → Bool) : List Char → List Char × List (List Char)
  | [] => ([], [])
  | c :: cs =>
    let r := splitPredA p cs
    if p c then ([], r.1 :: r.2) else (c :: r.1, r.2)

/-- All groups of a predicate split; never empty, and faithful to JavaScript
`String.prototype.split` (an empty input yields one empty group). -/
def splitPred (p : Char → Bool) (cs : List Char) : List (List Char) :=
  (splitPredA p cs).1 :: (splitPredA p cs).2

/-- Separator predicate for `';'`. -/
def isSemi (c : Char) : Bool := c == ';'

/-- Separator predicate for `'/'`. -/
def isSlash (c : Char) : Bool := c == '/'

/-- JavaScript `String.prototype.trim` on character lists. -/
def trimChars (cs : List Char) : List Char :=
  ((cs.dropWhile Char.isWhitespace).reverse.dropWhile Char.isWhitespace).reverse

/-- `directive.trim().split(/\s+/g)` restricted to its non-empty pieces:
splitting a trimmed string on a whitespace run produces exactly the non-empty
groups of the character-wise whitespace split. -/
def segTokens (seg : List Char) : List (List Char) :=
  (splitPred Char.isWhitespace (trimChars seg)).filter (fun t => !t.isEmpty)

/-- Join groups with a separator character (JavaScript `Array.prototype.join`). -/
def joinChar (sep : Char) : List (List Char) → List Char
  | [] => []
  | [g] => g
  | g :: gs => g ++ sep :: joinChar sep gs

/-! ## The CSP parser and patcher -/

/-- Accumulating parse of policy segments.  Modelled from the spec: the external
`content-security-policy-parser` collaborator turns a policy string into "a
mapping from directive name to ordered list of source tokens"; a JavaScript
object keeps insertion order and cannot hold a directive name twice, so a later
duplicate directive is dropped. -/
def parseCSPAux (acc : List (List Char × List (List Char))) :
    List (List Char) → List (List Char × List (List Char))
  | [] => acc
  | seg :: rest =>
    match segTokens seg with
    | [] => parseCSPAux acc rest
    | k :: ts =>
      if k ∈ acc.map Prod.fst then parseCSPAux acc rest
      else parseCSPAux (acc ++ [(k, ts)]) rest

/-- Modelled from the spec: `parseCSP(policy)` — split on `';'`, trim each
directive, break it on whitespace into a name and its source tokens. -/
def parseCSPchars (cs : List Char) : List (List Char × List (List Char)) :=
  parseCSPAux [] (splitPred isSemi cs)

/-- Association lookup on directive lists (JavaScript `csp[k]`). -/
def lookupDir (k : List Char) :
    List (List Char × List (List Char)) → Option (List (List Char))
  | [] => none
  | kv :: rest => if kv.1 = k then some kv.2 else lookupDir k rest

/-- In-place value replacement on directive lists (JavaScript `csp[k] = v` for
a present key). -/
def updateDir (k : List Char) (v : List (List Char)) :
    List (List Char × List (List Char)) → List (List Char × List (List Char))
  | [] => []
  | kv :: rest => if kv.1 = k then (kv.1, v) :: rest else kv :: updateDir k v rest

/-- The characters of `"script-src"`. -/
def scriptSrcK : List Char := "script-src".data

/-- The characters of the token `"'unsafe-eval'"`. -/
def unsafeEvalTok : List Char := "'unsafe-eval'".data

/-- The single array element the patcher synthesizes when no `script-src`
directive exists (source line 304): one string holding the whole source list. -/
def defaultScriptSrcTok : List Char := "'self' 'unsafe-eval' blob: filesystem:".data

/-- Lines 303-308 of the source: synthesize `script-src` when absent, then
append `'unsafe-eval'` when no token of the (possibly just synthesized) list
equals it. -/
def cspPatch (csp : List (List Char × List (List Char))) :
    List (List Char × List (List Char)) :=
  let csp1 := match lookupDir scriptSrcK csp with
    | some _ => csp
    | none => csp ++ [(scriptSrcK, [defaultScriptSrcTok])]
  match lookupDir scriptSrcK csp1 with
  | some ts =>
    if unsafeEvalTok ∈ ts then csp1 else updateDir scriptSrcK (ts ++ [unsafeEvalTok]) csp1
  | none => csp1

/-- One serialized directive, before its terminating `';'`:
`` `${k} ${csp[k].join(' ')}` `` (source line 310). -/
def dirChunk (kv : List Char × List (List Char)) : List Char :=
  kv.1 ++ ' ' :: joinChar ' ' kv.2

/-- Lines 309-311: re-serialize every directive, each terminated by `';'`. -/
def cspSerialize (csp : List (List Char × List (List Char))) : List Char :=
  (csp.map (fun kv => dirChunk kv ++ [';'])).flatten

/-- Lines 314-317: the fixed default policy produced when no policy string was
given (or the given one was falsy, e.g. empty). -/
def defaultCSP : String :=
  "script-src 'self' 'unsafe-eval' blob: filesystem:;object-src 'self' blob: filesystem:;"

/-- Lines 299-319: `cspPatchHMR`.  `none` models a missing
`content_security_policy` (JavaScript `undefined`); an empty string is falsy
and also takes the default branch. -/
def cspPatchHMR (policy : Option String) : String :=
  match policy with
  | none => defaultCSP
  | some p =>
    if p = "" then defaultCSP
    else String.mk (cspSerialize (cspPatch (parseCSPchars p.data)))

/-- The parsed directives of a policy string, at `String` level (statement
vocabulary for the theorems below). -/
def cspDirectives (s : String) : List (String × List String) :=
  (parseCSPchars s.data).map (fun kv => (String.mk kv.1, kv.2.map String.mk))

/-! ## The JSON document model -/

/-- A parsed JSON value tree (the `ManifestDocument` of the spec). -/
inductive Json where
  | null : Json
  | bool (b : Bool) : Json
  | num (n : Int) : Json
  | str (s : String) : Json
  | arr (elems : List Json) : Json
  | obj (fields : List (String × Json)) : Json
deriving Repr

/-- First-match association lookup (JavaScript property read on an object). -/
def jlookup (k : String) : List (String × Json) → Option Json
  | [] => none
  | kv :: rest => if kv.1 = k then some kv.2 else jlookup k rest

/-- JavaScript property read: `undefined` (here `none`) on missing keys and on
non-object values. -/
def Json.get? (j : Json) (k : String) : Option Json :=
  match j with
  | .obj kvs => jlookup k kvs
  | _ => none

/-- JavaScript property write on an object's field list: replace the value in
place when the key exists, append it otherwise (insertion order). -/
def setAssoc (k : String) (v : Json) : List (String × Json) → List (String × Json)
  | [] => [(k, v)]
  | kv :: rest => if kv.1 = k then (k, v) :: rest else kv :: setAssoc k v rest

/-- JavaScript property write (`j[k] = v`); a no-op on non-objects here, and
only reached on objects in the embedded code paths. -/
def Json.setKey (j : Json) (k : String) (v : Json) : Json :=
  match j with
  | .obj kvs => .obj (setAssoc k v kvs)
  | _ => j

/-- Value update at a present key, preserving position. -/
def updateAssoc (k : String) (f : Json → Json) : List (String × Json) → List (String × Json)
  | [] => []
  | kv :: rest => if kv.1 = k then (kv.1, f kv.2) :: rest else kv :: updateAssoc k f rest

/-- Update the value at a key path (the JavaScript in-place mutation through an
alias chain `parent = parent[loc[i]]; parent[lastLoc] = v`). -/
def Json.updatePath : List String → (Json → Json) → Json → Json
  | [], f, j => f j
  | k :: rest, f, .obj kvs => .obj (updateAssoc k (Json.updatePath rest f) kvs)
  | _ :: _, _, j => j

/-- JavaScript truthiness of a JSON value. -/
def Json.truthy : Json → Bool
  | .null => false
  | .bool b => b
  | .num n => n != 0
  | .str s => s != ""
  | .arr _ => true
  | .obj _ => true

/-- Decimal digits of an array index, most significant first. -/
def decNatAux : List Char → Nat → Option Nat
  | [], acc => some acc
  | c :: cs, acc => if c.isDigit then decNatAux cs (acc * 10 + (c.toNat - 48)) else none

/-- A non-empty all-digit segment read as a decimal array index. -/
def strToNat? (s : String) : Option Nat :=
  match s.data with
  | [] => none
  | cs => decNatAux cs 0

/-- Resolve a JSON pointer given as segments; array indices are decimal. -/
def Json.resolve : List String → Json → Option Json
  | [], j => some j
  | k :: rest, .obj kvs =>
    match jlookup k kvs with
    | some v => Json.resolve rest v
    | none => none
  | k :: rest, .arr xs =>
    match strToNat? k with
    | some i =>
      match xs.get? i with
      | some v => Json.resolve rest v
      | none => none
    | none => none
  | _ :: _, _ => none

/-- The structural type of a JSON value. -/
inductive JTag where
  | tnull | tbool | tnum | tstr | tarr | tobj
deriving Repr, DecidableEq

/-- Tag of a value. -/
def Json.tag : Json → JTag
  | .null => .tnull
  | .bool _ => .tbool
  | .num _ => .tnum
  | .str _ => .tstr
  | .arr _ => .tarr
  | .obj _ => .tobj

/-- A leaf that is not a string (numbers, booleans, null). -/
def Json.isNonStrLeaf : Json → Bool
  | .num _ => true
  | .bool _ => true
  | .null => true
  | _ => false

/-! ## Dependencies, locations, errors -/

/-- Which source range of a JSON node `getJSONSourceLocation` selects. -/
inductive LocKind where
  | key | value | full
deriving Repr, DecidableEq

/-- A recorded source location: the manifest path, the JSON pointer whose entry
of the source-map index was used, and the selected range. -/
structure Loc where
  filePath : String
  ptr : String
  kind : LocKind
deriving Repr, DecidableEq

/-- The `env` option of `addURLDependency`. -/
structure DepEnv where
  context : Option String := none
  sourceType : Option String := none
deriving Repr, DecidableEq

/-- One registered dependency (specifier plus the options passed to
`asset.addURLDependency`). -/
structure Dep where
  specifier : String
  needsStableName : Bool := false
  pipeline : Option String := none
  loc : Option Loc := none
  resolveFrom : Option String := none
  env : Option DepEnv := none
deriving Repr, DecidableEq

/-- The opaque token `addURLDependency` returns, modelled from the registration
counter (tokens are opaque and pairwise distinct in the build system). -/
def depToken (n : Nat) : String := "@@parcel-dep-" ++ toString n

/-- `asset.addURLDependency`: register and hand back the token. -/
def addDep (deps : List Dep) (d : Dep) : String × List Dep :=
  (depToken deps.length, deps ++ [d])

/-- A code highlight of a thrown diagnostic. -/
structure Highlight where
  ptr : String
  kind : LocKind
  message : String
deriving Repr, DecidableEq

/-- A `ThrowableDiagnostic` payload. -/
structure Diagnostic where
  message : String
  origin : String
  filePath : String
  highlights : List Highlight
deriving Repr, DecidableEq

/-- The error channel: a structured diagnostic, or a raw JavaScript exception
(`TypeError` on a bad property access, a non-string path given to `path.join`,
an assignment to a primitive in strict mode, ...). -/
inductive Err where
  | diag (d : Diagnostic)
  | jsError
deriving Repr, DecidableEq

/-- The filesystem and glob capabilities the transform consumes. -/
structure FSModel where
  fsExists : String → Bool
  readdir : String → List String
  glob : String → List String

/-- Per-invocation context: filesystem, manifest path, source-map pointer
index, hot-reload flag. -/
structure Ctx where
  fs : FSModel
  filePath : String
  ptrs : String → Bool
  hot : Bool

/-! ## Path helpers (Node `path`) -/

/-- `path.join(a, b)` for the joins the transform performs (normalization of
`.`/`..` segments is irrelevant here: the filesystem is abstract). -/
def joinPath (a b : String) : String := a ++ "/" ++ b

/-- `path.dirname`. -/
def dirname (p : String) : String :=
  let parts := splitPred isSlash p.data
  match parts.dropLast with
  | [] => "."
  | [[]] => "/"
  | init => String.mk (joinChar '/' init)

/-- `path.extname`: extension (with dot) of the basename; empty when there is
no dot or the only dot starts the basename. -/
def extname (p : String) : String :=
  let base := (splitPred isSlash p.data).getLastD []
  let e := base.reverse.takeWhile (fun c => c != '.')
  if e.length < base.length ∧ e.length + 1 < base.length then
    String.mk ('.' :: e.reverse)
  else ""

/-- `path.relative(base, target)` for the child-path case the transform hits
(glob matches live under the manifest's directory). -/
def relPath (base target : String) : String :=
  if (base ++ "/").isPrefixOf target then target.drop (base.length + 1) else target

/-- Node `__filename` of the transformer module (`resolveFrom` anchor for the
bundled runtime scripts). -/
def moduleFilename : String := "WebExtensionTransformer.js"

/-! ## `collectDependencies`, phase by phase

The JavaScript function is one sequential block; it is embedded as one
function per block, composed in source order by `collectDependencies`.  Each
phase takes and returns the document and the registered-dependency list, in
the `Except Err` error channel. -/
/-- The message of the localization diagnostic. -/
def localeMsg (ctx : Ctx) (locale : String) (k : LocKind) : String :=
  "Localization directory"
    ++ (if k = LocKind.value then " for " ++ locale else "")
    ++ " does not exist: "
    ++ relPath (dirname ctx.filePath)
        (joinPath (joinPath (dirname ctx.filePath) "_locales") locale)

/-- The diagnostic thrown for a missing localization directory (lines 61-86);
`k` is `'key'` when `_locales` itself is missing and `'value'` when the
directory of the declared default locale is missing. -/
def localeDiag (ctx : Ctx) (locale : String) (k : LocKind) : Diagnostic :=
  { message := "Invalid Web Extension manifest"
    origin := "@parcel/transformer-webextension"
    filePath := ctx.filePath
    highlights := [{ ptr := "/default_locale", kind := k, message := localeMsg ctx locale k }] }

/-- The per-locale dependency of lines 88-91. -/
def localeDep (l : String) : Dep :=
  { specifier := "_locales/" ++ l ++ "/messages.json", needsStableName := true,
    pipeline := some "raw" }

/-- Lines 54-93: localization handling.  A truthy non-string `default_locale`
always ends in a raw exception (`path.join` rejects non-strings before any
diagnostic can be built), hence `jsError`. -/
def processLocales (ctx : Ctx) (program : Json) (deps : List Dep) :
    Except Err (Json × List Dep) :=
  match program.get? "default_locale" with
  | some dl =>
    if dl.truthy then
      match dl with
      | .str locale =>
        let locales := joinPath (dirname ctx.filePath) "_locales"
        let errKind : Option LocKind :=
          if !ctx.fs.fsExists locales then some .key
          else if !ctx.fs.fsExists (joinPath locales locale) then some .value
          else none
        match errKind with
        | some k =>
          if ctx.ptrs "/default_locale" then .error (.diag (localeDiag ctx locale k))
          else .error .jsError
        | none =>
          .ok (program,
            (ctx.fs.readdir locales).foldl (fun ds l => (addDep ds (localeDep l)).2) deps)
      | _ => .error .jsError
    else .ok (program, deps)
  | none => .ok (program, deps)

/-- The JSON pointer of element `j` of the `k` list of content script `i`. -/
def csPtr (i : Nat) (k : String) (j : Nat) : String :=
  "/content_scripts/" ++ toString i ++ "/" ++ k ++ "/" ++ toString j

/-- The dependency registered for one content-script `css`/`js` element
(lines 101-110). -/
def csDep (ctx : Ctx) (i : Nat) (k : String) (j : Nat) (s : String) : Dep :=
  { specifier := s, needsStableName := true,
    loc := some { filePath := ctx.filePath, ptr := csPtr i k j, kind := .value } }

/-- The auto-reload content-script client dependency (lines 115-119). -/
def autoreloadDep : Dep :=
  { specifier := "./runtime/autoreload.js", resolveFrom := some moduleFilename }

/-- Lines 100-111: rewrite the elements of a content script's `css`/`js` list,
element `j` onwards.  The source-map pointer of each element is consulted
before the dependency is registered (it is spread into the `loc` option), and
a non-string element makes the registration throw. -/
def rewriteScriptListAux (ctx : Ctx) (i : Nat) (k : String) (j : Nat) :
    List Json → List Dep → Except Err (List Json × List Dep)
  | [], deps => .ok ([], deps)
  | x :: rest, deps =>
    if !ctx.ptrs (csPtr i k j) then .error .jsError
    else
      match x with
      | .str s =>
        let (tok, deps) := addDep deps (csDep ctx i k j s)
        match rewriteScriptListAux ctx i k (j + 1) rest deps with
        | .ok (rest', deps) => .ok (Json.str tok :: rest', deps)
        | .error e => .error e
      | _ => .error .jsError

/-- One `k of ['css', 'js']` iteration of lines 98-112.  `sc[k] || []` makes a
missing or falsy list a no-op; a truthy non-array value has no usable `length`
and the loop body never runs, except for a non-empty string, whose first
character either has no source-map pointer or ends in an assignment to a
string index — a raw exception either way. -/
def rewriteEntryKey (ctx : Ctx) (i : Nat) (k : String) (sc : Json) (deps : List Dep) :
    Except Err (Json × List Dep) :=
  match sc.get? k with
  | some (.arr xs) =>
    match rewriteScriptListAux ctx i k 0 xs deps with
    | .ok (xs', deps) => .ok (sc.setKey k (.arr xs'), deps)
    | .error e => .error e
  | some (.str s) => if s = "" then .ok (sc, deps) else .error .jsError
  | _ => .ok (sc, deps)

/-- Lines 97-120: one content-script entry.  Returns the rewritten entry and
whether this entry set `needRuntimeBG` (hot reload with a non-empty `js`
list).  Pushing onto a truthy non-array `js` would throw, but a non-empty
string `js` already threw during rewriting; the remaining truthy non-arrays
have a falsy `length` and are skipped. -/
def processContentScript (ctx : Ctx) (i : Nat) (sc : Json) (deps : List Dep) :
    Except Err ((Json × Bool) × List Dep) := do
  let (sc, deps) ← rewriteEntryKey ctx i "css" sc deps
  let (sc, deps) ← rewriteEntryKey ctx i "js" sc deps
  match sc.get? "js" with
  | some (.arr js) =>
    if ctx.hot && !js.isEmpty then
      let (tok, deps) := addDep deps autoreloadDep
      .ok ((sc.setKey "js" (.arr (js ++ [Json.str tok])), true), deps)
    else .ok ((sc, false), deps)
  | _ => .ok ((sc, false), deps)

/-- The indexed loop of line 96. -/
def contentScriptsAux (ctx : Ctx) (i : Nat) :
    List Json → List Dep → Except Err ((List Json × Bool) × List Dep)
  | [], deps => .ok (([], false), deps)
  | sc :: rest, deps => do
    let ((sc', need1), deps) ← processContentScript ctx i sc deps
    let ((rest', need2), deps) ← contentScriptsAux ctx (i + 1) rest deps
    .ok ((sc' :: rest', need1 || need2), deps)

/-- Lines 94-122: `content_scripts`.  A truthy non-array value is a no-op: the
indexed loop sees no usable `length` (for a string, each character entry has
no `css`/`js` property and contributes nothing). -/
def processContentScripts (ctx : Ctx) (program : Json) (deps : List Dep) :
    Except Err ((Json × Bool) × List Dep) :=
  match program.get? "content_scripts" with
  | some (.arr xs) =>
    match contentScriptsAux ctx 0 xs deps with
    | .ok ((xs', need), deps) =>
      .ok ((program.setKey "content_scripts" (.arr xs'), need), deps)
    | .error e => .error e
  | _ => .ok ((program, false), deps)

/-- The diagnostic of lines 135-153: a dictionary path without the `.dic`
extension, pinned to that entry's value. -/
def dictDiag (ctx : Ctx) (name : String) : Diagnostic :=
  { message := "Invalid Web Extension manifest"
    origin := "@parcel/transformer-webextension"
    filePath := ctx.filePath
    highlights := [{ ptr := "/dictionaries/" ++ name, kind := .value,
                     message := "Dictionaries must be .dic files" }] }

/-- The `.dic` dependency of lines 155-158 (its token replaces the entry's
value). -/
def dicDep (ctx : Ctx) (name file : String) : Dep :=
  { specifier := file, needsStableName := true,
    loc := some { filePath := ctx.filePath, ptr := "/dictionaries/" ++ name, kind := .value } }

/-- The synthesized sibling `.aff` dependency of lines 159-162. -/
def affDep (ctx : Ctx) (name file : String) : Dep :=
  { specifier := file.dropRight 4 ++ ".aff", needsStableName := true,
    loc := some { filePath := ctx.filePath, ptr := "/dictionaries/" ++ name, kind := .value } }

/-- Lines 124-163: the `for (const dict in program.dictionaries)` body over the
listed entries.  Per entry: source location first (its absence throws), the
value must be a string (`path.extname` rejects the rest), the extension must
be `.dic`, then the `.dic` dependency (whose token replaces the value) and the
synthesized sibling `.aff` dependency are registered. -/
def dictEntriesAux (ctx : Ctx) :
    List (String × Json) → List Dep → Except Err (List (String × Json) × List Dep)
  | [], deps => .ok ([], deps)
  | (name, v) :: rest, deps =>
    if !ctx.ptrs ("/dictionaries/" ++ name) then .error .jsError
    else
      match v with
      | .str dictFile =>
        if extname dictFile ≠ ".dic" then .error (.diag (dictDiag ctx name))
        else
          let (tok, deps) := addDep deps (dicDep ctx name dictFile)
          let (_, deps) := addDep deps (affDep ctx name dictFile)
          match dictEntriesAux ctx rest deps with
          | .ok (rest', deps) => .ok ((name, Json.str tok) :: rest', deps)
          | .error e => .error e
      | _ => .error .jsError

/-- Entries `("0", x0), ("1", x1), ...` — what `for...in` enumerates on an
array (or, characterwise, on a string primitive). -/
def indexedEntries (start : Nat) : List Json → List (String × Json)
  | [] => []
  | x :: rest => (toString start, x) :: indexedEntries (start + 1) rest

/-- Lines 123-164: `dictionaries`.  `for...in` enumerates an object's keys in
insertion order (the model keeps the field-list order; JavaScript would front
integer-like keys), an array's indices, a primitive string's character
indices (every single-character entry then fails the `.dic` check, and a
surviving entry would hit a strict-mode assignment, hence the trailing
`jsError`), and nothing on other primitives. -/
def processDictionaries (ctx : Ctx) (program : Json) (deps : List Dep) :
    Except Err (Json × List Dep) :=
  match program.get? "dictionaries" with
  | some (.obj kvs) =>
    match dictEntriesAux ctx kvs deps with
    | .ok (kvs', deps) => .ok (program.setKey "dictionaries" (.obj kvs'), deps)
    | .error e => .error e
  | some (.arr xs) =>
    match dictEntriesAux ctx (indexedEntries 0 xs) deps with
    | .ok (kvs', deps) =>
      .ok (program.setKey "dictionaries" (.arr (kvs'.map Prod.snd)), deps)
    | .error e => .error e
  | some (.str s) =>
    if s = "" then .ok (program, deps)
    else
      match dictEntriesAux ctx
          (indexedEntries 0 (s.data.map (fun c => Json.str (String.mk [c])))) deps with
      | .ok _ => .error .jsError
      | .error e => .error e
  | _ => .ok (program, deps)

/-- The JSON pointer of the `k` icon of `theme_icons` entry `i` under the
version-appropriate action field `ban`. -/
def themeIconPtr (ban : String) (i : Nat) (k : String) : String :=
  "/" ++ ban ++ "/theme_icons/" ++ toString i ++ "/" ++ k

/-- The dependency registered for one `light`/`dark` theme icon. -/
def themeDep (ctx : Ctx) (ban : String) (i : Nat) (k : String) (s : String) : Dep :=
  { specifier := s, needsStableName := true,
    loc := some { filePath := ctx.filePath, ptr := themeIconPtr ban i k, kind := .value } }

/-- Lines 169-181: one `light`/`dark` rewrite.  The source location is built
first (line 170), then the icon path is read; a missing or non-string path
makes the dependency registration throw. -/
def rewriteThemeIconKey (ctx : Ctx) (ban : String) (i : Nat) (k : String) (icon : Json)
    (deps : List Dep) : Except Err (Json × List Dep) :=
  if !ctx.ptrs (themeIconPtr ban i k) then .error .jsError
  else
    match icon.get? k with
    | some (.str s) =>
      let (tok, deps) := addDep deps (themeDep ctx ban i k s)
      .ok (icon.setKey k (.str tok), deps)
    | _ => .error .jsError

/-- The indexed loop of line 167. -/
def themeIconsAux (ctx : Ctx) (ban : String) (i : Nat) :
    List Json → List Dep → Except Err (List Json × List Dep)
  | [], deps => .ok ([], deps)
  | icon :: rest, deps => do
    let (icon, deps) ← rewriteThemeIconKey ctx ban i "light" icon deps
    let (icon, deps) ← rewriteThemeIconKey ctx ban i "dark" icon deps
    let (rest', deps) ← themeIconsAux ctx ban (i + 1) rest deps
    .ok (icon :: rest', deps)

/-- Lines 165-183: `theme_icons` of `browser_action` (MV2) or `action` (MV3).
A truthy non-array `theme_icons` is a no-op (no usable `length`) except for a
non-empty string, whose first character entry throws on its missing `light`
property or its missing source-map pointer. -/
def processThemeIcons (ctx : Ctx) (isMV2 : Bool) (program : Json) (deps : List Dep) :
    Except Err (Json × List Dep) :=
  let ban := if isMV2 then "browser_action" else "action"
  match program.get? ban with
  | some bact =>
    match bact.get? "theme_icons" with
    | some (.arr icons) =>
      match themeIconsAux ctx ban 0 icons deps with
      | .ok (icons', deps) =>
        .ok (program.setKey ban (bact.setKey "theme_icons" (.arr icons')), deps)
      | .error e => .error e
    | some (.str s) => if s = "" then .ok (program, deps) else .error .jsError
    | _ => .ok (program, deps)
  | none => .ok (program, deps)

/-- The dependency registered for one glob match of a web-accessible-resource
pattern (lines 195-206): the path relative to the manifest's directory, with
the whole-entry source location. -/
def warDep (ctx : Ctx) (ptr : String) (fp : String) : Dep :=
  { specifier := relPath (dirname ctx.filePath) fp, needsStableName := true,
    loc := some { filePath := ctx.filePath, ptr := ptr, kind := .full } }

/-- Lines 189-207: register one dependency per glob match.  The source-map
pointer is consulted inside the per-match callback (so only when the glob
matched anything). -/
def globDeps (ctx : Ctx) (ptr : String) :
    List String → List Dep → Except Err (List String × List Dep)
  | [], deps => .ok ([], deps)
  | fp :: rest, deps =>
    if !ctx.ptrs ptr then .error .jsError
    else
      let (tok, deps) := addDep deps (warDep ctx ptr fp)
      match globDeps ctx ptr rest deps with
      | .ok (toks, deps) => .ok (tok :: toks, deps)
      | .error e => .error e

/-- Lines 186-214 for MV2: every entry is itself a glob pattern string (a
non-string entry is rejected by `path.join`), and the matches are concatenated
into the flat replacement list. -/
def warMV2Aux (ctx : Ctx) (i : Nat) :
    List Json → List Dep → Except Err (List Json × List Dep)
  | [], deps => .ok ([], deps)
  | f :: rest, deps =>
    match f with
    | .str pat =>
      let files := ctx.fs.glob (joinPath (dirname ctx.filePath) pat)
      match globDeps ctx ("/web_accessible_resources/" ++ toString i) files deps with
      | .ok (toks, deps) =>
        match warMV2Aux ctx (i + 1) rest deps with
        | .ok (rest', deps) => .ok (toks.map Json.str ++ rest', deps)
        | .error e => .error e
      | .error e => .error e
    | _ => .error .jsError

/-- Lines 186-214 for MV3: each entry's `resources` field is passed to
`path.join`, so only a string survives (in particular an MV3-conformant array
of patterns throws); the matches then replace `resources` as an array of
dependency tokens, keeping the other entry fields. -/
def warMV3Aux (ctx : Ctx) (i : Nat) :
    List Json → List Dep → Except Err (List Json × List Dep)
  | [], deps => .ok ([], deps)
  | f :: rest, deps =>
    match f.get? "resources" with
    | some (.str pat) =>
      let files := ctx.fs.glob (joinPath (dirname ctx.filePath) pat)
      match globDeps ctx ("/web_accessible_resources/" ++ toString i ++ "/resources")
          files deps with
      | .ok (toks, deps) =>
        match warMV3Aux ctx (i + 1) rest deps with
        | .ok (rest', deps) =>
          .ok (f.setKey "resources" (.arr (toks.map Json.str)) :: rest', deps)
        | .error e => .error e
      | .error e => .error e
    | _ => .error .jsError

/-- Lines 184-216: `web_accessible_resources`.  The replacement list `war` is
assigned unconditionally at line 215, so a truthy value with no usable
`length` is replaced by an empty array (array-like objects carrying a numeric
`length` are not modelled); a non-empty string is enumerated characterwise by
the MV2 branch. -/
def processWAR (ctx : Ctx) (isMV2 : Bool) (program : Json) (deps : List Dep) :
    Except Err (Json × List Dep) :=
  match program.get? "web_accessible_resources" with
  | some (.arr xs) =>
    match (if isMV2 then warMV2Aux ctx 0 xs deps else warMV3Aux ctx 0 xs deps) with
    | .ok (war, deps) =>
      .ok (program.setKey "web_accessible_resources" (.arr war), deps)
    | .error e => .error e
  | some (.str s) =>
    if s = "" then .ok (program, deps)
    else
      if isMV2 then
        match warMV2Aux ctx 0 (s.data.map (fun c => Json.str (String.mk [c]))) deps with
        | .ok (war, deps) =>
          .ok (program.setKey "web_accessible_resources" (.arr war), deps)
        | .error e => .error e
      else .error .jsError
  | some j =>
    if j.truthy then .ok (program.setKey "web_accessible_resources" (.arr []), deps)
    else .ok (program, deps)
  | none => .ok (program, deps)

/-- Lines 17-36: the fixed table of dependency-bearing manifest locations. -/
def DEP_LOCS : List (List String) :=
  [["icons"],
   ["browser_action", "default_icon"],
   ["browser_action", "default_popup"],
   ["page_action", "default_icon"],
   ["page_action", "default_popup"],
   ["action", "default_icon"],
   ["action", "default_popup"],
   ["background", "scripts"],
   ["background", "page"],
   ["chrome_url_overrides"],
   ["devtools_page"],
   ["options_ui", "page"],
   ["sidebar_action", "default_icon"],
   ["sidebar_action", "default_panel"],
   ["storage", "managed_schema"],
   ["theme", "images", "theme_frame"],
   ["theme", "images", "additional_backgrounds"],
   ["user_scripts", "api_script"]]

/-- `'/' + loc.join('/')` (line 218). -/
def ptrOfLoc (loc : List String) : String := "/" ++ String.intercalate "/" loc

/-- Walk of lines 220-225 as one value read (property reads on the way return
`undefined` rather than throwing; the throw happens at the next use). -/
def walkValue : List String → Json → Option Json
  | [], j => some j
  | k :: rest, j =>
    match j.get? k with
    | some v => walkValue rest v
    | none => none

/-- The dependency of lines 226-245: a fixed-location path, `.json` paths
routed through the `'url'` pipeline. -/
def depLocDep (ctx : Ctx) (ptr : String) (s : String) : Dep :=
  { specifier := s, needsStableName := true,
    loc := some { filePath := ctx.filePath, ptr := ptr, kind := .value },
    pipeline := if extname s = ".json" then some "url" else none }

/-- Lines 236-245, object form: rewrite every keyed value.  Per key: the
source location (its absence throws), then the value, which must be a string
(`path.extname` in the `pipeline` option rejects the rest). -/
def depLocObjAux (ctx : Ctx) (location : String) :
    List (String × Json) → List Dep → Except Err (List (String × Json) × List Dep)
  | [], deps => .ok ([], deps)
  | (k, v) :: rest, deps =>
    if !ctx.ptrs (location ++ "/" ++ k) then .error .jsError
    else
      match v with
      | .str s =>
        let (tok, deps) := addDep deps (depLocDep ctx (location ++ "/" ++ k) s)
        match depLocObjAux ctx location rest deps with
        | .ok (rest', deps) => .ok ((k, Json.str tok) :: rest', deps)
        | .error e => .error e
      | _ => .error .jsError

/-- Lines 236-245 over an array (JavaScript `Object.keys` of an array are its
decimal indices, in order). -/
def depLocArrAux (ctx : Ctx) (location : String) (j : Nat) :
    List Json → List Dep → Except Err (List Json × List Dep)
  | [], deps => .ok ([], deps)
  | v :: rest, deps =>
    if !ctx.ptrs (location ++ "/" ++ toString j) then .error .jsError
    else
      match v with
      | .str s =>
        let (tok, deps) := addDep deps (depLocDep ctx (location ++ "/" ++ toString j) s)
        match depLocArrAux ctx location (j + 1) rest deps with
        | .ok (rest', deps) => .ok (Json.str tok :: rest', deps)
        | .error e => .error e
      | _ => .error .jsError

/-- Lines 217-247, one table entry.  Skipped outright when the source-map
index has no entry for the pointer (line 219).  A path that does not resolve
to a value throws (`undefined` reached by the walk, or `Object.keys` of
`undefined`/`null`); a string is rewritten in place; an object or array is
rewritten valuewise; remaining primitives have no own keys and are no-ops. -/
def depLocStep (ctx : Ctx) (program : Json) (loc : List String) (deps : List Dep) :
    Except Err (Json × List Dep) :=
  let location := ptrOfLoc loc
  if !ctx.ptrs location then .ok (program, deps)
  else
    match walkValue loc program with
    | none => .error .jsError
    | some (.str s) =>
      let (tok, deps) := addDep deps (depLocDep ctx location s)
      .ok (program.updatePath loc (fun _ => .str tok), deps)
    | some (.obj kvs) =>
      match depLocObjAux ctx location kvs deps with
      | .ok (kvs', deps) => .ok (program.updatePath loc (fun _ => .obj kvs'), deps)
      | .error e => .error e
    | some (.arr xs) =>
      match depLocArrAux ctx location 0 xs deps with
      | .ok (xs', deps) => .ok (program.updatePath loc (fun _ => .arr xs'), deps)
      | .error e => .error e
    | some .null => .error .jsError
    | some _ => .ok (program, deps)

/-- The `for (const loc of DEP_LOCS)` fold, over any entry list. -/
def depLocsFold (ctx : Ctx) : List (List String) → Json → List Dep →
    Except Err (Json × List Dep)
  | [], program, deps => .ok (program, deps)
  | loc :: rest, program, deps =>
    match depLocStep ctx program loc deps with
    | .ok (program, deps) => depLocsFold ctx rest program deps
    | .error e => .error e

/-- Lines 217-247: the whole fixed-table pass. -/
def processDepLocs (ctx : Ctx) (program : Json) (deps : List Dep) :
    Except Err (Json × List Dep) :=
  depLocsFold ctx DEP_LOCS program deps

/-- The argument `program.content_security_policy` presents to `cspPatchHMR`:
a string passes through, a falsy value behaves like a missing one, and a
truthy non-string explodes inside the parser (`policy.split` is not a
function). -/
def cspArg : Option Json → Except Err (Option String)
  | none => .ok none
  | some (.str s) => .ok (some s)
  | some v => if v.truthy then .error .jsError else .ok none

/-- The MV2 auto-reload background-script dependency (lines 262-266). -/
def autoreloadBgDep : Dep :=
  { specifier := "./runtime/autoreload-bg.js", resolveFrom := some moduleFilename }

/-- The rewritten MV3 service-worker dependency (lines 271-283). -/
def swDep (needRuntimeBG : Bool) (sws srcType : String) : Dep :=
  { specifier := sws, needsStableName := true,
    pipeline := some (if needRuntimeBG then "mv3-bg-sw" else ""),
    env := some { context := some "service-worker", sourceType := some srcType } }

/-- The synthesized MV3 auto-reload service-worker dependency (lines 288-294). -/
def autoreloadSwDep : Dep :=
  { specifier := "./runtime/autoreload-bg.js", resolveFrom := some moduleFilename,
    env := some { context := some "service-worker" } }

/-- Lines 248-296: the version-dependent background wiring.  `isMV2` and
`needRuntimeBG` arrive from line 53 and phase 2.  Creating `background` (or
`background.scripts`) replaces a falsy value by the fresh container, while a
truthy non-container value makes the property write or the `push` throw. -/
def processBackground (ctx : Ctx) (isMV2 needRuntimeBG : Bool) (program : Json)
    (deps : List Dep) : Except Err (Json × List Dep) :=
  if isMV2 then
    if ctx.hot then
      match cspArg (program.get? "content_security_policy") with
      | .error e => .error e
      | .ok arg =>
        let program := program.setKey "content_security_policy" (.str (cspPatchHMR arg))
        if needRuntimeBG then
          let bg := match program.get? "background" with
            | some b => if b.truthy then b else Json.obj []
            | none => Json.obj []
          match bg with
          | .obj bkvs =>
            let scripts : Except Err (List Json) := match jlookup "scripts" bkvs with
              | some s =>
                if s.truthy then
                  match s with
                  | .arr xs => .ok xs
                  | _ => .error .jsError
                else .ok []
              | none => .ok []
            match scripts with
            | .ok xs =>
              let (tok, deps) := addDep deps autoreloadBgDep
              .ok (program.setKey "background"
                ((Json.obj bkvs).setKey "scripts" (.arr (xs ++ [Json.str tok]))), deps)
            | .error e => .error e
          | _ => .error .jsError
        else .ok (program, deps)
    else .ok (program, deps)
  else
    let swOpt := (program.get? "background").bind (fun b => b.get? "service_worker")
    let swTruthy := match swOpt with
      | some sw => sw.truthy
      | none => false
    if swTruthy then
      match swOpt with
      | some (.str sws) =>
        let srcType : String :=
          match (program.get? "background").bind (fun b => b.get? "type") with
          | some (.str t) => if t = "module" then "module" else "script"
          | _ => "script"
        let (tok, deps) := addDep deps (swDep needRuntimeBG sws srcType)
        .ok (program.updatePath ["background", "service_worker"] (fun _ => .str tok), deps)
      | _ => .error .jsError
    else
      if needRuntimeBG then
        let bg := match program.get? "background" with
          | some b => if b.truthy then b else Json.obj []
          | none => Json.obj []
        match bg with
        | .obj bkvs =>
          let (tok, deps) := addDep deps autoreloadSwDep
          .ok (program.setKey "background"
            ((Json.obj bkvs).setKey "service_worker" (.str tok)), deps)
        | _ => .error .jsError
      else .ok (program, deps)

/-- Line 53: `program.manifest_version == 2`.  Loose equality; the schemas
only admit a numeric version, and a numeric string would compare equal, which
the model ignores alongside the other numeric coercion corners. -/
def isMV2Of (program : Json) : Bool :=
  match program.get? "manifest_version" with
  | some (.num n) => n == 2
  | _ => false

/-- Lines 43-297: `collectDependencies`, the phases in source order.  A `null`
document throws at the first property read (line 53). -/
def collectDependencies (ctx : Ctx) (program : Json) (deps : List Dep) :
    Except Err (Json × List Dep) :=
  match program with
  | .null => .error .jsError
  | _ => do
    let isMV2 := isMV2Of program
    let (program, deps) ← processLocales ctx program deps
    let ((program, needRuntimeBG), deps) ← processContentScripts ctx program deps
    let (program, deps) ← processDictionaries ctx program deps
    let (program, deps) ← processThemeIcons ctx isMV2 program deps
    let (program, deps) ← processWAR ctx isMV2 program deps
    let (program, deps) ← processDepLocs ctx program deps
    processBackground ctx isMV2 needRuntimeBG program deps


/-! ## The `transform` entry point -/

/-- An asset as the transform sees it: path, pipeline tag, code. -/
structure Asset where
  filePath : String
  pipeline : Option String
  code : String
deriving Repr, DecidableEq

/-- Which schema line 337-342 selects (strict equality on the version). -/
inductive SchemaSel where
  | mv3 | mv2 | version
deriving Repr, DecidableEq

/-- Line 337-342: schema selection by strict `===` comparison. -/
def selectSchema (data : Json) : SchemaSel :=
  match data.get? "manifest_version" with
  | some (.num 3) => .mv3
  | some (.num 2) => .mv2
  | _ => .version

/-- Serialization of one JSON value with `JSON.stringify(data, null, 2)`-style
two-space indentation (fuelled by the nesting depth). -/
def stringifyJson (ind : Nat) (j : Json) : String :=
  let pad := String.mk (List.replicate (2 * ind) ' ')
  let padIn := String.mk (List.replicate (2 * (ind + 1)) ' ')
  match j with
  | .null => "null"
  | .bool b => if b then "true" else "false"
  | .num n => toString n
  | .str s => "\"" ++ s ++ "\""
  | .arr [] => "[]"
  | .arr xs =>
    "[\n" ++ String.intercalate ",\n"
      (xs.attach.map (fun x => padIn ++ stringifyJson (ind + 1) x.1))
    ++ "\n" ++ pad ++ "]"
  | .obj [] => "\x7b\x7d"
  | .obj kvs =>
    "\x7b\n" ++ String.intercalate ",\n"
      (kvs.attach.map (fun kv => padIn ++ "\"" ++ kv.1.1 ++ "\": "
        ++ stringifyJson (ind + 1) kv.1.2))
    ++ "\n" ++ pad ++ "\x7d"
termination_by sizeOf j
decreasing_by
  · have := List.sizeOf_lt_of_mem x.2
    simp only [Json.arr.sizeOf_spec]
    omega
  · have h1 := List.sizeOf_lt_of_mem kv.2
    have h2 : sizeOf kv.1.2 < sizeOf kv.1 := by
      obtain ⟨a, b⟩ := kv.1
      simp only [Prod.mk.sizeOf_spec]
      omega
    simp only [Json.obj.sizeOf_spec]
    omega

/-- Lines 321-363: the `transform` entry point.  The JSON-with-source-map
parser and the schema validator are external collaborators, passed in as
functions (`parseJsm` yields the document and the pointer index, or fails on
invalid JSON; `validate` yields a diagnostic exactly when the document
violates the selected schema); `autoreloadBG` is the bundled auto-reload
background snippet read at module load.  Returns the rewritten asset and the
dependencies registered on it. -/
def transform (validate : SchemaSel → Json → Option Diagnostic)
    (parseJsm : String → Option (Json × (String → Bool)))
    (autoreloadBG : String) (fs : FSModel) (hot : Bool) (asset : Asset) :
    Except Err (Asset × List Dep) :=
  if asset.pipeline = some "mv3-bg-sw" then
    .ok ({ asset with
      code := "\n        (function() \x7b\n          " ++ autoreloadBG
        ++ "\n        \x7d)();\n        " ++ asset.code ++ "\n      " }, [])
  else
    match parseJsm asset.code with
    | none => .error .jsError
    | some (data, ptrs) =>
      match validate (selectSchema data) data with
      | some d => .error (.diag d)
      | none =>
        match collectDependencies
            { fs := fs, filePath := asset.filePath, ptrs := ptrs, hot := hot } data [] with
        | .ok (data', deps) => .ok ({ asset with code := stringifyJson 0 data' }, deps)
        | .error e => .error e

/-! ## Statement vocabulary

Definitions used only to state and prove properties of the embedding. -/

/-- Characters legal inside a well-formed CSP name or token: no whitespace, no
separator. -/
def cleanChars (t : List Char) : Prop :=
  ∀ c ∈ t, c.isWhitespace = false ∧ c ≠ ';'

/-- A well-formed CSP name or token: non-empty and clean. -/
def cleanTok (t : List Char) : Prop := t ≠ [] ∧ cleanChars t

/-- Well-formedness of a parsed directive list: distinct names, and every name
and token clean — exactly what `parseCSPchars` produces. -/
def wfCSP (l : List (List Char × List (List Char))) : Prop :=
  (l.map Prod.fst).Nodup ∧ ∀ kv ∈ l, cleanTok kv.1 ∧ ∀ t ∈ kv.2, cleanTok t

/-- The dictionary entries after rewriting, when registration starts at token
counter `base`: each value becomes the token of its `.dic` dependency (two
registrations per entry). -/
def dictTokenEntries (base : Nat) : List (String × String) → List (String × Json)
  | [] => []
  | (n, _) :: rest => (n, Json.str (depToken base)) :: dictTokenEntries (base + 2) rest

/-- The dependencies the dictionary pass registers, in order. -/
def dictDepsOf (ctx : Ctx) : List (String × String) → List Dep
  | [] => []
  | (n, f) :: rest => dicDep ctx n f :: affDep ctx n f :: dictDepsOf ctx rest

/-- Consecutive dependency tokens from counter `base`, as string leaves. -/
def tokenStrs (base n : Nat) : List Json :=
  (List.range n).map (fun t => Json.str (depToken (base + t)))

/-- The dependencies registered for one content-script `css`/`js` list starting
at element `j`. -/
def scriptDeps (ctx : Ctx) (i : Nat) (k : String) : Nat → List String → List Dep
  | _, [] => []
  | j, s :: rest => csDep ctx i k j s :: scriptDeps ctx i k (j + 1) rest

/-- A content-script entry with the given `css` and `js` path lists. -/
def csEntry (css js : List String) : Json :=
  .obj [("matches", .arr [.str "<all_urls>"]),
        ("css", .arr (css.map Json.str)), ("js", .arr (js.map Json.str))]

/-- The source type lines 279-280 select: `'module'` exactly when the declared
`background.type` is the string `"module"`, `'script'` otherwise. -/
def bgSrcType (bkvs : List (String × Json)) : String :=
  match jlookup "type" bkvs with
  | some (.str t) => if t = "module" then "module" else "script"
  | _ => "script"

/-- Pointwise structural-type preservation: wherever a JSON pointer resolves in
both documents, the structural type is unchanged, and an unchanged-type leaf
other than a string is unchanged outright (only string leaves are rewritten). -/
def ShapePres (a b : Json) : Prop :=
  ∀ p v w, Json.resolve p a = some v → Json.resolve p b = some w →
    w.tag = v.tag ∧ (v.isNonStrLeaf = true → w = v)

/-- Domain monotonicity: every pointer that resolves keeps resolving. -/
def DomLE (a b : Json) : Prop :=
  ∀ p, (Json.resolve p a).isSome → (Json.resolve p b).isSome

/-- Shape preservation together with domain monotonicity (composable). -/
def ShapeStep (a b : Json) : Prop := ShapePres a b ∧ DomLE a b

/-! ## Concrete instances used by witnesses and counterexamples -/

/-- A filesystem with nothing in it. -/
def fsEmpty : FSModel :=
  { fsExists := fun _ => false, readdir := fun _ => [], glob := fun _ => [] }

/-- A filesystem where every path exists, directories list `entries`, and every
glob matches `files`. -/
def fsWith (entries files : List String) : FSModel :=
  { fsExists := fun _ => true, readdir := fun _ => entries, glob := fun _ => files }

/-- A pointer index holding exactly the listed JSON pointers. -/
def ptrsOf (l : List String) : String → Bool := fun p => l.contains p

/-- A context rooted at `ext/manifest.json`. -/
def ctxW (fs : FSModel) (ptrs : String → Bool) (hot : Bool) : Ctx :=
  { fs := fs, filePath := "ext/manifest.json", ptrs := ptrs, hot := hot }

/-- Witness manifest for the localization claim. -/
def wProg1 : Json := .obj [("default_locale", .str "en")]

/-- Witness manifest for the dictionary claim (well-formed entry). -/
def wDicts2 : List (String × String) := [("en", "dicts/en.dic")]

/-- Witness manifest with one well-formed dictionary entry. -/
def wProg2 : Json := .obj [("dictionaries", .obj [("en", .str "dicts/en.dic")])]

/-- Witness manifest with one ill-formed dictionary entry (`.txt`). -/
def wProg2bad : Json := .obj [("dictionaries", .obj [("en", .str "dicts/en.txt")])]

/-- Witness manifest for the content-script claim. -/
def wProg6 : Json := .obj [("content_scripts", .arr [csEntry ["style.css"] ["index.js"]])]

/-- Witness manifest for the MV3 service-worker claim. -/
def wProg7 : Json :=
  .obj [("manifest_version", .num 3),
        ("background", .obj [("service_worker", .str "sw.js"), ("type", .str "module")])]

/-- Witness manifest for the MV2 default-CSP claim. -/
def wProg5 : Json := .obj [("manifest_version", .num 2), ("name", .str "x")]

/-- Hot-reload context (empty pointer index, no files) for the default-CSP
witness. -/
def ctxC5 : Ctx := ctxW fsEmpty (ptrsOf []) true

/-- Whether a JSON value is an object (statement vocabulary: the manifest stays
an object across the phases). -/
def Json.isObj : Json → Bool
  | .obj _ => true
  | _ => false

/-- Witness asset for the wrapper-mode claim. -/
def wAsset8 : Asset :=
  { filePath := "ext/sw.js", pipeline := some "mv3-bg-sw", code := "self.onmessage = go" }

/-- Counterexample manifest for the shape-invariant claim: an MV3 manifest
whose single web-accessible-resources entry carries a string `resources`
glob. -/
def cexProg9 : Json :=
  .obj [("manifest_version", .num 3),
        ("web_accessible_resources", .arr [.obj [("resources", .str "*.png"),
                                                 ("matches", .arr [.str "<all_urls>"])]])]

/-- Context for the shape-invariant counterexample: the glob matches two
files. -/
def cexCtx9 : Ctx :=
  ctxW (fsWith [] ["ext/x.png", "ext/y.png"]) (ptrsOf ["/web_accessible_resources/0/resources"])
    false

/-- Witness manifest for the amended shape claim: an MV2 manifest with one
web-accessible-resources glob pattern. -/
def wProg9 : Json :=
  .obj [("manifest_version", .num 2), ("web_accessible_resources", .arr [.str "*.png"])]

/-- Context for the shape witness: the glob matches two files and the entry
has a source-map pointer. -/
def wCtx9 : Ctx :=
  ctxW (fsWith [] ["ext/x.png", "ext/y.png"]) (ptrsOf ["/web_accessible_resources/0"]) false

/-- Witness manifest for the fixed-location frame claim: an `icons` table with
no source-map entry next to a `devtools_page` that has one. -/
def wProg10 : Json :=
  .obj [("icons", .obj [("16", .str "icon16.png")]),
        ("devtools_page", .str "devtools.html")]

/-- Context for the fixed-location frame witness: only `/devtools_page` is in
the source-map index. -/
def ctxC10 : Ctx := ctxW fsEmpty (ptrsOf ["/devtools_page"]) false

/-! ## Lemmas: splitting, trimming, joining -/

theorem splitPredA_no_sep (p : Char → Bool) (a : List Char) (h : ∀ x ∈ a, p x = false) :
    splitPredA p a = (a, []) := by
  induction a with
  | nil => rfl
  | cons c cs ih =>
    have hc := h c (by simp)
    simp [splitPredA, hc, ih (fun x hx => h x (by simp [hx]))]

theorem splitPredA_append_sep (p : Char → Bool) (a : List Char) (c : Char) (rest : List Char)
    (ha : ∀ x ∈ a, p x = false) (hc : p c = true) :
    splitPredA p (a ++ c :: rest) = (a, splitPred p rest) := by
  induction a with
  | nil => simp [splitPredA, hc, splitPred]
  | cons x xs ih =>
    have hx := ha x (by simp)
    simp [splitPredA, hx, ih (fun y hy => ha y (by simp [hy]))]

theorem mem_splitPred (p : Char → Bool) :
    ∀ (cs : List Char) (g : List Char), g ∈ splitPred p cs → ∀ x ∈ g, x ∈ cs ∧ p x = false := by
  intro cs
  induction cs with
  | nil =>
    intro g hg x hx
    simp [splitPred, splitPredA] at hg
    subst hg
    simp at hx
  | cons c cs ih =>
    intro g hg x hx
    by_cases hc : p c
    · rw [show splitPred p (c :: cs) = [] :: splitPred p cs by
        simp [splitPred, splitPredA, hc]] at hg
      rcases List.mem_cons.mp hg with h1 | h2
      · subst h1; simp at hx
      · have := ih g h2 x hx
        exact ⟨by simp [this.1], this.2⟩
    · rw [show splitPred p (c :: cs)
          = (c :: (splitPredA p cs).1) :: (splitPredA p cs).2 by
        simp [splitPred, splitPredA, hc]] at hg
      rcases List.mem_cons.mp hg with h1 | h2
      · subst h1
        rcases List.mem_cons.mp hx with h3 | h4
        · subst h3
          exact ⟨by simp, by simpa using hc⟩
        · have := ih (splitPredA p cs).1 (by simp [splitPred]) x h4
          exact ⟨by simp [this.1], this.2⟩
      · have := ih g (by simp [splitPred, h2]) x hx
        exact ⟨by simp [this.1], this.2⟩

theorem mem_trimChars {x : Char} {l : List Char} (h : x ∈ trimChars l) : x ∈ l := by
  unfold trimChars at h
  rw [List.mem_reverse] at h
  have h1 := (List.dropWhile_sublist _).mem h
  rw [List.mem_reverse] at h1
  exact (List.dropWhile_sublist _).mem h1

theorem dropWhile_head_neg (p : Char → Bool) (a : Char) (l : List Char) (h : p a = false) :
    (a :: l).dropWhile p = a :: l := by
  rw [List.dropWhile_cons]
  simp [h]

theorem dropWhile_all_neg (p : Char → Bool) (l : List Char) (h : ∀ x ∈ l, p x = false) :
    l.dropWhile p = l := by
  cases l with
  | nil => rfl
  | cons a t => exact dropWhile_head_neg p a t (h a (by simp))

theorem trimChars_eq_self (l : List Char)
    (h1 : ∀ c, l.head? = some c → c.isWhitespace = false)
    (h2 : ∀ c, l.getLast? = some c → c.isWhitespace = false) :
    trimChars l = l := by
  unfold trimChars
  have e1 : l.dropWhile Char.isWhitespace = l := by
    cases l with
    | nil => rfl
    | cons a t => exact dropWhile_head_neg _ a t (h1 a rfl)
  rw [e1]
  have e2 : l.reverse.dropWhile Char.isWhitespace = l.reverse := by
    cases hr : l.reverse with
    | nil => rfl
    | cons a t =>
      have ha : l.getLast? = some a := by
        rw [← List.head?_reverse, hr]
        rfl
      exact dropWhile_head_neg _ a t (h2 a ha)
  rw [e2, List.reverse_reverse]

theorem trimChars_append_space (k : List Char) (h : ∀ c ∈ k, c.isWhitespace = false) :
    trimChars (k ++ [' ']) = k := by
  cases k with
  | nil => rfl
  | cons a k' =>
    unfold trimChars
    rw [show (a :: k') ++ [' '] = a :: (k' ++ [' ']) from rfl]
    rw [dropWhile_head_neg _ a (k' ++ [' ']) (h a (by simp))]
    rw [show (a :: (k' ++ [' '])).reverse = ' ' :: (a :: k').reverse by simp]
    rw [List.dropWhile_cons]
    rw [if_pos (by decide)]
    rw [dropWhile_all_neg _ _ (fun x hx => h x (List.mem_reverse.mp hx))]
    simp

theorem mem_joinChar {x sep : Char} :
    ∀ {ts : List (List Char)}, x ∈ joinChar sep ts → x = sep ∨ ∃ t ∈ ts, x ∈ t := by
  intro ts
  induction ts with
  | nil => intro h; simp [joinChar] at h
  | cons t ts ih =>
    intro h
    cases ts with
    | nil =>
      right
      exact ⟨t, by simp, by simpa [joinChar] using h⟩
    | cons t2 ts2 =>
      rw [show joinChar sep (t :: t2 :: ts2) = t ++ sep :: joinChar sep (t2 :: ts2) from rfl] at h
      rcases List.mem_append.mp h with h1 | h2
      · exact Or.inr ⟨t, by simp, h1⟩
      · rcases List.mem_cons.mp h2 with h3 | h4
        · exact Or.inl h3
        · rcases ih h4 with h5 | ⟨t', ht', hx⟩
          · exact Or.inl h5
          · exact Or.inr ⟨t', by simp [ht'], hx⟩

theorem joinChar_ne_nil (ts : List (List Char)) (hne : ts ≠ []) (h : ∀ t ∈ ts, t ≠ []) :
    joinChar ' ' ts ≠ [] := by
  cases ts with
  | nil => cases hne rfl
  | cons t ts =>
    cases ts with
    | nil => simpa [joinChar] using h t (by simp)
    | cons t2 ts2 =>
      rw [show joinChar ' ' (t :: t2 :: ts2) = t ++ ' ' :: joinChar ' ' (t2 :: ts2) from rfl]
      simp

theorem joinChar_getLast_clean (ts : List (List Char)) (h : ∀ t ∈ ts, cleanTok t) :
    ∀ c, (joinChar ' ' ts).getLast? = some c → c.isWhitespace = false := by
  induction ts with
  | nil => intro c hc; simp [joinChar] at hc
  | cons t ts ih =>
    intro c hc
    cases ts with
    | nil =>
      have hclean := h t (by simp)
      exact (hclean.2 c (List.mem_of_mem_getLast? (by simpa [joinChar] using hc))).1
    | cons t2 ts2 =>
      rw [show joinChar ' ' (t :: t2 :: ts2) = t ++ ' ' :: joinChar ' ' (t2 :: ts2) from rfl] at hc
      rw [List.getLast?_append_of_ne_nil _ (by simp)] at hc
      have hj : joinChar ' ' (t2 :: ts2) ≠ [] :=
        joinChar_ne_nil _ (by simp) (fun t' ht' => (h t' (by simp [ht'])).1)
      rw [show (' ' :: joinChar ' ' (t2 :: ts2)) = [' '] ++ joinChar ' ' (t2 :: ts2) from rfl,
        List.getLast?_append_of_ne_nil _ hj] at hc
      exact ih (fun t' ht' => h t' (by simp [ht'])) c hc

theorem splitPred_ws_joinChar (ts : List (List Char)) (hne : ts ≠ [])
    (h : ∀ t ∈ ts, cleanTok t) :
    splitPred Char.isWhitespace (joinChar ' ' ts) = ts := by
  induction ts with
  | nil => cases hne rfl
  | cons t ts ih =>
    cases ts with
    | nil =>
      have := splitPredA_no_sep Char.isWhitespace t (fun x hx => ((h t (by simp)).2 x hx).1)
      simp [joinChar, splitPred, this]
    | cons t2 ts2 =>
      have hA := splitPredA_append_sep Char.isWhitespace t ' ' (joinChar ' ' (t2 :: ts2))
        (fun x hx => ((h t (by simp)).2 x hx).1) (by decide)
      rw [show joinChar ' ' (t :: t2 :: ts2) = t ++ ' ' :: joinChar ' ' (t2 :: ts2) from rfl]
      rw [show splitPred Char.isWhitespace (t ++ ' ' :: joinChar ' ' (t2 :: ts2))
            = (splitPredA Char.isWhitespace (t ++ ' ' :: joinChar ' ' (t2 :: ts2))).1
              :: (splitPredA Char.isWhitespace (t ++ ' ' :: joinChar ' ' (t2 :: ts2))).2 from rfl]
      rw [hA]
      rw [ih (by simp) (fun t' ht' => h t' (by simp [ht']))]

/-! ## Lemmas: the CSP parse of a serialized directive list -/

theorem filter_nonempty_eq_self (L : List (List Char)) (h : ∀ t ∈ L, t ≠ []) :
    L.filter (fun t => !t.isEmpty) = L := by
  rw [List.filter_eq_self]
  intro t ht
  simpa [List.isEmpty_iff] using h t ht

theorem segTokens_dirChunk (k : List Char) (ts : List (List Char))
    (hk : cleanTok k) (hts : ∀ t ∈ ts, cleanTok t) :
    segTokens (dirChunk (k, ts)) = k :: ts := by
  cases ts with
  | nil =>
    unfold segTokens
    rw [show dirChunk (k, []) = k ++ [' '] from rfl]
    rw [trimChars_append_space k (fun c hc => (hk.2 c hc).1)]
    rw [show splitPred Char.isWhitespace k
          = (splitPredA Char.isWhitespace k).1 :: (splitPredA Char.isWhitespace k).2 from rfl]
    rw [splitPredA_no_sep _ k (fun c hc => (hk.2 c hc).1)]
    exact filter_nonempty_eq_self [k] (by simpa using hk.1)
  | cons t2 ts2 =>
    unfold segTokens
    have hchunk : dirChunk (k, t2 :: ts2) = k ++ ' ' :: joinChar ' ' (t2 :: ts2) := rfl
    have htrim : trimChars (dirChunk (k, t2 :: ts2)) = dirChunk (k, t2 :: ts2) := by
      apply trimChars_eq_self
      · intro c hc
        rw [hchunk] at hc
        cases hk' : k with
        | nil => exact absurd hk' hk.1
        | cons a kt =>
          rw [hk'] at hc
          simp only [List.cons_append, List.head?_cons, Option.some.injEq] at hc
          subst hc
          exact (hk.2 a (by simp [hk'])).1
      · intro c hc
        rw [hchunk] at hc
        rw [List.getLast?_append_of_ne_nil _ (by simp)] at hc
        have hj : joinChar ' ' (t2 :: ts2) ≠ [] :=
          joinChar_ne_nil _ (by simp) (fun t' ht' => (hts t' ht').1)
        rw [show (' ' :: joinChar ' ' (t2 :: ts2)) = [' '] ++ joinChar ' ' (t2 :: ts2) from rfl,
          List.getLast?_append_of_ne_nil _ hj] at hc
        exact joinChar_getLast_clean _ hts c hc
    rw [htrim, hchunk]
    have hA := splitPredA_append_sep Char.isWhitespace k ' ' (joinChar ' ' (t2 :: ts2))
      (fun c hc => (hk.2 c hc).1) (by decide)
    rw [show splitPred Char.isWhitespace (k ++ ' ' :: joinChar ' ' (t2 :: ts2))
          = (splitPredA Char.isWhitespace (k ++ ' ' :: joinChar ' ' (t2 :: ts2))).1
            :: (splitPredA Char.isWhitespace (k ++ ' ' :: joinChar ' ' (t2 :: ts2))).2 from rfl]
    rw [hA]
    rw [splitPred_ws_joinChar (t2 :: ts2) (by simp) hts]
    exact filter_nonempty_eq_self (k :: t2 :: ts2)
      (by
        intro t ht
        rcases List.mem_cons.mp ht with h1 | h2
        · subst h1; exact hk.1
        · exact (hts t h2).1)

theorem isSemi_eq_false_iff (c : Char) : isSemi c = false ↔ c ≠ ';' := by
  simp [isSemi]

theorem dirChunk_no_semi (kv : List Char × List (List Char))
    (h : cleanTok kv.1 ∧ ∀ t ∈ kv.2, cleanTok t) :
    ∀ x ∈ dirChunk kv, isSemi x = false := by
  intro x hx
  unfold dirChunk at hx
  rcases List.mem_append.mp hx with h1 | h2
  · exact (isSemi_eq_false_iff x).mpr (h.1.2 x h1).2
  · rcases List.mem_cons.mp h2 with h3 | h4
    · subst h3; decide
    · rcases mem_joinChar h4 with h5 | ⟨t, ht, hxt⟩
      · subst h5; decide
      · exact (isSemi_eq_false_iff x).mpr ((h.2 t ht).2 x hxt).2

theorem splitPred_semi_serialize (l : List (List Char × List (List Char))) (rest : List Char)
    (h : ∀ kv ∈ l, cleanTok kv.1 ∧ ∀ t ∈ kv.2, cleanTok t) :
    splitPred isSemi (cspSerialize l ++ rest) = l.map dirChunk ++ splitPred isSemi rest := by
  induction l with
  | nil => simp [cspSerialize]
  | cons kv l ih =>
    have hser : cspSerialize (kv :: l) ++ rest
        = dirChunk kv ++ ';' :: (cspSerialize l ++ rest) := by
      simp [cspSerialize]
    rw [hser]
    have hA := splitPredA_append_sep isSemi (dirChunk kv) ';' (cspSerialize l ++ rest)
      (dirChunk_no_semi kv (h kv (by simp))) (by decide)
    rw [show splitPred isSemi (dirChunk kv ++ ';' :: (cspSerialize l ++ rest))
          = (splitPredA isSemi (dirChunk kv ++ ';' :: (cspSerialize l ++ rest))).1
            :: (splitPredA isSemi (dirChunk kv ++ ';' :: (cspSerialize l ++ rest))).2 from rfl]
    rw [hA]
    rw [ih (fun kv' hkv' => h kv' (by simp [hkv']))]
    simp

theorem parseCSPAux_cons_nil (acc : List (List Char × List (List Char))) (seg : List Char)
    (rest : List (List Char)) (h : segTokens seg = []) :
    parseCSPAux acc (seg :: rest) = parseCSPAux acc rest := by
  rw [parseCSPAux, h]

theorem parseCSPAux_cons_mem (acc : List (List Char × List (List Char))) (seg : List Char)
    (rest : List (List Char)) (k : List Char) (ts : List (List Char))
    (h : segTokens seg = k :: ts) (hk : k ∈ acc.map Prod.fst) :
    parseCSPAux acc (seg :: rest) = parseCSPAux acc rest := by
  rw [parseCSPAux, h]
  dsimp only
  rw [if_pos hk]

theorem parseCSPAux_cons_not_mem (acc : List (List Char × List (List Char))) (seg : List Char)
    (rest : List (List Char)) (k : List Char) (ts : List (List Char))
    (h : segTokens seg = k :: ts) (hk : k ∉ acc.map Prod.fst) :
    parseCSPAux acc (seg :: rest) = parseCSPAux (acc ++ [(k, ts)]) rest := by
  rw [parseCSPAux, h]
  dsimp only
  rw [if_neg hk]

theorem parseCSPAux_append (acc : List (List Char × List (List Char)))
    (s1 s2 : List (List Char)) :
    parseCSPAux acc (s1 ++ s2) = parseCSPAux (parseCSPAux acc s1) s2 := by
  induction s1 generalizing acc with
  | nil => rfl
  | cons seg rest ih =>
    rw [List.cons_append]
    cases hseg : segTokens seg with
    | nil =>
      rw [parseCSPAux_cons_nil acc seg _ hseg, parseCSPAux_cons_nil acc seg rest hseg]
      exact ih acc
    | cons k ts =>
      by_cases hk : k ∈ acc.map Prod.fst
      · rw [parseCSPAux_cons_mem acc seg _ k ts hseg hk,
          parseCSPAux_cons_mem acc seg rest k ts hseg hk]
        exact ih acc
      · rw [parseCSPAux_cons_not_mem acc seg _ k ts hseg hk,
          parseCSPAux_cons_not_mem acc seg rest k ts hseg hk]
        exact ih _

theorem parseCSPAux_chunks (l : List (List Char × List (List Char))) :
    ∀ acc, ((acc ++ l).map Prod.fst).Nodup →
    (∀ kv ∈ l, cleanTok kv.1 ∧ ∀ t ∈ kv.2, cleanTok t) →
    parseCSPAux acc (l.map dirChunk) = acc ++ l := by
  induction l with
  | nil => intro acc _ _; simp [parseCSPAux]
  | cons kv l ih =>
    intro acc hnd h
    have hk : kv.1 ∉ acc.map Prod.fst := by
      rw [List.map_append, List.nodup_append] at hnd
      intro hmem
      exact hnd.2.2 hmem (by simp)
    rw [List.map_cons,
      parseCSPAux_cons_not_mem acc (dirChunk kv) _ kv.1 kv.2
        (segTokens_dirChunk kv.1 kv.2 (h kv (by simp)).1 (h kv (by simp)).2) hk]
    have := ih (acc ++ [kv]) (by simpa using hnd) (fun kv' hkv' => h kv' (by simp [hkv']))
    simpa using this

theorem segTokens_nil : segTokens [] = [] := rfl

theorem parseCSP_serialize (l : List (List Char × List (List Char))) (hwf : wfCSP l) :
    parseCSPchars (cspSerialize l) = l := by
  unfold parseCSPchars
  have hs := splitPred_semi_serialize l [] hwf.2
  rw [List.append_nil] at hs
  rw [hs, parseCSPAux_append]
  rw [parseCSPAux_chunks l [] (by simpa using hwf.1) hwf.2]
  rfl

/-! ## Lemmas: well-formedness of a parse -/

theorem mem_segTokens_clean (seg : List Char) (hseg : ∀ c ∈ seg, isSemi c = false) :
    ∀ t ∈ segTokens seg, cleanTok t := by
  intro t ht
  unfold segTokens at ht
  rw [List.mem_filter] at ht
  obtain ⟨hmem, hne⟩ := ht
  refine ⟨by simpa [List.isEmpty_iff] using hne, ?_⟩
  intro c hc
  have hsp := mem_splitPred Char.isWhitespace (trimChars seg) t hmem c hc
  refine ⟨hsp.2, ?_⟩
  exact (isSemi_eq_false_iff c).mp (hseg c (mem_trimChars hsp.1))

theorem parseCSPAux_nodup (segs : List (List Char)) :
    ∀ acc, (acc.map Prod.fst).Nodup → ((parseCSPAux acc segs).map Prod.fst).Nodup := by
  induction segs with
  | nil => intro acc h; exact h
  | cons seg rest ih =>
    intro acc h
    cases hseg : segTokens seg with
    | nil =>
      rw [parseCSPAux_cons_nil acc seg rest hseg]
      exact ih acc h
    | cons k ts =>
      by_cases hk : k ∈ acc.map Prod.fst
      · rw [parseCSPAux_cons_mem acc seg rest k ts hseg hk]
        exact ih acc h
      · rw [parseCSPAux_cons_not_mem acc seg rest k ts hseg hk]
        exact ih _ (by simp [List.nodup_append, h, hk])

theorem parseCSPAux_mem_clean (segs : List (List Char))
    (hsegs : ∀ seg ∈ segs, ∀ c ∈ seg, isSemi c = false) :
    ∀ acc, (∀ kv ∈ acc, cleanTok kv.1 ∧ ∀ t ∈ kv.2, cleanTok t) →
    ∀ kv ∈ parseCSPAux acc segs, cleanTok kv.1 ∧ ∀ t ∈ kv.2, cleanTok t := by
  induction segs with
  | nil => intro acc hacc kv hkv; exact hacc kv hkv
  | cons seg rest ih =>
    intro acc hacc kv hkv
    rcases hseg : segTokens seg with _ | ⟨k, ts⟩
    · rw [parseCSPAux_cons_nil acc seg rest hseg] at hkv
      exact ih (fun s hs => hsegs s (by simp [hs])) acc hacc kv hkv
    · by_cases hk : k ∈ acc.map Prod.fst
      · rw [parseCSPAux_cons_mem acc seg rest k ts hseg hk] at hkv
        exact ih (fun s hs => hsegs s (by simp [hs])) acc hacc kv hkv
      · rw [parseCSPAux_cons_not_mem acc seg rest k ts hseg hk] at hkv
        refine ih (fun s hs => hsegs s (by simp [hs])) (acc ++ [(k, ts)]) ?_ kv hkv
        intro kv' hkv'
        rcases List.mem_append.mp hkv' with h1 | h2
        · exact hacc kv' h1
        · have hclean := mem_segTokens_clean seg (hsegs seg (by simp))
          rw [hseg] at hclean
          have hkv'' : kv' = (k, ts) := by simpa using h2
          subst hkv''
          exact ⟨hclean k (by simp), fun t ht => hclean t (by simp [ht])⟩

theorem wfCSP_parseCSPchars (cs : List Char) : wfCSP (parseCSPchars cs) := by
  constructor
  · exact parseCSPAux_nodup _ [] (by simp)
  · exact parseCSPAux_mem_clean _
      (fun seg hseg c hc => (mem_splitPred isSemi cs seg hseg c hc).2) [] (by simp)

/-! ## Lemmas: directive lookup and update -/

theorem lookupDir_eq_none (k : List Char) :
    ∀ l, lookupDir k l = none ↔ k ∉ l.map Prod.fst := by
  intro l
  induction l with
  | nil => simp [lookupDir]
  | cons kv rest ih =>
    by_cases h : kv.1 = k
    · simp [lookupDir, h]
    · simp [lookupDir, h, ih, Ne.symm h]

theorem lookupDir_append_of_none (k : List Char) (l1 l2 : List (List Char × List (List Char)))
    (h : lookupDir k l1 = none) :
    lookupDir k (l1 ++ l2) = lookupDir k l2 := by
  induction l1 with
  | nil => rfl
  | cons kv rest ih =>
    by_cases hk : kv.1 = k
    · rw [lookupDir, if_pos hk] at h
      exact absurd h (by simp)
    · rw [lookupDir, if_neg hk] at h
      rw [List.cons_append, lookupDir, if_neg hk]
      exact ih h

theorem lookupDir_mem (k : List Char) :
    ∀ (l : List (List Char × List (List Char))) ts, lookupDir k l = some ts → (k, ts) ∈ l := by
  intro l
  induction l with
  | nil => intro ts h; simp [lookupDir] at h
  | cons kv rest ih =>
    intro ts h
    by_cases hk : kv.1 = k
    · rw [lookupDir, if_pos hk] at h
      have hkv : kv = (k, ts) := by
        obtain ⟨k0, v0⟩ := kv
        simp only [Option.some.injEq] at h
        simp only at hk
        rw [hk, h]
      rw [hkv]
      simp
    · rw [lookupDir, if_neg hk] at h
      exact List.mem_cons_of_mem _ (ih ts h)

theorem lookupDir_nodup_val (k : List Char) :
    ∀ (l : List (List Char × List (List Char))) ts, (l.map Prod.fst).Nodup →
    lookupDir k l = some ts → ∀ v, (k, v) ∈ l → v = ts := by
  intro l
  induction l with
  | nil => intro ts _ h; simp [lookupDir] at h
  | cons kv rest ih =>
    intro ts hnd h v hv
    rw [List.map_cons, List.nodup_cons] at hnd
    have hnd' := hnd
    by_cases hk : kv.1 = k
    · rw [lookupDir, if_pos hk] at h
      rcases List.mem_cons.mp hv with h1 | h2
      · have h2 : kv.2 = ts := by
          simpa using h
        rw [← h1] at h2
        exact h2
      · exfalso
        have hmem : k ∈ rest.map Prod.fst := List.mem_map.mpr ⟨(k, v), h2, rfl⟩
        rw [← hk] at hmem
        exact hnd'.1 hmem
    · rw [lookupDir, if_neg hk] at h
      rcases List.mem_cons.mp hv with h1 | h2
      · exact absurd (congrArg Prod.fst h1).symm hk
      · exact ih ts hnd'.2 h v h2

theorem updateDir_append_not_mem (k : List Char) (v : List (List Char))
    (l1 : List (List Char × List (List Char))) (e : List (List Char))
    (h : k ∉ l1.map Prod.fst) :
    updateDir k v (l1 ++ [(k, e)]) = l1 ++ [(k, v)] := by
  induction l1 with
  | nil => simp [updateDir]
  | cons kv rest ih =>
    have hk : kv.1 ≠ k := by
      intro he
      exact h (by simp [he])
    rw [List.cons_append, updateDir, if_neg hk, List.cons_append]
    rw [ih (fun hm => h (by simp [hm]))]

theorem updateDir_eq_map (k : List Char) (v : List (List Char)) :
    ∀ l, (l.map Prod.fst).Nodup →
    updateDir k v l = l.map (fun kv => if kv.1 = k then (k, v) else kv) := by
  intro l
  induction l with
  | nil => intro _; rfl
  | cons kv rest ih =>
    intro hnd
    rw [List.map_cons, List.nodup_cons] at hnd
    have hnd' := hnd
    by_cases hk : kv.1 = k
    · rw [updateDir, if_pos hk]
      simp only [List.map_cons, if_pos hk]
      rw [hk]
      congr 1
      have hknotin : k ∉ rest.map Prod.fst := by
        have := hnd'.1
        rwa [hk] at this
      have hrest : ∀ kv' ∈ rest, (fun kv' => if kv'.1 = k then (k, v) else kv') kv' = kv' := by
        intro kv' hkv'
        have hne : kv'.1 ≠ k := by
          intro he
          exact hknotin (he ▸ List.mem_map.mpr ⟨kv', hkv', rfl⟩)
        simp [hne]
      rw [List.map_congr_left hrest, List.map_id']
    · rw [updateDir, if_neg hk]
      simp only [List.map_cons, if_neg hk]
      congr 1
      exact ih hnd'.2

theorem updateDir_map_fst (k : List Char) (v : List (List Char)) :
    ∀ l, (updateDir k v l).map Prod.fst = l.map Prod.fst := by
  intro l
  induction l with
  | nil => rfl
  | cons kv rest ih =>
    by_cases hk : kv.1 = k
    · simp [updateDir, hk]
    · simp [updateDir, hk, ih]

theorem mem_updateDir (k : List Char) (v : List (List Char))
    (l : List (List Char × List (List Char))) :
    ∀ kv' ∈ updateDir k v l, kv' ∈ l ∨ (kv'.1 = k ∧ kv'.2 = v ∧ k ∈ l.map Prod.fst) := by
  induction l with
  | nil => intro kv' h; simp [updateDir] at h
  | cons kv rest ih =>
    intro kv' h
    by_cases hk : kv.1 = k
    · rw [updateDir, if_pos hk] at h
      rcases List.mem_cons.mp h with h1 | h2
      · subst h1
        exact Or.inr ⟨hk, rfl, by simp [hk]⟩
      · exact Or.inl (by simp [h2])
    · rw [updateDir, if_neg hk] at h
      rcases List.mem_cons.mp h with h1 | h2
      · exact Or.inl (by simp [h1])
      · rcases ih kv' h2 with h3 | ⟨h4, h5, h6⟩
        · exact Or.inl (by simp [h3])
        · exact Or.inr ⟨h4, h5, by simp [h6]⟩

theorem wfCSP_updateDir (k : List Char) (v : List (List Char))
    (l : List (List Char × List (List Char))) (hwf : wfCSP l)
    (hk : k ∈ l.map Prod.fst) (hv : ∀ t ∈ v, cleanTok t) :
    wfCSP (updateDir k v l) := by
  constructor
  · rw [updateDir_map_fst]
    exact hwf.1
  · intro kv' hkv'
    rcases mem_updateDir k v l kv' hkv' with h1 | ⟨h2, h3, _⟩
    · exact hwf.2 kv' h1
    · obtain ⟨kf, hkf, hkeq⟩ := List.mem_map.mp hk
      refine ⟨?_, ?_⟩
      · rw [h2, ← hkeq]
        exact (hwf.2 kf hkf).1
      · rw [h3]
        exact hv

theorem cspSerialize_append (l1 l2 : List (List Char × List (List Char))) :
    cspSerialize (l1 ++ l2) = cspSerialize l1 ++ cspSerialize l2 := by
  simp [cspSerialize]

theorem parseCSPchars_empty : parseCSPchars (String.data "") = [] := rfl

/-! ## Claim C3: patching a policy that already allows eval -/

/-- C3 (counterexample): the claim says the patched policy has exactly one
occurrence of `'unsafe-eval'` in `script-src`.  A policy whose `script-src`
already lists the token twice is returned with both occurrences: the patcher
never deduplicates, it only refrains from appending. -/
theorem claim_C3_cex :
    ((cspDirectives "script-src 'unsafe-eval' 'unsafe-eval'").lookup "script-src"
      = some ["'unsafe-eval'", "'unsafe-eval'"]) ∧
    ((cspDirectives
        (cspPatchHMR (some "script-src 'unsafe-eval' 'unsafe-eval'"))).lookup "script-src"
      = some ["'unsafe-eval'", "'unsafe-eval'"]) ∧
    ¬ ((((cspDirectives
          (cspPatchHMR (some "script-src 'unsafe-eval' 'unsafe-eval'"))).lookup
            "script-src").getD []).count "'unsafe-eval'" = 1) := by
  refine ⟨rfl, rfl, ?_⟩
  decide

/-- C3 (amended): for every policy string whose parsed `script-src` directive
contains the token `'unsafe-eval'`, the patcher returns the bare
re-serialization of the parsed policy: the parse of the output equals the
parse of the input, so every directive — `script-src` included — keeps its
token list unchanged and in the original order (hence `'unsafe-eval'` occurs
in `script-src` exactly as often as it did in the input, at least once, though
not necessarily exactly once). -/
theorem claim_C3 (p : String) (ts : List (List Char))
    (hss : lookupDir scriptSrcK (parseCSPchars p.data) = some ts)
    (heval : unsafeEvalTok ∈ ts) :
    cspPatchHMR (some p) = String.mk (cspSerialize (parseCSPchars p.data)) ∧
    cspDirectives (cspPatchHMR (some p)) = cspDirectives p := by
  have hp : p ≠ "" := by
    intro h
    rw [h, parseCSPchars_empty] at hss
    exact Option.noConfusion hss
  have hpatch : cspPatch (parseCSPchars p.data) = parseCSPchars p.data := by
    unfold cspPatch
    rw [hss]
    dsimp only
    rw [hss]
    dsimp only
    rw [if_pos heval]
  have hout : cspPatchHMR (some p) = String.mk (cspSerialize (parseCSPchars p.data)) := by
    unfold cspPatchHMR
    dsimp only
    rw [if_neg hp, hpatch]
  refine ⟨hout, ?_⟩
  unfold cspDirectives
  rw [hout]
  rw [show (String.mk (cspSerialize (parseCSPchars p.data))).data
        = cspSerialize (parseCSPchars p.data) from rfl]
  rw [parseCSP_serialize _ (wfCSP_parseCSPchars p.data)]

/-- C3 (witness): an already-patched two-directive policy is returned with
every directive intact. -/
theorem claim_C3_witness :
    cspDirectives (cspPatchHMR (some "script-src 'self' 'unsafe-eval';img-src a"))
      = cspDirectives "script-src 'self' 'unsafe-eval';img-src a" :=
  (claim_C3 "script-src 'self' 'unsafe-eval';img-src a"
    ["'self'".data, "'unsafe-eval'".data] rfl (by decide)).2

/-! ## Claim C4: patching a policy without eval -/

/-- C4 (counterexample): the claim says a policy with no `script-src`
directive gets one whose source list is exactly
`'self' 'unsafe-eval' blob: filesystem:`.  In fact the synthesized directive
is a single array element holding that whole string, which the
`includes("'unsafe-eval'")` check does not recognise, so `'unsafe-eval'` is
appended once more: the output's `script-src` source list has five tokens,
not four. -/
theorem claim_C4_cex :
    ("img-src a" ≠ "") ∧
    ((cspDirectives "img-src a").lookup "script-src" = none) ∧
    ((cspDirectives (cspPatchHMR (some "img-src a"))).lookup "script-src"
      = some ["'self'", "'unsafe-eval'", "blob:", "filesystem:", "'unsafe-eval'"]) ∧
    some ["'self'", "'unsafe-eval'", "blob:", "filesystem:"]
      ≠ some ["'self'", "'unsafe-eval'", "blob:", "filesystem:", "'unsafe-eval'"] := by
  refine ⟨by decide, rfl, rfl, by decide⟩

theorem segTokens_synthChunk :
    segTokens (dirChunk (scriptSrcK, [defaultScriptSrcTok, unsafeEvalTok]))
      = scriptSrcK :: ["'self'".data, "'unsafe-eval'".data, "blob:".data,
          "filesystem:".data, "'unsafe-eval'".data] := by
  decide

theorem dirChunk_synth_no_semi :
    ∀ x ∈ dirChunk (scriptSrcK, [defaultScriptSrcTok, unsafeEvalTok]), isSemi x = false := by
  decide

/-- C4 (amended): for every non-empty policy with no `script-src` directive,
the output appends a `script-src` directive whose source list is the default
`'self' 'unsafe-eval' blob: filesystem:` followed by one more appended
`'unsafe-eval'` token (the synthesized default is a single list entry that the
append check does not recognise as containing the token); for every policy
whose `script-src` exists but lacks `'unsafe-eval'`, the output's `script-src`
is the original token list with `'unsafe-eval'` appended once at the end; in
both cases the other directives keep their token lists and order, and every
directive is re-serialized terminated by `';'`. -/
theorem claim_C4 :
    (∀ p : String, p ≠ "" → lookupDir scriptSrcK (parseCSPchars p.data) = none →
      cspDirectives (cspPatchHMR (some p))
        = cspDirectives p
          ++ [("script-src",
               ["'self'", "'unsafe-eval'", "blob:", "filesystem:", "'unsafe-eval'"])]) ∧
    (∀ (p : String) (ts : List (List Char)),
      lookupDir scriptSrcK (parseCSPchars p.data) = some ts → unsafeEvalTok ∉ ts →
      cspDirectives (cspPatchHMR (some p))
        = (cspDirectives p).map
            (fun kv => if kv.1 = "script-src" then (kv.1, kv.2 ++ ["'unsafe-eval'"]) else kv)) ∧
    (∀ p : String, p ≠ "" →
      cspPatchHMR (some p) = String.mk (cspSerialize (cspPatch (parseCSPchars p.data)))) := by
  refine ⟨?_, ?_, ?_⟩
  · intro p hp hnone
    have hwf := wfCSP_parseCSPchars p.data
    have hnotmem : scriptSrcK ∉ (parseCSPchars p.data).map Prod.fst :=
      (lookupDir_eq_none scriptSrcK _).mp hnone
    have hpatch : cspPatch (parseCSPchars p.data)
        = parseCSPchars p.data ++ [(scriptSrcK, [defaultScriptSrcTok, unsafeEvalTok])] := by
      unfold cspPatch
      rw [hnone]
      dsimp only
      rw [lookupDir_append_of_none scriptSrcK _ _ hnone]
      rw [show lookupDir scriptSrcK [(scriptSrcK, [defaultScriptSrcTok])]
            = some [defaultScriptSrcTok] from rfl]
      dsimp only
      rw [if_neg (by decide : ¬ unsafeEvalTok ∈ [defaultScriptSrcTok])]
      rw [updateDir_append_not_mem scriptSrcK _ _ _ hnotmem]
      rfl
    have hout : cspPatchHMR (some p) = String.mk (cspSerialize (cspPatch (parseCSPchars p.data))) := by
      unfold cspPatchHMR
      dsimp only
      rw [if_neg hp]
    have hparse : parseCSPchars (cspSerialize (cspPatch (parseCSPchars p.data)))
        = parseCSPchars p.data
          ++ [(scriptSrcK, ["'self'".data, "'unsafe-eval'".data, "blob:".data,
               "filesystem:".data, "'unsafe-eval'".data])] := by
      rw [hpatch, cspSerialize_append]
      rw [show cspSerialize [(scriptSrcK, [defaultScriptSrcTok, unsafeEvalTok])]
            = dirChunk (scriptSrcK, [defaultScriptSrcTok, unsafeEvalTok]) ++ [';'] by
          simp [cspSerialize]]
      rw [show parseCSPchars (cspSerialize (parseCSPchars p.data)
            ++ (dirChunk (scriptSrcK, [defaultScriptSrcTok, unsafeEvalTok]) ++ [';']))
          = parseCSPAux [] (splitPred isSemi (cspSerialize (parseCSPchars p.data)
            ++ (dirChunk (scriptSrcK, [defaultScriptSrcTok, unsafeEvalTok]) ++ [';'])))
          from rfl]
      rw [splitPred_semi_serialize _ _ hwf.2]
      rw [show splitPred isSemi (dirChunk (scriptSrcK, [defaultScriptSrcTok, unsafeEvalTok]) ++ [';'])
            = [dirChunk (scriptSrcK, [defaultScriptSrcTok, unsafeEvalTok]), []] by
          have := splitPredA_append_sep isSemi
            (dirChunk (scriptSrcK, [defaultScriptSrcTok, unsafeEvalTok])) ';' []
            dirChunk_synth_no_semi (by decide)
          rw [show dirChunk (scriptSrcK, [defaultScriptSrcTok, unsafeEvalTok]) ++ [';']
                = dirChunk (scriptSrcK, [defaultScriptSrcTok, unsafeEvalTok]) ++ ';' :: [] from rfl]
          rw [show splitPred isSemi (dirChunk (scriptSrcK, [defaultScriptSrcTok, unsafeEvalTok])
                ++ ';' :: [])
              = (splitPredA isSemi (dirChunk (scriptSrcK, [defaultScriptSrcTok, unsafeEvalTok])
                  ++ ';' :: [])).1
                :: (splitPredA isSemi (dirChunk (scriptSrcK, [defaultScriptSrcTok, unsafeEvalTok])
                  ++ ';' :: [])).2 from rfl]
          rw [this]
          rfl]
      rw [parseCSPAux_append]
      rw [parseCSPAux_chunks _ [] (by simpa using hwf.1) hwf.2]
      rw [List.nil_append]
      rw [parseCSPAux_cons_not_mem _ _ _ _ _ segTokens_synthChunk hnotmem]
      rw [parseCSPAux_cons_nil _ _ _ segTokens_nil]
      rfl
    unfold cspDirectives
    rw [hout]
    rw [show (String.mk (cspSerialize (cspPatch (parseCSPchars p.data)))).data
          = cspSerialize (cspPatch (parseCSPchars p.data)) from rfl]
    rw [hparse, List.map_append]
    rfl
  · intro p ts hss hneval
    have hp : p ≠ "" := by
      intro h
      rw [h, parseCSPchars_empty] at hss
      exact Option.noConfusion hss
    have hwf := wfCSP_parseCSPchars p.data
    have hmem : scriptSrcK ∈ (parseCSPchars p.data).map Prod.fst :=
      List.mem_map.mpr ⟨(scriptSrcK, ts), lookupDir_mem scriptSrcK _ ts hss, rfl⟩
    have htsclean : ∀ t ∈ ts ++ [unsafeEvalTok], cleanTok t := by
      intro t ht
      rcases List.mem_append.mp ht with h1 | h2
      · exact (hwf.2 (scriptSrcK, ts) (lookupDir_mem scriptSrcK _ ts hss)).2 t h1
      · have he : t = unsafeEvalTok := by simpa using h2
        rw [he]
        unfold cleanTok cleanChars
        decide
    have hpatch : cspPatch (parseCSPchars p.data)
        = updateDir scriptSrcK (ts ++ [unsafeEvalTok]) (parseCSPchars p.data) := by
      unfold cspPatch
      rw [hss]
      dsimp only
      rw [hss]
      dsimp only
      rw [if_neg hneval]
    have hwf' : wfCSP (updateDir scriptSrcK (ts ++ [unsafeEvalTok]) (parseCSPchars p.data)) :=
      wfCSP_updateDir _ _ _ hwf hmem htsclean
    have hout : cspPatchHMR (some p)
        = String.mk (cspSerialize (updateDir scriptSrcK (ts ++ [unsafeEvalTok])
            (parseCSPchars p.data))) := by
      unfold cspPatchHMR
      dsimp only
      rw [if_neg hp, hpatch]
    unfold cspDirectives
    rw [hout]
    rw [show (String.mk (cspSerialize (updateDir scriptSrcK (ts ++ [unsafeEvalTok])
          (parseCSPchars p.data)))).data
        = cspSerialize (updateDir scriptSrcK (ts ++ [unsafeEvalTok]) (parseCSPchars p.data))
        from rfl]
    rw [parseCSP_serialize _ hwf']
    rw [updateDir_eq_map scriptSrcK (ts ++ [unsafeEvalTok]) _ hwf.1]
    rw [List.map_map, List.map_map]
    apply List.map_congr_left
    intro kv hkv
    by_cases hk : kv.1 = scriptSrcK
    · have hval : kv.2 = ts :=
        lookupDir_nodup_val scriptSrcK _ ts hwf.1 hss kv.2 (by
          rw [← hk]
          exact hkv)
      simp only [Function.comp_apply, if_pos hk]
      rw [hk, hval]
      rw [if_pos (show (String.mk scriptSrcK) = "script-src" from rfl)]
      simp only [List.map_append, List.map_cons, List.map_nil]
      rfl
    · have hs : String.mk kv.1 ≠ "script-src" := by
        intro he
        exact hk (congrArg String.data he)
      simp only [Function.comp_apply, if_neg hk]
      rw [if_neg hs]
  · intro p hp
    unfold cspPatchHMR
    dsimp only
    rw [if_neg hp]

/-- C4 (witness): both amended branches at concrete policies — synthesis on
`img-src a`, append on `script-src 'self';img-src a`. -/
theorem claim_C4_witness :
    cspDirectives (cspPatchHMR (some "img-src a"))
      = cspDirectives "img-src a"
        ++ [("script-src",
             ["'self'", "'unsafe-eval'", "blob:", "filesystem:", "'unsafe-eval'"])] ∧
    cspDirectives (cspPatchHMR (some "script-src 'self';img-src a"))
      = (cspDirectives "script-src 'self';img-src a").map
          (fun kv => if kv.1 = "script-src" then (kv.1, kv.2 ++ ["'unsafe-eval'"]) else kv) :=
  ⟨claim_C4.1 "img-src a" (by decide) rfl,
   claim_C4.2.1 "script-src 'self';img-src a" ["'self'".data] rfl (by decide)⟩

/-! ## Claim C1: localization handling -/

theorem foldl_addDep_localeDep (ls : List String) :
    ∀ deps, ls.foldl (fun ds l => (addDep ds (localeDep l)).2) deps = deps ++ ls.map localeDep := by
  induction ls with
  | nil => intro deps; simp
  | cons l ls ih =>
    intro deps
    rw [List.foldl_cons, ih]
    simp [addDep]

theorem collect_err_of_locales_err (ctx : Ctx) (p : Json) (deps : List Dep) (e : Err)
    (hp : p ≠ .null) (h : processLocales ctx p deps = .error e) :
    collectDependencies ctx p deps = .error e := by
  cases p with
  | null => exact absurd rfl hp
  | bool b => unfold collectDependencies; rw [h]; rfl
  | num n => unfold collectDependencies; rw [h]; rfl
  | str s => unfold collectDependencies; rw [h]; rfl
  | arr xs => unfold collectDependencies; rw [h]; rfl
  | obj kvs => unfold collectDependencies; rw [h]; rfl

/-- C1: for every manifest with a (truthy, string) `default_locale` whose
source-map pointer is indexed: when the sibling `_locales` directory does not
exist, the localization phase — and with it the whole collection — fails with
the diagnostic pinned to the `default_locale` **key**; when `_locales` exists
but has no subdirectory named after the declared locale, it fails with the
distinguishable diagnostic pinned to the `default_locale` **value**; and when
both exist, the phase succeeds, leaves the document unchanged, and registers
one dependency per entry of `_locales`, each for
`_locales/<entry>/messages.json` with `needsStableName` and pipeline `'raw'`. -/
theorem claim_C1 (ctx : Ctx) (program : Json) (locale : String)
    (hdl : program.get? "default_locale" = some (.str locale)) (hne : locale ≠ "")
    (hptr : ctx.ptrs "/default_locale" = true) :
    (ctx.fs.fsExists (joinPath (dirname ctx.filePath) "_locales") = false →
      ∀ deps, processLocales ctx program deps = .error (.diag (localeDiag ctx locale .key)) ∧
        (program ≠ .null →
          collectDependencies ctx program deps = .error (.diag (localeDiag ctx locale .key)))) ∧
    (ctx.fs.fsExists (joinPath (dirname ctx.filePath) "_locales") = true →
      ctx.fs.fsExists (joinPath (joinPath (dirname ctx.filePath) "_locales") locale) = false →
      ∀ deps, processLocales ctx program deps = .error (.diag (localeDiag ctx locale .value)) ∧
        (program ≠ .null →
          collectDependencies ctx program deps = .error (.diag (localeDiag ctx locale .value)))) ∧
    (localeDiag ctx locale .key ≠ localeDiag ctx locale .value) ∧
    (ctx.fs.fsExists (joinPath (dirname ctx.filePath) "_locales") = true →
      ctx.fs.fsExists (joinPath (joinPath (dirname ctx.filePath) "_locales") locale) = true →
      ∀ deps, processLocales ctx program deps
        = .ok (program,
            deps ++ (ctx.fs.readdir (joinPath (dirname ctx.filePath) "_locales")).map localeDep)) := by
  have htr : Json.truthy (.str locale) = true := by
    simp [Json.truthy, hne]
  refine ⟨?_, ?_, ?_, ?_⟩
  · intro hA deps
    have hploc : processLocales ctx program deps = .error (.diag (localeDiag ctx locale .key)) := by
      unfold processLocales
      rw [hdl]
      dsimp only
      rw [htr]
      simp [hA, hptr]
    exact ⟨hploc, fun hp => collect_err_of_locales_err ctx program deps _ hp hploc⟩
  · intro hA hB deps
    have hploc : processLocales ctx program deps
        = .error (.diag (localeDiag ctx locale .value)) := by
      unfold processLocales
      rw [hdl]
      dsimp only
      rw [htr]
      simp [hA, hB, hptr]
    exact ⟨hploc, fun hp => collect_err_of_locales_err ctx program deps _ hp hploc⟩
  · intro h
    have := congrArg Diagnostic.highlights h
    simp [localeDiag] at this
  · intro hA hB deps
    unfold processLocales
    rw [hdl]
    dsimp only
    rw [htr]
    simp [hA, hB, foldl_addDep_localeDep]

/-- C1 (witness): both failure diagnostics and the success registration at
concrete manifests — an empty filesystem for the `key` diagnostic, and a
filesystem whose `_locales` lists `en` and `de` for the registration. -/
theorem claim_C1_witness :
    processLocales (ctxW fsEmpty (ptrsOf ["/default_locale"]) false) wProg1 []
      = .error (.diag (localeDiag (ctxW fsEmpty (ptrsOf ["/default_locale"]) false) "en" .key)) ∧
    processLocales (ctxW (fsWith ["en", "de"] []) (ptrsOf ["/default_locale"]) false) wProg1 []
      = .ok (wProg1, [localeDep "en", localeDep "de"]) :=
  ⟨((claim_C1 (ctxW fsEmpty (ptrsOf ["/default_locale"]) false) wProg1 "en" rfl
      (by decide) rfl).1 rfl []).1,
   by
    have := (claim_C1 (ctxW (fsWith ["en", "de"] []) (ptrsOf ["/default_locale"]) false)
      wProg1 "en" rfl (by decide) rfl).2.2.2 rfl rfl []
    simpa using this⟩

/-! ## Claim C2: dictionaries -/

theorem dictEntriesAux_ok (ctx : Ctx) :
    ∀ (files : List (String × String)) (deps : List Dep),
    (∀ p ∈ files, ctx.ptrs ("/dictionaries/" ++ p.1) = true) →
    (∀ p ∈ files, extname p.2 = ".dic") →
    dictEntriesAux ctx (files.map (fun p => (p.1, Json.str p.2))) deps
      = .ok (dictTokenEntries deps.length files, deps ++ dictDepsOf ctx files) := by
  intro files
  induction files with
  | nil => intro deps _ _; simp [dictEntriesAux, dictTokenEntries, dictDepsOf]
  | cons p rest ih =>
    intro deps hptrs hdic
    obtain ⟨name, file⟩ := p
    simp only [List.map_cons]
    unfold dictEntriesAux
    rw [show (!ctx.ptrs ("/dictionaries/" ++ name)) = false by
      simp [hptrs (name, file) (by simp)]]
    rw [if_neg (show ¬(false = true) by decide)]
    dsimp only
    rw [if_neg (by simp [hdic (name, file) (by simp)])]
    simp only [addDep]
    rw [ih (deps ++ [dicDep ctx name file] ++ [affDep ctx name file])
      (fun q hq => hptrs q (by simp [hq])) (fun q hq => hdic q (by simp [hq]))]
    dsimp only
    simp [dictTokenEntries, dictDepsOf]

theorem dictEntriesAux_err (ctx : Ctx) :
    ∀ (good : List (String × String)) (name file : String) (rest : List (String × Json))
      (deps : List Dep),
    (∀ p ∈ good, ctx.ptrs ("/dictionaries/" ++ p.1) = true) →
    (∀ p ∈ good, extname p.2 = ".dic") →
    ctx.ptrs ("/dictionaries/" ++ name) = true →
    extname file ≠ ".dic" →
    dictEntriesAux ctx (good.map (fun p => (p.1, Json.str p.2))
        ++ (name, Json.str file) :: rest) deps
      = .error (.diag (dictDiag ctx name)) := by
  intro good
  induction good with
  | nil =>
    intro name file rest deps _ _ hptr hbad
    rw [List.map_nil, List.nil_append]
    unfold dictEntriesAux
    rw [show (!ctx.ptrs ("/dictionaries/" ++ name)) = false by simp [hptr]]
    rw [if_neg (show ¬(false = true) by decide)]
    dsimp only
    rw [if_pos hbad]
  | cons p good ih =>
    intro name file rest deps hptrs hdic hptr hbad
    obtain ⟨n, f⟩ := p
    rw [List.map_cons, List.cons_append]
    unfold dictEntriesAux
    rw [show (!ctx.ptrs ("/dictionaries/" ++ n)) = false by
      simp [hptrs (n, f) (by simp)]]
    rw [if_neg (show ¬(false = true) by decide)]
    dsimp only
    rw [if_neg (by simp [hdic (n, f) (by simp)])]
    simp only [addDep]
    rw [ih name file rest _ (fun q hq => hptrs q (by simp [hq]))
      (fun q hq => hdic q (by simp [hq])) hptr hbad]

/-- C2: for every `dictionaries` object of string entries — when the first
entry whose path does not end in `.dic` is reached (all earlier entries
well-formed), the transform fails with the diagnostic pinned to that entry's
value; when every entry ends in `.dic`, the pass succeeds, replaces each
entry's value by the token of its `.dic` dependency, and registers exactly two
stable-named dependencies per entry: the `.dic` path itself and the sibling
path with the same base name and extension `.aff`. -/
theorem claim_C2 (ctx : Ctx) (program : Json) :
    (∀ (good : List (String × String)) (name file : String) (rest : List (String × Json))
       (deps : List Dep),
      program.get? "dictionaries"
        = some (.obj (good.map (fun p => (p.1, Json.str p.2)) ++ (name, .str file) :: rest)) →
      (∀ p ∈ good, ctx.ptrs ("/dictionaries/" ++ p.1) = true) →
      (∀ p ∈ good, extname p.2 = ".dic") →
      ctx.ptrs ("/dictionaries/" ++ name) = true →
      extname file ≠ ".dic" →
      processDictionaries ctx program deps = .error (.diag (dictDiag ctx name))) ∧
    (∀ (files : List (String × String)) (deps : List Dep),
      program.get? "dictionaries" = some (.obj (files.map (fun p => (p.1, Json.str p.2)))) →
      (∀ p ∈ files, ctx.ptrs ("/dictionaries/" ++ p.1) = true) →
      (∀ p ∈ files, extname p.2 = ".dic") →
      processDictionaries ctx program deps
        = .ok (program.setKey "dictionaries" (.obj (dictTokenEntries deps.length files)),
               deps ++ dictDepsOf ctx files)) := by
  constructor
  · intro good name file rest deps hget hptrs hdic hptr hbad
    unfold processDictionaries
    rw [hget]
    dsimp only
    rw [dictEntriesAux_err ctx good name file rest deps hptrs hdic hptr hbad]
  · intro files deps hget hptrs hdic
    unfold processDictionaries
    rw [hget]
    dsimp only
    rw [dictEntriesAux_ok ctx files deps hptrs hdic]

/-- C2 (witness): `dictionaries: {"en": "dicts/en.dic"}` registers the `.dic`
and `.aff` pair and rewrites the value to the `.dic` token;
`dictionaries: {"en": "dicts/en.txt"}` fails pinned to the entry's value. -/
theorem claim_C2_witness :
    processDictionaries (ctxW fsEmpty (ptrsOf ["/dictionaries/en"]) false) wProg2 []
      = .ok (wProg2.setKey "dictionaries" (.obj (dictTokenEntries 0 wDicts2)),
             dictDepsOf (ctxW fsEmpty (ptrsOf ["/dictionaries/en"]) false) wDicts2) ∧
    processDictionaries (ctxW fsEmpty (ptrsOf ["/dictionaries/en"]) false) wProg2bad []
      = .error (.diag (dictDiag (ctxW fsEmpty (ptrsOf ["/dictionaries/en"]) false) "en")) := by
  constructor
  · have := (claim_C2 (ctxW fsEmpty (ptrsOf ["/dictionaries/en"]) false) wProg2).2 wDicts2 []
      rfl (by decide) (by decide)
    simpa using this
  · exact (claim_C2 (ctxW fsEmpty (ptrsOf ["/dictionaries/en"]) false) wProg2bad).1
      [] "en" "dicts/en.txt" [] [] rfl (by simp) (by simp) rfl (by decide)

/-! ## Claim C7: MV3 background wiring -/

theorem isMV2Of_eq_false_of_mv3 (program : Json)
    (hmv3 : program.get? "manifest_version" = some (.num 3)) :
    isMV2Of program = false := by
  unfold isMV2Of
  rw [hmv3]
  decide

/-- C7: for every MV3 manifest — a declared (string, truthy)
`background.service_worker` is replaced by the dependency token, and the
single registered dependency has `needsStableName`, pipeline `'mv3-bg-sw'`
exactly when the runtime-companion flag is set (the empty pipeline tag
otherwise), execution context `'service-worker'`, and source type `'module'`
exactly when `background.type` is the string `"module"` (`'script'` for any
other or missing type); when no service worker is declared but the flag is
set, a `background.service_worker` field is synthesized pointing at the
bundled auto-reload background script, creating `background` if absent. -/
theorem claim_C7 (ctx : Ctx) (program : Json) (needRuntimeBG : Bool)
    (hmv3 : program.get? "manifest_version" = some (.num 3)) :
    isMV2Of program = false ∧
    (∀ (bkvs : List (String × Json)) (sws : String) (deps : List Dep),
      program.get? "background" = some (.obj bkvs) →
      jlookup "service_worker" bkvs = some (.str sws) → sws ≠ "" →
      processBackground ctx (isMV2Of program) needRuntimeBG program deps
        = .ok (program.updatePath ["background", "service_worker"]
                 (fun _ => .str (depToken deps.length)),
               deps ++ [swDep needRuntimeBG sws (bgSrcType bkvs)])) ∧
    (∀ bkvs, jlookup "type" bkvs = some (.str "module") → bgSrcType bkvs = "module") ∧
    (∀ bkvs t, jlookup "type" bkvs = some (.str t) → t ≠ "module" →
      bgSrcType bkvs = "script") ∧
    (∀ bkvs, jlookup "type" bkvs = none → bgSrcType bkvs = "script") ∧
    (∀ deps : List Dep, program.get? "background" = none → needRuntimeBG = true →
      processBackground ctx (isMV2Of program) needRuntimeBG program deps
        = .ok (program.setKey "background"
                 (.obj [("service_worker", .str (depToken deps.length))]),
               deps ++ [autoreloadSwDep])) ∧
    (∀ (bkvs : List (String × Json)) (deps : List Dep),
      program.get? "background" = some (.obj bkvs) →
      jlookup "service_worker" bkvs = none → needRuntimeBG = true →
      processBackground ctx (isMV2Of program) needRuntimeBG program deps
        = .ok (program.setKey "background"
                 ((Json.obj bkvs).setKey "service_worker" (.str (depToken deps.length))),
               deps ++ [autoreloadSwDep])) := by
  have hm := isMV2Of_eq_false_of_mv3 program hmv3
  refine ⟨hm, ?_, ?_, ?_, ?_, ?_, ?_⟩
  · intro bkvs sws deps hbg hsw hne
    rw [hm]
    unfold processBackground
    rw [if_neg (show ¬(false = true) by decide)]
    rw [hbg]
    dsimp only [Option.bind, Json.get?]
    rw [hsw]
    dsimp only
    rw [show Json.truthy (.str sws) = true by simp [Json.truthy, hne]]
    rw [if_pos rfl]
    simp only [addDep]
    rfl
  · intro bkvs h
    unfold bgSrcType
    rw [h]
    rfl
  · intro bkvs t h hne
    unfold bgSrcType
    rw [h]
    simp [hne]
  · intro bkvs h
    unfold bgSrcType
    rw [h]
  · intro deps hbg hneed
    rw [hm, hneed]
    unfold processBackground
    rw [if_neg (show ¬(false = true) by decide)]
    rw [hbg]
    dsimp only [Option.bind]
    rw [if_neg (show ¬(false = true) by decide)]
    rw [if_pos rfl]
    simp [addDep, Json.setKey, setAssoc]
  · intro bkvs deps hbg hsw hneed
    rw [hm, hneed]
    unfold processBackground
    rw [if_neg (show ¬(false = true) by decide)]
    rw [hbg]
    dsimp only [Option.bind, Json.get?]
    rw [hsw]
    dsimp only
    rw [if_neg (show ¬(false = true) by decide)]
    rw [if_pos rfl]
    simp [addDep, Json.truthy]

/-- C7 (witness): a concrete MV3 manifest with a module service worker and the
runtime-companion flag set gets the `mv3-bg-sw` pipeline, service-worker
context and module source type. -/
theorem claim_C7_witness :
    processBackground (ctxW fsEmpty (ptrsOf []) true) (isMV2Of wProg7) true wProg7 []
      = .ok (wProg7.updatePath ["background", "service_worker"]
               (fun _ => .str (depToken 0)),
             [swDep true "sw.js" "module"]) := by
  have := (claim_C7 (ctxW fsEmpty (ptrsOf []) true) wProg7 true rfl).2.1
    [("service_worker", .str "sw.js"), ("type", .str "module")] "sw.js" [] rfl rfl
    (by decide)
  simpa using this

/-! ## Claim C8: the wrapper-mode transform -/

/-- C8: for every asset tagged with the `mv3-bg-sw` pipeline — and for every
schema validator, JSON parser, snippet content, filesystem and mode flag — the
transform succeeds, registers no dependency, and its output code is the
original asset code textually preceded by the auto-reload background snippet
wrapped in an immediately-invoked function expression; the result mentions
neither the validator nor the parser, so no schema validation and no
dependency collection takes place. -/
theorem claim_C8 (validate : SchemaSel → Json → Option Diagnostic)
    (parseJsm : String → Option (Json × (String → Bool)))
    (autoreloadBG : String) (fs : FSModel) (hot : Bool) (asset : Asset)
    (hpipe : asset.pipeline = some "mv3-bg-sw") :
    transform validate parseJsm autoreloadBG fs hot asset
      = .ok ({ asset with
          code := "\n        (function() \x7b\n          " ++ autoreloadBG
            ++ "\n        \x7d)();\n        " ++ asset.code ++ "\n      " }, []) := by
  unfold transform
  rw [if_pos hpipe]

/-- C8 (witness): the wrapper mode at a concrete asset, with a validator that
rejects everything and a parser that fails on everything — neither is
consulted. -/
theorem claim_C8_witness :
    transform
        (fun _ _ => some { message := "no", origin := "o", filePath := "f", highlights := [] })
        (fun _ => none) "reloadBg()" fsEmpty false wAsset8
      = .ok ({ wAsset8 with
          code := "\n        (function() \x7b\n          " ++ "reloadBg()"
            ++ "\n        \x7d)();\n        " ++ wAsset8.code ++ "\n      " }, []) :=
  claim_C8 _ _ "reloadBg()" fsEmpty false wAsset8 rfl

/-! ## Claim C10: skipped fixed locations are untouched -/

theorem jlookup_updateAssoc_ne (k k0 : String) (f : Json → Json) (hne : k ≠ k0) :
    ∀ kvs, jlookup k (updateAssoc k0 f kvs) = jlookup k kvs := by
  intro kvs
  induction kvs with
  | nil => rfl
  | cons kv rest ih =>
    by_cases h : kv.1 = k0
    · rw [updateAssoc, if_pos h]
      rw [jlookup, jlookup]
      rw [if_neg (show ¬(kv.1 = k) by rw [h]; exact fun he => hne he.symm)]
      rw [if_neg (show ¬(kv.1 = k) by rw [h]; exact fun he => hne he.symm)]
    · rw [updateAssoc, if_neg h]
      rw [jlookup, jlookup]
      by_cases hk : kv.1 = k
      · rw [if_pos hk, if_pos hk]
      · rw [if_neg hk, if_neg hk]
        exact ih

theorem jlookup_updateAssoc_eq (k0 : String) (f : Json → Json) :
    ∀ kvs, jlookup k0 (updateAssoc k0 f kvs) = (jlookup k0 kvs).map f := by
  intro kvs
  induction kvs with
  | nil => rfl
  | cons kv rest ih =>
    by_cases h : kv.1 = k0
    · rw [updateAssoc, if_pos h, jlookup, if_pos h, jlookup, if_pos h]
      rfl
    · rw [updateAssoc, if_neg h, jlookup, if_neg h, jlookup, if_neg h]
      exact ih

theorem walkValue_updatePath_ne :
    ∀ (ℓ ℓ' : List String) (f : Json → Json) (p : Json),
    ¬ List.IsPrefix ℓ' ℓ → ¬ List.IsPrefix ℓ ℓ' →
    walkValue ℓ (p.updatePath ℓ' f) = walkValue ℓ p := by
  intro ℓ
  induction ℓ with
  | nil =>
    intro ℓ' f p _ h2
    exact absurd List.nil_prefix h2
  | cons k r ih =>
    intro ℓ' f p h1 h2
    cases ℓ' with
    | nil => exact absurd List.nil_prefix h1
    | cons k' r' =>
      cases p with
      | obj kvs =>
        by_cases hk : k = k'
        · subst hk
          have h1' : ¬ List.IsPrefix r' r := by
            intro hp
            exact h1 (by simpa [List.cons_prefix_cons] using hp)
          have h2' : ¬ List.IsPrefix r r' := by
            intro hp
            exact h2 (by simpa [List.cons_prefix_cons] using hp)
          rw [show walkValue (k :: r) ((Json.obj kvs).updatePath (k :: r') f)
                = (match jlookup k (updateAssoc k (Json.updatePath r' f) kvs) with
                   | some v => walkValue r v
                   | none => none) from rfl]
          rw [show walkValue (k :: r) (Json.obj kvs)
                = (match jlookup k kvs with
                   | some v => walkValue r v
                   | none => none) from rfl]
          rw [jlookup_updateAssoc_eq]
          cases hv : jlookup k kvs with
          | none => rfl
          | some v =>
            dsimp only [Option.map]
            exact ih r' f v h1' h2'
        · rw [show walkValue (k :: r) ((Json.obj kvs).updatePath (k' :: r') f)
                = (match jlookup k (updateAssoc k' (Json.updatePath r' f) kvs) with
                   | some v => walkValue r v
                   | none => none) from rfl]
          rw [show walkValue (k :: r) (Json.obj kvs)
                = (match jlookup k kvs with
                   | some v => walkValue r v
                   | none => none) from rfl]
          rw [jlookup_updateAssoc_ne k k' _ hk]
      | null => rfl
      | bool b => rfl
      | num n => rfl
      | str s => rfl
      | arr xs => rfl

theorem deplocs_pairwise :
    ∀ a ∈ DEP_LOCS, ∀ b ∈ DEP_LOCS, a ≠ b → ¬ List.IsPrefix a b := by
  decide

theorem depLocStep_skip (ctx : Ctx) (program : Json) (loc : List String) (deps : List Dep)
    (habs : ctx.ptrs (ptrOfLoc loc) = false) :
    depLocStep ctx program loc deps = .ok (program, deps) := by
  unfold depLocStep
  dsimp only
  rw [show (!ctx.ptrs (ptrOfLoc loc)) = true by simp [habs]]
  rw [if_pos rfl]

theorem depLocStep_walk_other (ctx : Ctx) (program : Json) (loc : List String)
    (deps : List Dep) (p' : Json) (d' : List Dep)
    (h : depLocStep ctx program loc deps = .ok (p', d'))
    (ℓ : List String) (h1 : ¬ List.IsPrefix loc ℓ) (h2 : ¬ List.IsPrefix ℓ loc) :
    walkValue ℓ p' = walkValue ℓ program := by
  cases hptr : ctx.ptrs (ptrOfLoc loc) with
  | false =>
    rw [depLocStep_skip ctx program loc deps hptr] at h
    obtain ⟨rfl, rfl⟩ : program = p' ∧ deps = d' := by
      constructor <;> [exact congrArg Prod.fst (Except.ok.inj h);
        exact congrArg Prod.snd (Except.ok.inj h)]
    rfl
  | true =>
    unfold depLocStep at h
    dsimp only at h
    rw [show (!ctx.ptrs (ptrOfLoc loc)) = false by simp [hptr]] at h
    rw [if_neg (show ¬(false = true) by decide)] at h
    cases hw : walkValue loc program with
    | none => rw [hw] at h; exact absurd h (by simp)
    | some v =>
      rw [hw] at h
      cases v with
      | null => exact absurd h (by simp)
      | bool b =>
        dsimp only at h
        have : program = p' := congrArg Prod.fst (Except.ok.inj h)
        rw [← this]
      | num n =>
        dsimp only at h
        have : program = p' := congrArg Prod.fst (Except.ok.inj h)
        rw [← this]
      | str s =>
        simp only [addDep] at h
        have : p' = program.updatePath loc (fun _ => .str (depToken deps.length)) := by
          have := Except.ok.inj h
          exact (congrArg Prod.fst this).symm
        rw [this]
        exact walkValue_updatePath_ne ℓ loc _ program h1 h2
      | obj kvs =>
        dsimp only at h
        cases hr : depLocObjAux ctx (ptrOfLoc loc) kvs deps with
        | error e => rw [hr] at h; exact absurd h (by simp)
        | ok res =>
          rw [hr] at h
          have : p' = program.updatePath loc (fun _ => .obj res.1) := by
            have := Except.ok.inj h
            exact (congrArg Prod.fst this).symm
          rw [this]
          exact walkValue_updatePath_ne ℓ loc _ program h1 h2
      | arr xs =>
        dsimp only at h
        cases hr : depLocArrAux ctx (ptrOfLoc loc) 0 xs deps with
        | error e => rw [hr] at h; exact absurd h (by simp)
        | ok res =>
          rw [hr] at h
          have : p' = program.updatePath loc (fun _ => .arr res.1) := by
            have := Except.ok.inj h
            exact (congrArg Prod.fst this).symm
          rw [this]
          exact walkValue_updatePath_ne ℓ loc _ program h1 h2

theorem depLocObjAux_deps (ctx : Ctx) (location : String) :
    ∀ (kvs : List (String × Json)) (deps : List Dep) res,
    depLocObjAux ctx location kvs deps = .ok res →
    ∀ d ∈ res.2, d ∈ deps ∨ ∃ k s, d = depLocDep ctx (location ++ "/" ++ k) s := by
  intro kvs
  induction kvs with
  | nil =>
    intro deps res h d hd
    have : deps = res.2 := by
      have := Except.ok.inj h
      exact congrArg Prod.snd this
    rw [← this] at hd
    exact Or.inl hd
  | cons kv rest ih =>
    intro deps res h d hd
    obtain ⟨k, v⟩ := kv
    unfold depLocObjAux at h
    by_cases hptr : ctx.ptrs (location ++ "/" ++ k) = true
    · rw [show (!ctx.ptrs (location ++ "/" ++ k)) = false by simp [hptr]] at h
      rw [if_neg (show ¬(false = true) by decide)] at h
      cases v with
      | str s =>
        simp only [addDep] at h
        cases hr : depLocObjAux ctx location rest (deps ++ [depLocDep ctx (location ++ "/" ++ k) s]) with
        | error e => rw [hr] at h; exact absurd h (by simp)
        | ok res2 =>
          rw [hr] at h
          have hres2 : res.2 = res2.2 := by
            have := Except.ok.inj h
            exact (congrArg Prod.snd this).symm
          rw [hres2] at hd
          rcases ih _ res2 hr d hd with hin | hnew
          · rcases List.mem_append.mp hin with h1 | h2
            · exact Or.inl h1
            · exact Or.inr ⟨k, s, by simpa using h2⟩
          · exact Or.inr hnew
      | null => exact absurd h (by simp)
      | bool b => exact absurd h (by simp)
      | num n => exact absurd h (by simp)
      | arr xs => exact absurd h (by simp)
      | obj kvs2 => exact absurd h (by simp)
    · rw [show (!ctx.ptrs (location ++ "/" ++ k)) = true by
        simp [Bool.not_eq_true] at hptr; simp [hptr]] at h
      rw [if_pos rfl] at h
      exact absurd h (by simp)

theorem depLocArrAux_deps (ctx : Ctx) (location : String) :
    ∀ (xs : List Json) (j : Nat) (deps : List Dep) res,
    depLocArrAux ctx location j xs deps = .ok res →
    ∀ d ∈ res.2, d ∈ deps ∨ ∃ k s, d = depLocDep ctx (location ++ "/" ++ k) s := by
  intro xs
  induction xs with
  | nil =>
    intro j deps res h d hd
    have : deps = res.2 := by
      have := Except.ok.inj h
      exact congrArg Prod.snd this
    rw [← this] at hd
    exact Or.inl hd
  | cons v rest ih =>
    intro j deps res h d hd
    unfold depLocArrAux at h
    by_cases hptr : ctx.ptrs (location ++ "/" ++ toString j) = true
    · rw [show (!ctx.ptrs (location ++ "/" ++ toString j)) = false by simp [hptr]] at h
      rw [if_neg (show ¬(false = true) by decide)] at h
      cases v with
      | str s =>
        simp only [addDep] at h
        cases hr : depLocArrAux ctx location (j + 1) rest
            (deps ++ [depLocDep ctx (location ++ "/" ++ toString j) s]) with
        | error e => rw [hr] at h; exact absurd h (by simp)
        | ok res2 =>
          rw [hr] at h
          have hres2 : res.2 = res2.2 := by
            have := Except.ok.inj h
            exact (congrArg Prod.snd this).symm
          rw [hres2] at hd
          rcases ih _ _ res2 hr d hd with hin | hnew
          · rcases List.mem_append.mp hin with h1 | h2
            · exact Or.inl h1
            · exact Or.inr ⟨toString j, s, by simpa using h2⟩
          · exact Or.inr hnew
      | null => exact absurd h (by simp)
      | bool b => exact absurd h (by simp)
      | num n => exact absurd h (by simp)
      | arr ys => exact absurd h (by simp)
      | obj kvs2 => exact absurd h (by simp)
    · rw [show (!ctx.ptrs (location ++ "/" ++ toString j)) = true by
        simp [Bool.not_eq_true] at hptr; simp [hptr]] at h
      rw [if_pos rfl] at h
      exact absurd h (by simp)

theorem depLocStep_deps (ctx : Ctx) (program : Json) (loc : List String) (deps : List Dep)
    (p' : Json) (d' : List Dep) (h : depLocStep ctx program loc deps = .ok (p', d')) :
    ∀ d ∈ d', d ∈ deps ∨ (ctx.ptrs (ptrOfLoc loc) = true ∧ ∃ l, d.loc = some l ∧
      (l.ptr = ptrOfLoc loc ∨ ∃ k, l.ptr = ptrOfLoc loc ++ "/" ++ k)) := by
  intro d hd
  cases hptr : ctx.ptrs (ptrOfLoc loc) with
  | false =>
    rw [depLocStep_skip ctx program loc deps hptr] at h
    have : deps = d' := congrArg Prod.snd (Except.ok.inj h)
    rw [← this] at hd
    exact Or.inl hd
  | true =>
    unfold depLocStep at h
    dsimp only at h
    rw [show (!ctx.ptrs (ptrOfLoc loc)) = false by simp [hptr]] at h
    rw [if_neg (show ¬(false = true) by decide)] at h
    cases hw : walkValue loc program with
    | none => rw [hw] at h; exact absurd h (by simp)
    | some v =>
      rw [hw] at h
      cases v with
      | null => exact absurd h (by simp)
      | bool b =>
        dsimp only at h
        have : deps = d' := congrArg Prod.snd (Except.ok.inj h)
        rw [← this] at hd
        exact Or.inl hd
      | num n =>
        dsimp only at h
        have : deps = d' := congrArg Prod.snd (Except.ok.inj h)
        rw [← this] at hd
        exact Or.inl hd
      | str s =>
        simp only [addDep] at h
        have : deps ++ [depLocDep ctx (ptrOfLoc loc) s] = d' :=
          congrArg Prod.snd (Except.ok.inj h)
        rw [← this] at hd
        rcases List.mem_append.mp hd with h1 | h2
        · exact Or.inl h1
        · refine Or.inr ⟨rfl, ?_⟩
          rw [show d = depLocDep ctx (ptrOfLoc loc) s by simpa using h2]
          exact ⟨_, rfl, Or.inl rfl⟩
      | obj kvs =>
        dsimp only at h
        cases hr : depLocObjAux ctx (ptrOfLoc loc) kvs deps with
        | error e => rw [hr] at h; exact absurd h (by simp)
        | ok res =>
          rw [hr] at h
          have : res.2 = d' := congrArg Prod.snd (Except.ok.inj h)
          rw [← this] at hd
          rcases depLocObjAux_deps ctx (ptrOfLoc loc) kvs deps res hr d hd with h1 | ⟨k, s, hds⟩
          · exact Or.inl h1
          · refine Or.inr ⟨rfl, ?_⟩
            rw [hds]
            exact ⟨_, rfl, Or.inr ⟨k, rfl⟩⟩
      | arr xs =>
        dsimp only at h
        cases hr : depLocArrAux ctx (ptrOfLoc loc) 0 xs deps with
        | error e => rw [hr] at h; exact absurd h (by simp)
        | ok res =>
          rw [hr] at h
          have : res.2 = d' := congrArg Prod.snd (Except.ok.inj h)
          rw [← this] at hd
          rcases depLocArrAux_deps ctx (ptrOfLoc loc) xs 0 deps res hr d hd with h1 | ⟨k, s, hds⟩
          · exact Or.inl h1
          · refine Or.inr ⟨rfl, ?_⟩
            rw [hds]
            exact ⟨_, rfl, Or.inr ⟨k, rfl⟩⟩

theorem depLocsFold_deps (ctx : Ctx) :
    ∀ (L : List (List String)) (program : Json) (deps : List Dep) (p' : Json) (d' : List Dep),
    depLocsFold ctx L program deps = .ok (p', d') →
    ∀ d ∈ d', d ∈ deps ∨ ∃ loc, loc ∈ L ∧ ctx.ptrs (ptrOfLoc loc) = true ∧
      ∃ l, d.loc = some l ∧
        (l.ptr = ptrOfLoc loc ∨ ∃ k, l.ptr = ptrOfLoc loc ++ "/" ++ k) := by
  intro L
  induction L with
  | nil =>
    intro program deps p' d' h d hd
    have : deps = d' := congrArg Prod.snd (Except.ok.inj h)
    rw [← this] at hd
    exact Or.inl hd
  | cons loc rest ih =>
    intro program deps p' d' h d hd
    unfold depLocsFold at h
    cases hstep : depLocStep ctx program loc deps with
    | error e => rw [hstep] at h; exact absurd h (by simp)
    | ok res =>
      rw [hstep] at h
      rcases ih res.1 res.2 p' d' h d hd with h1 | ⟨loc0, hmem, hptr0, hl⟩
      · rcases depLocStep_deps ctx program loc deps res.1 res.2 (by rw [hstep]) d h1 with
          h2 | ⟨hptr, hl⟩
        · exact Or.inl h2
        · exact Or.inr ⟨loc, by simp, hptr, hl⟩
      · exact Or.inr ⟨loc0, by simp [hmem], hptr0, hl⟩

theorem depLocsFold_walk (ctx : Ctx) (ℓ : List String) (hℓ : ℓ ∈ DEP_LOCS)
    (habs : ctx.ptrs (ptrOfLoc ℓ) = false) :
    ∀ (L : List (List String)), (∀ x ∈ L, x ∈ DEP_LOCS) →
    ∀ (program : Json) (deps : List Dep) (p' : Json) (d' : List Dep),
    depLocsFold ctx L program deps = .ok (p', d') →
    walkValue ℓ p' = walkValue ℓ program := by
  intro L
  induction L with
  | nil =>
    intro _ program deps p' d' h
    have : program = p' := congrArg Prod.fst (Except.ok.inj h)
    rw [← this]
  | cons loc rest ih =>
    intro hL program deps p' d' h
    unfold depLocsFold at h
    cases hstep : depLocStep ctx program loc deps with
    | error e => rw [hstep] at h; exact absurd h (by simp)
    | ok res =>
      rw [hstep] at h
      have hrest := ih (fun x hx => hL x (by simp [hx])) res.1 res.2 p' d' h
      by_cases heq : loc = ℓ
      · subst heq
        rw [depLocStep_skip ctx program loc deps habs] at hstep
        have : program = res.1 := congrArg Prod.fst (Except.ok.inj hstep)
        rw [hrest, ← this]
      · have hloc : loc ∈ DEP_LOCS := hL loc (by simp)
        have hw := depLocStep_walk_other ctx program loc deps res.1 res.2 (by rw [hstep]) ℓ
          (deplocs_pairwise loc hloc ℓ hℓ heq)
          (deplocs_pairwise ℓ hℓ loc hloc (fun he => heq he.symm))
        rw [hrest, hw]

/-- C10: for every entry of the fixed `DEP_LOCS` table whose JSON pointer is
absent from the source-map index — the entry's pass is an outright no-op
(document and dependency list unchanged), the value at that path is unchanged
across the whole fixed-table pass even when a value is present there, and
every dependency the pass registers belongs to a *different* table entry whose
pointer **is** in the index (its recorded location pointer is that entry's
pointer or a key under it). -/
theorem claim_C10 (ctx : Ctx) (program : Json) (deps : List Dep) (ℓ : List String)
    (hmem : ℓ ∈ DEP_LOCS) (habs : ctx.ptrs (ptrOfLoc ℓ) = false) :
    depLocStep ctx program ℓ deps = .ok (program, deps) ∧
    (∀ (program' : Json) (deps' : List Dep),
      processDepLocs ctx program deps = .ok (program', deps') →
      walkValue ℓ program' = walkValue ℓ program ∧
      ∀ d ∈ deps', d ∈ deps ∨ ∃ loc, loc ∈ DEP_LOCS ∧ loc ≠ ℓ ∧
        ctx.ptrs (ptrOfLoc loc) = true ∧ ∃ l, d.loc = some l ∧
          (l.ptr = ptrOfLoc loc ∨ ∃ k, l.ptr = ptrOfLoc loc ++ "/" ++ k)) := by
  refine ⟨depLocStep_skip ctx program ℓ deps habs, ?_⟩
  intro program' deps' h
  refine ⟨depLocsFold_walk ctx ℓ hmem habs DEP_LOCS (fun x hx => hx) program deps
    program' deps' h, ?_⟩
  intro d hd
  rcases depLocsFold_deps ctx DEP_LOCS program deps program' deps' h d hd with
    h1 | ⟨loc, hloc, hptr, hl⟩
  · exact Or.inl h1
  · refine Or.inr ⟨loc, hloc, ?_, hptr, hl⟩
    intro he
    rw [he, habs] at hptr
    exact Bool.false_ne_true hptr

/-- C10 (witness): with only `/devtools_page` in the index, the whole pass
rewrites `devtools_page`, registers its single dependency, and leaves the
(indexless) `icons` object untouched. -/
theorem claim_C10_witness :
    processDepLocs ctxC10 wProg10 []
      = .ok (wProg10.updatePath ["devtools_page"] (fun _ => .str (depToken 0)),
             [depLocDep ctxC10 "/devtools_page" "devtools.html"]) ∧
    walkValue ["icons"] (wProg10.updatePath ["devtools_page"] (fun _ => .str (depToken 0)))
      = walkValue ["icons"] wProg10 := by
  constructor
  · rfl
  · exact ((claim_C10 ctxC10 wProg10 [] ["icons"] (by decide) rfl).2
      (wProg10.updatePath ["devtools_page"] (fun _ => .str (depToken 0)))
      [depLocDep ctxC10 "/devtools_page" "devtools.html"] rfl).1

/-! ## Claim C6: content scripts -/

theorem exceptBind_ok {ε α β : Type} (a : α) (f : α → Except ε β) :
    (Except.ok a : Except ε α) >>= f = f a := rfl

theorem jlookup_setAssoc_eq (k : String) (v : Json) :
    ∀ kvs, jlookup k (setAssoc k v kvs) = some v := by
  intro kvs
  induction kvs with
  | nil => simp [setAssoc, jlookup]
  | cons kv rest ih =>
    by_cases h : kv.1 = k
    · rw [setAssoc, if_pos h, jlookup, if_pos rfl]
    · rw [setAssoc, if_neg h, jlookup, if_neg h]
      exact ih

theorem jlookup_setAssoc_ne (k k0 : String) (v : Json) (hne : k ≠ k0) :
    ∀ kvs, jlookup k (setAssoc k0 v kvs) = jlookup k kvs := by
  intro kvs
  induction kvs with
  | nil =>
    simp only [setAssoc, jlookup]
    rw [if_neg (show ¬(k0 = k) from fun he => hne he.symm)]
  | cons kv rest ih =>
    by_cases h : kv.1 = k0
    · rw [setAssoc, if_pos h, jlookup, jlookup]
      rw [if_neg (show ¬(k0 = k) from fun he => hne he.symm)]
      rw [if_neg (show ¬(kv.1 = k) from fun he => hne (h ▸ he ▸ rfl))]
    · rw [setAssoc, if_neg h, jlookup, jlookup]
      by_cases hk : kv.1 = k
      · rw [if_pos hk, if_pos hk]
      · rw [if_neg hk, if_neg hk]
        exact ih

theorem tokenStrs_succ (base n : Nat) :
    tokenStrs base (n + 1) = Json.str (depToken base) :: tokenStrs (base + 1) n := by
  unfold tokenStrs
  rw [List.range_succ_eq_map, List.map_cons, List.map_map]
  refine congrArg₂ List.cons ?_ ?_
  · rw [Nat.add_zero]
  · apply List.map_congr_left
    intro t _
    simp only [Function.comp_apply]
    congr 2
    omega

theorem tokenStrs_zero (base : Nat) : tokenStrs base 0 = [] := rfl

theorem scriptDeps_length (ctx : Ctx) (i : Nat) (k : String) :
    ∀ (j : Nat) (paths : List String),
    (scriptDeps ctx i k j paths).length = paths.length := by
  intro j paths
  induction paths generalizing j with
  | nil => rfl
  | cons s rest ih => simp [scriptDeps, ih]

theorem setAssoc_setAssoc (k : String) (v v' : Json) :
    ∀ kvs, setAssoc k v' (setAssoc k v kvs) = setAssoc k v' kvs := by
  intro kvs
  induction kvs with
  | nil => simp [setAssoc]
  | cons kv rest ih =>
    by_cases h : kv.1 = k
    · rw [setAssoc, if_pos h, setAssoc, if_pos rfl, setAssoc, if_pos h]
    · rw [setAssoc, if_neg h, setAssoc, if_neg h, setAssoc, if_neg h, ih]

theorem rewriteScriptListAux_ok (ctx : Ctx) (i : Nat) (k : String) :
    ∀ (paths : List String) (j : Nat) (deps : List Dep),
    (∀ jj, jj < paths.length → ctx.ptrs (csPtr i k (j + jj)) = true) →
    rewriteScriptListAux ctx i k j (paths.map Json.str) deps
      = .ok (tokenStrs deps.length paths.length, deps ++ scriptDeps ctx i k j paths) := by
  intro paths
  induction paths with
  | nil => intro j deps _; simp [rewriteScriptListAux, tokenStrs, scriptDeps]
  | cons s rest ih =>
    intro j deps hptrs
    rw [List.map_cons]
    unfold rewriteScriptListAux
    rw [show (!ctx.ptrs (csPtr i k j)) = false by
      have h0 := hptrs 0 (by simp)
      rw [Nat.add_zero] at h0
      simp [h0]]
    rw [if_neg (show ¬(false = true) by decide)]
    simp only [addDep]
    rw [ih (j + 1) (deps ++ [csDep ctx i k j s]) (fun jj hjj => by
      have heq : j + 1 + jj = j + (jj + 1) := by omega
      rw [heq]
      exact hptrs (jj + 1) (by simpa using Nat.succ_lt_succ hjj))]
    dsimp only
    simp [scriptDeps, tokenStrs_succ]

theorem rewriteEntryKey_ok (ctx : Ctx) (i : Nat) (k : String) (kvs : List (String × Json))
    (paths : List String) (deps : List Dep)
    (hget : jlookup k kvs = some (.arr (paths.map Json.str)))
    (hptrs : ∀ jj, jj < paths.length → ctx.ptrs (csPtr i k jj) = true) :
    rewriteEntryKey ctx i k (.obj kvs) deps
      = .ok ((Json.obj kvs).setKey k (.arr (tokenStrs deps.length paths.length)),
             deps ++ scriptDeps ctx i k 0 paths) := by
  unfold rewriteEntryKey
  rw [show (Json.obj kvs).get? k = jlookup k kvs from rfl, hget]
  dsimp only
  rw [rewriteScriptListAux_ok ctx i k paths 0 deps (fun jj hjj => by
    have := hptrs jj hjj
    simpa using this)]

theorem rewriteEntryKey_none (ctx : Ctx) (i : Nat) (k : String) (kvs : List (String × Json))
    (deps : List Dep) (hget : jlookup k kvs = none) :
    rewriteEntryKey ctx i k (.obj kvs) deps = .ok (.obj kvs, deps) := by
  unfold rewriteEntryKey
  rw [show (Json.obj kvs).get? k = jlookup k kvs from rfl, hget]

/-- C6: for every content-script entry with `css` and `js` path lists — every
path is replaced by a dependency token registered with `needsStableName` and a
source location pinned to that array element; when hot reload is active and
the entry has at least one `js` file, exactly one extra dependency on the
bundled auto-reload client script is appended to the rewritten `js` list and
the entry reports the runtime-background-companion flag as set; without hot
reload, with an empty `js` list, or with no `js` list at all, nothing is
appended and the flag stays unset. -/
theorem claim_C6 (ctx : Ctx) (i : Nat) (kvs : List (String × Json))
    (cssPaths : List String) (deps : List Dep)
    (hcss : jlookup "css" kvs = some (.arr (cssPaths.map Json.str)))
    (hpc : ∀ jj, jj < cssPaths.length → ctx.ptrs (csPtr i "css" jj) = true) :
    (∀ jsPaths : List String,
      jlookup "js" kvs = some (.arr (jsPaths.map Json.str)) →
      (∀ jj, jj < jsPaths.length → ctx.ptrs (csPtr i "js" jj) = true) →
      ctx.hot = true → jsPaths ≠ [] →
      processContentScript ctx i (.obj kvs) deps
        = .ok (((((Json.obj kvs).setKey "css"
                    (.arr (tokenStrs deps.length cssPaths.length))).setKey "js"
                  (.arr (tokenStrs (deps.length + cssPaths.length) jsPaths.length
                    ++ [Json.str
                        (depToken (deps.length + cssPaths.length + jsPaths.length))]))),
                true),
               deps ++ scriptDeps ctx i "css" 0 cssPaths ++ scriptDeps ctx i "js" 0 jsPaths
                 ++ [autoreloadDep])) ∧
    (∀ jsPaths : List String,
      jlookup "js" kvs = some (.arr (jsPaths.map Json.str)) →
      (∀ jj, jj < jsPaths.length → ctx.ptrs (csPtr i "js" jj) = true) →
      (ctx.hot = false ∨ jsPaths = []) →
      processContentScript ctx i (.obj kvs) deps
        = .ok (((((Json.obj kvs).setKey "css"
                    (.arr (tokenStrs deps.length cssPaths.length))).setKey "js"
                  (.arr (tokenStrs (deps.length + cssPaths.length) jsPaths.length))),
                false),
               deps ++ scriptDeps ctx i "css" 0 cssPaths ++ scriptDeps ctx i "js" 0 jsPaths)) ∧
    (jlookup "js" kvs = none →
      processContentScript ctx i (.obj kvs) deps
        = .ok ((((Json.obj kvs).setKey "css"
                  (.arr (tokenStrs deps.length cssPaths.length))), false),
               deps ++ scriptDeps ctx i "css" 0 cssPaths)) := by
  have hcssStep := rewriteEntryKey_ok ctx i "css" kvs cssPaths deps hcss hpc
  refine ⟨?_, ?_, ?_⟩
  · intro jsPaths hjs hpj hhot hne
    unfold processContentScript
    rw [hcssStep, exceptBind_ok]
    dsimp only [Json.setKey]
    have hjs1 : jlookup "js" (setAssoc "css" (.arr (tokenStrs deps.length cssPaths.length)) kvs)
        = some (.arr (jsPaths.map Json.str)) := by
      rw [jlookup_setAssoc_ne "js" "css" _ (by decide), hjs]
    rw [rewriteEntryKey_ok ctx i "js" _ jsPaths _ hjs1 hpj, exceptBind_ok]
    dsimp only [Json.setKey]
    rw [show (Json.obj (setAssoc "js"
          (.arr (tokenStrs (deps ++ scriptDeps ctx i "css" 0 cssPaths).length jsPaths.length))
          (setAssoc "css" (.arr (tokenStrs deps.length cssPaths.length)) kvs))).get? "js"
        = some (.arr (tokenStrs (deps ++ scriptDeps ctx i "css" 0 cssPaths).length
            jsPaths.length)) from jlookup_setAssoc_eq _ _ _]
    dsimp only
    rw [show (ctx.hot && !(tokenStrs (deps ++ scriptDeps ctx i "css" 0 cssPaths).length
          jsPaths.length).isEmpty) = true by
      cases jsPaths with
      | nil => exact absurd rfl hne
      | cons a l => simp [hhot, tokenStrs_succ]]
    rw [if_pos rfl]
    simp only [addDep]
    have hlen : (deps ++ scriptDeps ctx i "css" 0 cssPaths).length
        = deps.length + cssPaths.length := by
      simp [scriptDeps_length]
    have hlen2 : ((deps ++ scriptDeps ctx i "css" 0 cssPaths)
        ++ scriptDeps ctx i "js" 0 jsPaths).length
        = deps.length + cssPaths.length + jsPaths.length := by
      simp [scriptDeps_length]
      omega
    rw [hlen, hlen2]
    simp [Json.setKey, setAssoc_setAssoc, List.append_assoc]
  · intro jsPaths hjs hpj hcase
    unfold processContentScript
    rw [hcssStep, exceptBind_ok]
    dsimp only [Json.setKey]
    have hjs1 : jlookup "js" (setAssoc "css" (.arr (tokenStrs deps.length cssPaths.length)) kvs)
        = some (.arr (jsPaths.map Json.str)) := by
      rw [jlookup_setAssoc_ne "js" "css" _ (by decide), hjs]
    rw [rewriteEntryKey_ok ctx i "js" _ jsPaths _ hjs1 hpj, exceptBind_ok]
    dsimp only [Json.setKey]
    rw [show (Json.obj (setAssoc "js"
          (.arr (tokenStrs (deps ++ scriptDeps ctx i "css" 0 cssPaths).length jsPaths.length))
          (setAssoc "css" (.arr (tokenStrs deps.length cssPaths.length)) kvs))).get? "js"
        = some (.arr (tokenStrs (deps ++ scriptDeps ctx i "css" 0 cssPaths).length
            jsPaths.length)) from jlookup_setAssoc_eq _ _ _]
    dsimp only
    rw [show (ctx.hot && !(tokenStrs (deps ++ scriptDeps ctx i "css" 0 cssPaths).length
          jsPaths.length).isEmpty) = false by
      rcases hcase with h | h
      · simp [h]
      · subst h
        simp [tokenStrs_zero]]
    rw [if_neg (show ¬(false = true) by decide)]
    rw [show (deps ++ scriptDeps ctx i "css" 0 cssPaths).length
        = deps.length + cssPaths.length by simp [scriptDeps_length]]
  · intro hjsnone
    unfold processContentScript
    rw [hcssStep, exceptBind_ok]
    dsimp only [Json.setKey]
    have hjs1 : jlookup "js" (setAssoc "css" (.arr (tokenStrs deps.length cssPaths.length)) kvs)
        = none := by
      rw [jlookup_setAssoc_ne "js" "css" _ (by decide), hjsnone]
    rw [rewriteEntryKey_none ctx i "js" _ _ hjs1, exceptBind_ok]
    dsimp only
    rw [show (Json.obj (setAssoc "css" (.arr (tokenStrs deps.length cssPaths.length)) kvs)).get?
          "js" = none from hjs1]

/-- C6 (witness): one entry with one stylesheet and one script under hot
reload — both paths tokenized, the auto-reload client appended, the flag
set. -/
theorem claim_C6_witness :
    processContentScript
        (ctxW fsEmpty (ptrsOf ["/content_scripts/0/css/0", "/content_scripts/0/js/0"]) true)
        0 (csEntry ["style.css"] ["index.js"]) []
      = .ok ((((csEntry ["style.css"] ["index.js"]).setKey "css"
                 (.arr (tokenStrs 0 1))).setKey "js"
               (.arr (tokenStrs 1 1 ++ [Json.str (depToken 2)])),
              true),
             scriptDeps (ctxW fsEmpty
                 (ptrsOf ["/content_scripts/0/css/0", "/content_scripts/0/js/0"]) true)
               0 "css" 0 ["style.css"]
               ++ scriptDeps (ctxW fsEmpty
                 (ptrsOf ["/content_scripts/0/css/0", "/content_scripts/0/js/0"]) true)
               0 "js" 0 ["index.js"]
               ++ [autoreloadDep]) := by
  have := (claim_C6
    (ctxW fsEmpty (ptrsOf ["/content_scripts/0/css/0", "/content_scripts/0/js/0"]) true)
    0 [("matches", .arr [.str "<all_urls>"]), ("css", .arr (["style.css"].map Json.str)),
       ("js", .arr (["index.js"].map Json.str))]
    ["style.css"] [] rfl (by decide)).1 ["index.js"] rfl (by decide) rfl (by decide)
  simpa [csEntry] using this

/-! ## Claim C5: the MV2 default CSP -/

theorem exceptBind_err {ε α β : Type} (e : ε) (f : α → Except ε β) :
    (Except.error e : Except ε α) >>= f = .error e := rfl

theorem get?_setKey_ne (p : Json) (k0 k : String) (v : Json) (hne : k ≠ k0) :
    (p.setKey k0 v).get? k = p.get? k := by
  cases p <;> try rfl
  exact jlookup_setAssoc_ne k k0 v hne _

theorem setKey_isObj (p : Json) (k : String) (v : Json) :
    (p.setKey k v).isObj = p.isObj := by
  cases p <;> rfl

theorem updatePath_isObj (loc : List String) (f : Json → Json) (p : Json) (hne : loc ≠ []) :
    (p.updatePath loc f).isObj = p.isObj := by
  cases loc with
  | nil => exact absurd rfl hne
  | cons a r => cases p <;> rfl

theorem walkValue_single (k : String) (p : Json) : walkValue [k] p = p.get? k := by
  cases h : p.get? k <;> simp [walkValue, h]

theorem isMV2Of_isObj (p : Json) (h : isMV2Of p = true) : p.isObj = true := by
  cases p <;> simp_all [isMV2Of, Json.get?, Json.isObj]

theorem processLocales_program (ctx : Ctx) (p : Json) (deps : List Dep) (p' : Json)
    (d' : List Dep) (h : processLocales ctx p deps = .ok (p', d')) : p' = p := by
  unfold processLocales at h
  try dsimp only at h
  repeat' split at h
  all_goals first
    | exact Except.noConfusion h
    | exact (congrArg Prod.fst (Except.ok.inj h)).symm

theorem processContentScripts_frame (ctx : Ctx) (p : Json) (deps : List Dep) (p' : Json)
    (need : Bool) (d' : List Dep)
    (h : processContentScripts ctx p deps = .ok ((p', need), d'))
    (k : String) (hk : k ≠ "content_scripts") :
    p'.get? k = p.get? k ∧ p'.isObj = p.isObj := by
  unfold processContentScripts at h
  try dsimp only at h
  repeat' split at h
  all_goals first
    | exact Except.noConfusion h
    | (simp only [Except.ok.injEq, Prod.mk.injEq] at h
       obtain ⟨⟨hp, -⟩, -⟩ := h
       subst hp
       first
       | exact ⟨rfl, rfl⟩
       | exact ⟨get?_setKey_ne p _ k _ hk, setKey_isObj p _ _⟩)

theorem processDictionaries_frame (ctx : Ctx) (p : Json) (deps : List Dep) (p' : Json)
    (d' : List Dep) (h : processDictionaries ctx p deps = .ok (p', d'))
    (k : String) (hk : k ≠ "dictionaries") :
    p'.get? k = p.get? k ∧ p'.isObj = p.isObj := by
  unfold processDictionaries at h
  try dsimp only at h
  repeat' split at h
  all_goals first
    | exact Except.noConfusion h
    | (simp only [Except.ok.injEq, Prod.mk.injEq] at h
       obtain ⟨hp, -⟩ := h
       subst hp
       first
       | exact ⟨rfl, rfl⟩
       | exact ⟨get?_setKey_ne p _ k _ hk, setKey_isObj p _ _⟩)

theorem processThemeIcons_frame (ctx : Ctx) (isMV2 : Bool) (p : Json) (deps : List Dep)
    (p' : Json) (d' : List Dep) (h : processThemeIcons ctx isMV2 p deps = .ok (p', d'))
    (k : String) (h1 : k ≠ "browser_action") (h2 : k ≠ "action") :
    p'.get? k = p.get? k ∧ p'.isObj = p.isObj := by
  unfold processThemeIcons at h
  try dsimp only at h
  repeat' split at h
  all_goals first
    | exact Except.noConfusion h
    | (simp only [Except.ok.injEq, Prod.mk.injEq] at h
       obtain ⟨hp, -⟩ := h
       subst hp
       first
       | exact ⟨rfl, rfl⟩
       | exact ⟨get?_setKey_ne p _ k _ h1, setKey_isObj p _ _⟩
       | exact ⟨get?_setKey_ne p _ k _ h2, setKey_isObj p _ _⟩)

theorem processWAR_frame (ctx : Ctx) (isMV2 : Bool) (p : Json) (deps : List Dep)
    (p' : Json) (d' : List Dep) (h : processWAR ctx isMV2 p deps = .ok (p', d'))
    (k : String) (hk : k ≠ "web_accessible_resources") :
    p'.get? k = p.get? k ∧ p'.isObj = p.isObj := by
  unfold processWAR at h
  try dsimp only at h
  repeat' split at h
  all_goals first
    | exact Except.noConfusion h
    | (simp only [Except.ok.injEq, Prod.mk.injEq] at h
       obtain ⟨hp, -⟩ := h
       subst hp
       first
       | exact ⟨rfl, rfl⟩
       | exact ⟨get?_setKey_ne p _ k _ hk, setKey_isObj p _ _⟩)

theorem depLocStep_isObj (ctx : Ctx) (p : Json) (loc : List String) (deps : List Dep)
    (p' : Json) (d' : List Dep) (h : depLocStep ctx p loc deps = .ok (p', d'))
    (hne : loc ≠ []) : p'.isObj = p.isObj := by
  unfold depLocStep at h
  dsimp only at h
  simp only [addDep] at h
  repeat' split at h
  all_goals first
    | exact Except.noConfusion h
    | (simp only [Except.ok.injEq, Prod.mk.injEq] at h
       obtain ⟨hp, -⟩ := h
       subst hp
       first
       | rfl
       | exact updatePath_isObj loc _ p hne)

theorem depLocsFold_frame (ctx : Ctx) (k : String) :
    ∀ (L : List (List String)),
    (∀ x ∈ L, x ≠ [] ∧ ¬ List.IsPrefix x [k] ∧ ¬ List.IsPrefix [k] x) →
    ∀ (program : Json) (deps : List Dep) (p' : Json) (d' : List Dep),
    depLocsFold ctx L program deps = .ok (p', d') →
    p'.get? k = program.get? k ∧ p'.isObj = program.isObj := by
  intro L
  induction L with
  | nil =>
    intro _ program deps p' d' h
    have hp : program = p' := congrArg Prod.fst (Except.ok.inj h)
    subst hp
    exact ⟨rfl, rfl⟩
  | cons loc rest ih =>
    intro hL program deps p' d' h
    unfold depLocsFold at h
    cases h1 : depLocStep ctx program loc deps with
    | error e =>
      rw [h1] at h
      exact Except.noConfusion h
    | ok x =>
      obtain ⟨p1, d1⟩ := x
      rw [h1] at h
      dsimp only at h
      obtain ⟨hne, hpre1, hpre2⟩ := hL loc (by simp)
      have hstep_get := depLocStep_walk_other ctx program loc deps p1 d1 h1 [k] hpre1 hpre2
      rw [walkValue_single, walkValue_single] at hstep_get
      have hstep_obj := depLocStep_isObj ctx program loc deps p1 d1 h1 hne
      obtain ⟨hg, ho⟩ := ih (fun x hx => hL x (by simp [hx])) p1 d1 p' d' h
      exact ⟨hg.trans hstep_get, ho.trans hstep_obj⟩

theorem processBackground_mv2_default (ctx : Ctx) (need : Bool) (kvs6 : List (String × Json))
    (d : List Dep) (p' : Json) (d' : List Dep)
    (hhot : ctx.hot = true)
    (hnone : (Json.obj kvs6).get? "content_security_policy" = none)
    (h : processBackground ctx true need (.obj kvs6) d = .ok (p', d')) :
    p'.get? "content_security_policy" = some (.str defaultCSP) := by
  unfold processBackground at h
  rw [if_pos rfl, hhot, if_pos rfl, hnone] at h
  simp only [cspArg] at h
  dsimp only [Json.setKey] at h
  simp only [addDep] at h
  repeat' split at h
  all_goals first
    | exact Except.noConfusion h
    | (simp only [Except.ok.injEq, Prod.mk.injEq] at h
       obtain ⟨hp, -⟩ := h
       subst hp
       simp only [Json.setKey, Json.get?]
       first
       | exact jlookup_setAssoc_eq _ _ _
       | (rw [jlookup_setAssoc_ne "content_security_policy" "background" _ (by decide)]
          exact jlookup_setAssoc_eq _ _ _))

/-- C5: an MV2 manifest with no `content_security_policy` field, processed
with hot reload enabled, comes out of dependency collection with its
`content_security_policy` set to exactly the default policy string
`script-src 'self' 'unsafe-eval' blob: filesystem:;object-src 'self' blob:
filesystem:;`. -/
theorem claim_C5 (ctx : Ctx) (program : Json) (deps : List Dep) (p' : Json) (d' : List Dep)
    (hmv2 : isMV2Of program = true)
    (hhot : ctx.hot = true)
    (hnone : program.get? "content_security_policy" = none)
    (h : collectDependencies ctx program deps = .ok (p', d')) :
    p'.get? "content_security_policy" = some (.str defaultCSP) ∧
    defaultCSP = "script-src 'self' 'unsafe-eval' blob: filesystem:;object-src 'self' blob: filesystem:;" := by
  refine ⟨?_, rfl⟩
  cases program with
  | null => simp [isMV2Of, Json.get?] at hmv2
  | bool b => simp [isMV2Of, Json.get?] at hmv2
  | num n => simp [isMV2Of, Json.get?] at hmv2
  | str s => simp [isMV2Of, Json.get?] at hmv2
  | arr xs => simp [isMV2Of, Json.get?] at hmv2
  | obj kvs =>
    unfold collectDependencies at h
    dsimp only at h
    cases h1 : processLocales ctx (.obj kvs) deps with
    | error e =>
      rw [h1, exceptBind_err] at h
      exact Except.noConfusion h
    | ok x =>
      obtain ⟨p1, d1⟩ := x
      rw [h1, exceptBind_ok] at h
      dsimp only at h
      have hp1 : p1 = .obj kvs := processLocales_program ctx _ deps p1 d1 h1
      subst hp1
      cases h2 : processContentScripts ctx (.obj kvs) d1 with
      | error e =>
        rw [h2, exceptBind_err] at h
        exact Except.noConfusion h
      | ok x =>
        obtain ⟨⟨p2, need⟩, d2⟩ := x
        rw [h2, exceptBind_ok] at h
        dsimp only at h
        obtain ⟨hg2, ho2⟩ := processContentScripts_frame ctx _ d1 p2 need d2 h2
          "content_security_policy" (by decide)
        rw [hnone] at hg2
        have ho2' : p2.isObj = true := ho2.trans rfl
        cases h3 : processDictionaries ctx p2 d2 with
        | error e =>
          rw [h3, exceptBind_err] at h
          exact Except.noConfusion h
        | ok x =>
          obtain ⟨p3, d3⟩ := x
          rw [h3, exceptBind_ok] at h
          dsimp only at h
          obtain ⟨hg3, ho3⟩ := processDictionaries_frame ctx p2 d2 p3 d3 h3
            "content_security_policy" (by decide)
          rw [hg2] at hg3
          have ho3' : p3.isObj = true := ho3.trans ho2'
          cases h4 : processThemeIcons ctx (isMV2Of (Json.obj kvs)) p3 d3 with
          | error e =>
            rw [h4, exceptBind_err] at h
            exact Except.noConfusion h
          | ok x =>
            obtain ⟨p4, d4⟩ := x
            rw [h4, exceptBind_ok] at h
            dsimp only at h
            obtain ⟨hg4, ho4⟩ := processThemeIcons_frame ctx _ p3 d3 p4 d4 h4
              "content_security_policy" (by decide) (by decide)
            rw [hg3] at hg4
            have ho4' : p4.isObj = true := ho4.trans ho3'
            cases h5 : processWAR ctx (isMV2Of (Json.obj kvs)) p4 d4 with
            | error e =>
              rw [h5, exceptBind_err] at h
              exact Except.noConfusion h
            | ok x =>
              obtain ⟨p5, d5⟩ := x
              rw [h5, exceptBind_ok] at h
              dsimp only at h
              obtain ⟨hg5, ho5⟩ := processWAR_frame ctx _ p4 d4 p5 d5 h5
                "content_security_policy" (by decide)
              rw [hg4] at hg5
              have ho5' : p5.isObj = true := ho5.trans ho4'
              cases h6 : processDepLocs ctx p5 d5 with
              | error e =>
                rw [h6, exceptBind_err] at h
                exact Except.noConfusion h
              | ok x =>
                obtain ⟨p6, d6⟩ := x
                rw [h6, exceptBind_ok] at h
                dsimp only at h
                obtain ⟨hg6, ho6⟩ := depLocsFold_frame ctx "content_security_policy"
                  DEP_LOCS (by decide) p5 d5 p6 d6 h6
                rw [hg5] at hg6
                have ho6' : p6.isObj = true := ho6.trans ho5'
                rw [hmv2] at h
                cases p6 with
                | obj kvs6 =>
                  exact processBackground_mv2_default ctx need kvs6 d6 p' d' hhot hg6 h
                | null => simp [Json.isObj] at ho6'
                | bool b => simp [Json.isObj] at ho6'
                | num n => simp [Json.isObj] at ho6'
                | str s => simp [Json.isObj] at ho6'
                | arr xs => simp [Json.isObj] at ho6'

/-- C5 (witness): a bare MV2 manifest under hot reload gains exactly the
default policy string. -/
theorem claim_C5_witness :
    (Json.obj [("manifest_version", Json.num 2), ("name", Json.str "x"),
        ("content_security_policy", Json.str defaultCSP)]).get? "content_security_policy"
      = some (.str defaultCSP) ∧
    defaultCSP = "script-src 'self' 'unsafe-eval' blob: filesystem:;object-src 'self' blob: filesystem:;" :=
  claim_C5 ctxC5 wProg5 [] _ [] rfl rfl rfl rfl

/-! ## Claim C9: structural-type preservation combinators -/

theorem shapeStep_refl (a : Json) : ShapeStep a a := by
  constructor
  · intro p v w hv hw
    obtain rfl := Option.some.inj (hv.symm.trans hw)
    exact ⟨rfl, fun _ => rfl⟩
  · intro p hp
    exact hp

theorem shapeStep_trans {a b c : Json} (h1 : ShapeStep a b) (h2 : ShapeStep b c) :
    ShapeStep a c := by
  constructor
  · intro p v w hv hw
    have hbsome := h1.2 p (by rw [hv]; rfl)
    cases hb : Json.resolve p b with
    | none => rw [hb] at hbsome; exact absurd hbsome (by simp)
    | some u =>
      obtain ⟨t1, e1⟩ := h1.1 p v u hv hb
      obtain ⟨t2, e2⟩ := h2.1 p u w hb hw
      refine ⟨t2.trans t1, fun hns => ?_⟩
      have hu : u = v := e1 hns
      subst hu
      exact e2 hns
  · intro p hp
    exact h2.2 p (h1.2 p hp)

theorem shapeStep_str (s t : String) : ShapeStep (.str s) (.str t) := by
  constructor
  · intro p v w hv hw
    cases p with
    | nil =>
      obtain rfl := Option.some.inj hv
      obtain rfl := Option.some.inj hw
      exact ⟨rfl, fun hns => by simp [Json.isNonStrLeaf] at hns⟩
    | cons k rest => simp [Json.resolve] at hv
  · intro p hp
    cases p with
    | nil => rfl
    | cons k rest => simp [Json.resolve] at hp

theorem shapeStep_obj {kvs kvs' : List (String × Json)}
    (h : ∀ k v, jlookup k kvs = some v → ∃ w, jlookup k kvs' = some w ∧ ShapeStep v w) :
    ShapeStep (.obj kvs) (.obj kvs') := by
  constructor
  · intro p v w hv hw
    cases p with
    | nil =>
      obtain rfl := Option.some.inj hv
      obtain rfl := Option.some.inj hw
      exact ⟨rfl, fun hns => by simp [Json.isNonStrLeaf] at hns⟩
    | cons k rest =>
      simp only [Json.resolve] at hv hw
      cases hk : jlookup k kvs with
      | none => simp only [hk] at hv; exact Option.noConfusion hv
      | some v0 =>
        simp only [hk] at hv
        cases hk' : jlookup k kvs' with
        | none => simp only [hk'] at hw; exact Option.noConfusion hw
        | some w0 =>
          simp only [hk'] at hw
          obtain ⟨w1, hw1, hs⟩ := h k v0 hk
          obtain rfl := Option.some.inj (hw1.symm.trans hk')
          exact hs.1 rest v w hv hw
  · intro p hp
    cases p with
    | nil => rfl
    | cons k rest =>
      simp only [Json.resolve] at hp ⊢
      cases hk : jlookup k kvs with
      | none => simp only [hk] at hp; simp at hp
      | some v0 =>
        simp only [hk] at hp
        obtain ⟨w1, hw1, hs⟩ := h k v0 hk
        simp only [hw1]
        exact hs.2 rest hp

theorem shapeStep_arr {xs xs' : List Json}
    (h : ∀ i v, xs.get? i = some v → ∃ w, xs'.get? i = some w ∧ ShapeStep v w) :
    ShapeStep (.arr xs) (.arr xs') := by
  constructor
  · intro p v w hv hw
    cases p with
    | nil =>
      obtain rfl := Option.some.inj hv
      obtain rfl := Option.some.inj hw
      exact ⟨rfl, fun hns => by simp [Json.isNonStrLeaf] at hns⟩
    | cons k rest =>
      simp only [Json.resolve] at hv hw
      cases hn : strToNat? k with
      | none => simp [hn] at hv
      | some i =>
        simp only [hn] at hv hw
        cases hk : xs.get? i with
        | none => simp only [hk] at hv; exact Option.noConfusion hv
        | some v0 =>
          simp only [hk] at hv
          cases hk' : xs'.get? i with
          | none => simp only [hk'] at hw; exact Option.noConfusion hw
          | some w0 =>
            simp only [hk'] at hw
            obtain ⟨w1, hw1, hs⟩ := h i v0 hk
            obtain rfl := Option.some.inj (hw1.symm.trans hk')
            exact hs.1 rest v w hv hw
  · intro p hp
    cases p with
    | nil => rfl
    | cons k rest =>
      simp only [Json.resolve] at hp ⊢
      cases hn : strToNat? k with
      | none => simp [hn] at hp
      | some i =>
        simp only [hn] at hp ⊢
        cases hk : xs.get? i with
        | none => simp only [hk] at hp; simp at hp
        | some v0 =>
          simp only [hk] at hp
          obtain ⟨w1, hw1, hs⟩ := h i v0 hk
          simp only [hw1]
          exact hs.2 rest hp

theorem shapeStep_setKey_present {kvs : List (String × Json)} {k : String} {v v' : Json}
    (hv : jlookup k kvs = some v) (hs : ShapeStep v v') :
    ShapeStep (.obj kvs) (.obj (setAssoc k v' kvs)) := by
  refine shapeStep_obj (fun k0 v0 h0 => ?_)
  by_cases hk : k0 = k
  · subst hk
    obtain rfl := Option.some.inj (hv.symm.trans h0)
    exact ⟨v', jlookup_setAssoc_eq k0 v' kvs, hs⟩
  · exact ⟨v0, by rw [jlookup_setAssoc_ne k0 k v' hk, h0], shapeStep_refl v0⟩

theorem shapeStep_setKey_new {kvs : List (String × Json)} {k : String} (v' : Json)
    (hv : jlookup k kvs = none) :
    ShapeStep (.obj kvs) (.obj (setAssoc k v' kvs)) := by
  refine shapeStep_obj (fun k0 v0 h0 => ?_)
  by_cases hk : k0 = k
  · subst hk
    rw [hv] at h0
    exact Option.noConfusion h0
  · exact ⟨v0, by rw [jlookup_setAssoc_ne k0 k v' hk, h0], shapeStep_refl v0⟩

theorem shapeStep_arr_append (xs ys : List Json) : ShapeStep (.arr xs) (.arr (xs ++ ys)) := by
  refine shapeStep_arr (fun i v h => ⟨v, ?_, shapeStep_refl v⟩)
  rw [List.get?_append (List.get?_eq_some.mp h).1]
  exact h

theorem shapeStep_setKey_get {p : Json} {k : String} {v : Json} (v' : Json)
    (hv : p.get? k = some v) (hs : ShapeStep v v') :
    ShapeStep p (p.setKey k v') := by
  cases p with
  | obj kvs => exact shapeStep_setKey_present hv hs
  | null => exact Option.noConfusion hv
  | bool b => exact Option.noConfusion hv
  | num n => exact Option.noConfusion hv
  | str s => exact Option.noConfusion hv
  | arr xs => exact Option.noConfusion hv

theorem shapeStep_setKey_none (p : Json) (k : String) (v' : Json)
    (hv : p.get? k = none) :
    ShapeStep p (p.setKey k v') := by
  cases p with
  | obj kvs => exact shapeStep_setKey_new v' hv
  | null => exact shapeStep_refl _
  | bool b => exact shapeStep_refl _
  | num n => exact shapeStep_refl _
  | str s => exact shapeStep_refl _
  | arr xs => exact shapeStep_refl _

theorem shapeStep_updatePath :
    ∀ (loc : List String) (p v : Json) (f : Json → Json),
    walkValue loc p = some v → ShapeStep v (f v) →
    ShapeStep p (p.updatePath loc f) := by
  intro loc
  induction loc with
  | nil =>
    intro p v f hw hs
    obtain rfl := Option.some.inj hw
    exact hs
  | cons k rest ih =>
    intro p v f hw hs
    cases p with
    | obj kvs =>
      rw [walkValue] at hw
      cases hk : jlookup k kvs with
      | none =>
        rw [show (Json.obj kvs).get? k = jlookup k kvs from rfl, hk] at hw
        exact Option.noConfusion hw
      | some u =>
        rw [show (Json.obj kvs).get? k = jlookup k kvs from rfl, hk] at hw
        dsimp only at hw
        show ShapeStep (.obj kvs) (.obj (updateAssoc k (Json.updatePath rest f) kvs))
        refine shapeStep_obj (fun k0 v0 h0 => ?_)
        by_cases hk0 : k0 = k
        · subst hk0
          obtain rfl := Option.some.inj (hk.symm.trans h0)
          refine ⟨Json.updatePath rest f u, ?_, ih u v f hw hs⟩
          rw [jlookup_updateAssoc_eq, hk]
          rfl
        · exact ⟨v0, by rw [jlookup_updateAssoc_ne k0 k _ hk0, h0], shapeStep_refl v0⟩
    | null => simp [walkValue, Json.get?] at hw
    | bool b => simp [walkValue, Json.get?] at hw
    | num n => simp [walkValue, Json.get?] at hw
    | str s => simp [walkValue, Json.get?] at hw
    | arr xs => simp [walkValue, Json.get?] at hw

theorem shapePres_obj {kvs kvs' : List (String × Json)}
    (h : ∀ k v w, jlookup k kvs = some v → jlookup k kvs' = some w → ShapePres v w) :
    ShapePres (.obj kvs) (.obj kvs') := by
  intro p v w hv hw
  cases p with
  | nil =>
    obtain rfl := Option.some.inj hv
    obtain rfl := Option.some.inj hw
    exact ⟨rfl, fun hns => by simp [Json.isNonStrLeaf] at hns⟩
  | cons k rest =>
    simp only [Json.resolve] at hv hw
    cases hk : jlookup k kvs with
    | none => simp only [hk] at hv; exact Option.noConfusion hv
    | some v0 =>
      simp only [hk] at hv
      cases hk' : jlookup k kvs' with
      | none => simp only [hk'] at hw; exact Option.noConfusion hw
      | some w0 =>
        simp only [hk'] at hw
        exact h k v0 w0 hk hk' rest v w hv hw

theorem shapePres_arr {xs xs' : List Json}
    (h : ∀ i v w, xs.get? i = some v → xs'.get? i = some w → ShapePres v w) :
    ShapePres (.arr xs) (.arr xs') := by
  intro p v w hv hw
  cases p with
  | nil =>
    obtain rfl := Option.some.inj hv
    obtain rfl := Option.some.inj hw
    exact ⟨rfl, fun hns => by simp [Json.isNonStrLeaf] at hns⟩
  | cons k rest =>
    simp only [Json.resolve] at hv hw
    cases hn : strToNat? k with
    | none => simp [hn] at hv
    | some i =>
      simp only [hn] at hv hw
      cases hk : xs.get? i with
      | none => simp only [hk] at hv; exact Option.noConfusion hv
      | some v0 =>
        simp only [hk] at hv
        cases hk' : xs'.get? i with
        | none => simp only [hk'] at hw; exact Option.noConfusion hw
        | some w0 =>
          simp only [hk'] at hw
          exact h i v0 w0 hk hk' rest v w hv hw

theorem shapePres_str (s t : String) : ShapePres (.str s) (.str t) :=
  (shapeStep_str s t).1

theorem shapePres_setKey_present {kvs : List (String × Json)} {k : String} {v v' : Json}
    (hv : jlookup k kvs = some v) (hs : ShapePres v v') :
    ShapePres (.obj kvs) (.obj (setAssoc k v' kvs)) := by
  refine shapePres_obj (fun k0 v0 w0 h0 h0' => ?_)
  by_cases hk : k0 = k
  · subst hk
    obtain rfl := Option.some.inj (hv.symm.trans h0)
    obtain rfl := Option.some.inj ((jlookup_setAssoc_eq k0 v' kvs).symm.trans h0')
    exact hs
  · rw [jlookup_setAssoc_ne k0 k v' hk, h0] at h0'
    obtain rfl := Option.some.inj h0'
    exact (shapeStep_refl v0).1

/-! ## Claim C9: the per-phase rewrites preserve shapes -/

theorem rewriteScriptListAux_shapes (ctx : Ctx) (i : Nat) (k : String) :
    ∀ (xs : List Json) (j : Nat) (deps : List Dep) (xs' : List Json) (deps' : List Dep),
    rewriteScriptListAux ctx i k j xs deps = .ok (xs', deps') →
    ∀ idx v, xs.get? idx = some v → ∃ w, xs'.get? idx = some w ∧ ShapeStep v w := by
  intro xs
  induction xs with
  | nil =>
    intro j deps xs' deps' h idx v hv
    simp at hv
  | cons x rest ih =>
    intro j deps xs' deps' h idx v hv
    rw [rewriteScriptListAux.eq_def] at h
    dsimp only at h
    by_cases hp : (!ctx.ptrs (csPtr i k j)) = true
    · rw [if_pos hp] at h
      exact Except.noConfusion h
    · rw [if_neg hp] at h
      cases x with
      | str s =>
        dsimp only at h
        simp only [addDep] at h
        cases hrec : rewriteScriptListAux ctx i k (j + 1) rest (deps ++ [csDep ctx i k j s]) with
        | error e =>
          rw [hrec] at h
          exact Except.noConfusion h
        | ok y =>
          obtain ⟨rest', d2⟩ := y
          rw [hrec] at h
          dsimp only at h
          simp only [Except.ok.injEq, Prod.mk.injEq] at h
          obtain ⟨hxs, -⟩ := h
          subst hxs
          cases idx with
          | zero =>
            obtain rfl := Option.some.inj hv
            exact ⟨.str (depToken deps.length), rfl, shapeStep_str _ _⟩
          | succ n =>
            exact ih (j + 1) _ rest' d2 hrec n v hv
      | null => exact Except.noConfusion h
      | bool b => exact Except.noConfusion h
      | num n => exact Except.noConfusion h
      | arr ys => exact Except.noConfusion h
      | obj kvs => exact Except.noConfusion h

theorem rewriteEntryKey_shape (ctx : Ctx) (i : Nat) (k : String) (sc : Json) (deps : List Dep)
    (sc' : Json) (deps' : List Dep)
    (h : rewriteEntryKey ctx i k sc deps = .ok (sc', deps')) :
    ShapeStep sc sc' := by
  unfold rewriteEntryKey at h
  cases hg : sc.get? k with
  | none =>
    rw [hg] at h
    dsimp only at h
    obtain rfl : sc = sc' := congrArg Prod.fst (Except.ok.inj h)
    exact shapeStep_refl sc
  | some v =>
    rw [hg] at h
    cases v with
    | arr xs =>
      dsimp only at h
      cases hrec : rewriteScriptListAux ctx i k 0 xs deps with
      | error e =>
        rw [hrec] at h
        exact Except.noConfusion h
      | ok y =>
        obtain ⟨xs', d2⟩ := y
        rw [hrec] at h
        dsimp only at h
        simp only [Except.ok.injEq, Prod.mk.injEq] at h
        obtain ⟨hsc, -⟩ := h
        subst hsc
        exact shapeStep_setKey_get _ hg
          (shapeStep_arr (rewriteScriptListAux_shapes ctx i k xs 0 deps xs' d2 hrec))
    | str s =>
      dsimp only at h
      by_cases hs : s = ""
      · rw [if_pos hs] at h
        obtain rfl : sc = sc' := congrArg Prod.fst (Except.ok.inj h)
        exact shapeStep_refl sc
      · rw [if_neg hs] at h
        exact Except.noConfusion h
    | null =>
      dsimp only at h
      obtain rfl : sc = sc' := congrArg Prod.fst (Except.ok.inj h)
      exact shapeStep_refl sc
    | bool b =>
      dsimp only at h
      obtain rfl : sc = sc' := congrArg Prod.fst (Except.ok.inj h)
      exact shapeStep_refl sc
    | num n =>
      dsimp only at h
      obtain rfl : sc = sc' := congrArg Prod.fst (Except.ok.inj h)
      exact shapeStep_refl sc
    | obj kvs =>
      dsimp only at h
      obtain rfl : sc = sc' := congrArg Prod.fst (Except.ok.inj h)
      exact shapeStep_refl sc

theorem processContentScript_shape (ctx : Ctx) (i : Nat) (sc : Json) (deps : List Dep)
    (sc' : Json) (need : Bool) (deps' : List Dep)
    (h : processContentScript ctx i sc deps = .ok ((sc', need), deps')) :
    ShapeStep sc sc' := by
  unfold processContentScript at h
  cases h1 : rewriteEntryKey ctx i "css" sc deps with
  | error e =>
    rw [h1, exceptBind_err] at h
    exact Except.noConfusion h
  | ok x =>
    obtain ⟨sc1, d1⟩ := x
    rw [h1, exceptBind_ok] at h
    dsimp only at h
    have hs1 := rewriteEntryKey_shape ctx i "css" sc deps sc1 d1 h1
    cases h2 : rewriteEntryKey ctx i "js" sc1 d1 with
    | error e =>
      rw [h2, exceptBind_err] at h
      exact Except.noConfusion h
    | ok y =>
      obtain ⟨sc2, d2⟩ := y
      rw [h2, exceptBind_ok] at h
      dsimp only at h
      have hs2 := rewriteEntryKey_shape ctx i "js" sc1 d1 sc2 d2 h2
      refine shapeStep_trans hs1 (shapeStep_trans hs2 ?_)
      cases hg : sc2.get? "js" with
      | none =>
        rw [hg] at h
        dsimp only at h
        obtain rfl : sc2 = sc' := congrArg (fun z => z.1.1) (Except.ok.inj h)
        exact shapeStep_refl sc2
      | some v =>
        rw [hg] at h
        cases v with
        | arr js =>
          dsimp only at h
          simp only [addDep] at h
          cases hb : (ctx.hot && !js.isEmpty) with
          | true =>
            rw [hb, if_pos rfl] at h
            simp only [Except.ok.injEq, Prod.mk.injEq] at h
            obtain ⟨⟨hsc, -⟩, -⟩ := h
            subst hsc
            exact shapeStep_setKey_get _ hg (shapeStep_arr_append js _)
          | false =>
            rw [hb, if_neg (show ¬(false = true) by decide)] at h
            simp only [Except.ok.injEq, Prod.mk.injEq] at h
            obtain ⟨⟨hsc, -⟩, -⟩ := h
            subst hsc
            exact shapeStep_refl sc2
        | null =>
          dsimp only at h
          obtain rfl : sc2 = sc' := congrArg (fun z => z.1.1) (Except.ok.inj h)
          exact shapeStep_refl sc2
        | bool b =>
          dsimp only at h
          obtain rfl : sc2 = sc' := congrArg (fun z => z.1.1) (Except.ok.inj h)
          exact shapeStep_refl sc2
        | num n =>
          dsimp only at h
          obtain rfl : sc2 = sc' := congrArg (fun z => z.1.1) (Except.ok.inj h)
          exact shapeStep_refl sc2
        | str s =>
          dsimp only at h
          obtain rfl : sc2 = sc' := congrArg (fun z => z.1.1) (Except.ok.inj h)
          exact shapeStep_refl sc2
        | obj kvs =>
          dsimp only at h
          obtain rfl : sc2 = sc' := congrArg (fun z => z.1.1) (Except.ok.inj h)
          exact shapeStep_refl sc2

theorem contentScriptsAux_shapes (ctx : Ctx) :
    ∀ (xs : List Json) (i : Nat) (deps : List Dep) (xs' : List Json) (need : Bool)
      (deps' : List Dep),
    contentScriptsAux ctx i xs deps = .ok ((xs', need), deps') →
    ∀ idx v, xs.get? idx = some v → ∃ w, xs'.get? idx = some w ∧ ShapeStep v w := by
  intro xs
  induction xs with
  | nil =>
    intro i deps xs' need deps' h idx v hv
    obtain rfl : ([] : List Json) = xs' := congrArg (fun z => z.1.1) (Except.ok.inj h)
    simp at hv
  | cons sc rest ih =>
    intro i deps xs' need deps' h idx v hv
    unfold contentScriptsAux at h
    cases h1 : processContentScript ctx i sc deps with
    | error e =>
      rw [h1, exceptBind_err] at h
      exact Except.noConfusion h
    | ok x =>
      obtain ⟨⟨sc', need1⟩, d1⟩ := x
      rw [h1, exceptBind_ok] at h
      dsimp only at h
      cases h2 : contentScriptsAux ctx (i + 1) rest d1 with
      | error e =>
        rw [h2, exceptBind_err] at h
        exact Except.noConfusion h
      | ok y =>
        obtain ⟨⟨rest', need2⟩, d2⟩ := y
        rw [h2, exceptBind_ok] at h
        dsimp only at h
        simp only [Except.ok.injEq, Prod.mk.injEq] at h
        obtain ⟨⟨hx, -⟩, -⟩ := h
        subst hx
        cases idx with
        | zero =>
          obtain rfl := Option.some.inj hv
          exact ⟨sc', rfl, processContentScript_shape ctx i _ deps sc' need1 d1 h1⟩
        | succ n =>
          exact ih (i + 1) d1 rest' need2 d2 h2 n v hv

theorem processContentScripts_shape (ctx : Ctx) (p : Json) (deps : List Dep) (p' : Json)
    (need : Bool) (deps' : List Dep)
    (h : processContentScripts ctx p deps = .ok ((p', need), deps')) :
    ShapeStep p p' := by
  unfold processContentScripts at h
  cases hg : p.get? "content_scripts" with
  | none =>
    rw [hg] at h
    dsimp only at h
    obtain rfl : p = p' := congrArg (fun z => z.1.1) (Except.ok.inj h)
    exact shapeStep_refl p
  | some v =>
    rw [hg] at h
    cases v with
    | arr xs =>
      dsimp only at h
      cases haux : contentScriptsAux ctx 0 xs deps with
      | error e =>
        rw [haux] at h
        exact Except.noConfusion h
      | ok y =>
        obtain ⟨⟨xs', nd⟩, d2⟩ := y
        rw [haux] at h
        dsimp only at h
        simp only [Except.ok.injEq, Prod.mk.injEq] at h
        obtain ⟨⟨hp, -⟩, -⟩ := h
        subst hp
        exact shapeStep_setKey_get _ hg
          (shapeStep_arr (contentScriptsAux_shapes ctx xs 0 deps xs' nd d2 haux))
    | null =>
      dsimp only at h
      obtain rfl : p = p' := congrArg (fun z => z.1.1) (Except.ok.inj h)
      exact shapeStep_refl p
    | bool b =>
      dsimp only at h
      obtain rfl : p = p' := congrArg (fun z => z.1.1) (Except.ok.inj h)
      exact shapeStep_refl p
    | num n =>
      dsimp only at h
      obtain rfl : p = p' := congrArg (fun z => z.1.1) (Except.ok.inj h)
      exact shapeStep_refl p
    | str s =>
      dsimp only at h
      obtain rfl : p = p' := congrArg (fun z => z.1.1) (Except.ok.inj h)
      exact shapeStep_refl p
    | obj kvs =>
      dsimp only at h
      obtain rfl : p = p' := congrArg (fun z => z.1.1) (Except.ok.inj h)
      exact shapeStep_refl p

theorem indexedEntries_get? :
    ∀ (xs : List Json) (start i : Nat),
    (indexedEntries start xs).get? i = (xs.get? i).map (fun x => (toString (start + i), x)) := by
  intro xs
  induction xs with
  | nil => intro start i; simp [indexedEntries]
  | cons x rest ih =>
    intro start i
    cases i with
    | zero => simp [indexedEntries]
    | succ n =>
      show (indexedEntries (start + 1) rest).get? n = _
      rw [ih (start + 1) n]
      have harith : start + 1 + n = start + (n + 1) := by omega
      rw [harith]
      rfl

theorem dictEntriesAux_shapes (ctx : Ctx) :
    ∀ (kvs : List (String × Json)) (deps : List Dep) (kvs' : List (String × Json))
      (deps' : List Dep),
    dictEntriesAux ctx kvs deps = .ok (kvs', deps') →
    (∀ k v, jlookup k kvs = some v → ∃ w, jlookup k kvs' = some w ∧ ShapeStep v w) ∧
    (∀ idx e, kvs.get? idx = some e →
      ∃ s t, e.2 = Json.str s ∧ kvs'.get? idx = some (e.1, Json.str t)) := by
  intro kvs
  induction kvs with
  | nil =>
    intro deps kvs' deps' h
    obtain rfl : ([] : List (String × Json)) = kvs' := congrArg Prod.fst (Except.ok.inj h)
    constructor
    · intro k v hv
      simp [jlookup] at hv
    · intro idx e he
      simp at he
  | cons kv rest ih =>
    obtain ⟨name, v0⟩ := kv
    intro deps kvs' deps' h
    rw [dictEntriesAux.eq_def] at h
    dsimp only at h
    by_cases hp : (!ctx.ptrs ("/dictionaries/" ++ name)) = true
    · rw [if_pos hp] at h
      exact Except.noConfusion h
    · rw [if_neg hp] at h
      cases v0 with
      | str dictFile =>
        dsimp only at h
        by_cases hext : extname dictFile ≠ ".dic"
        · rw [if_pos hext] at h
          exact Except.noConfusion h
        · rw [if_neg hext] at h
          simp only [addDep] at h
          cases hrec : dictEntriesAux ctx rest
              (deps ++ [dicDep ctx name dictFile] ++ [affDep ctx name dictFile]) with
          | error e =>
            rw [hrec] at h
            exact Except.noConfusion h
          | ok y =>
            obtain ⟨rest', d2⟩ := y
            rw [hrec] at h
            dsimp only at h
            simp only [Except.ok.injEq, Prod.mk.injEq] at h
            obtain ⟨hkvs, -⟩ := h
            subst hkvs
            obtain ⟨ih1, ih2⟩ := ih _ rest' d2 hrec
            constructor
            · intro k v hv
              rw [jlookup] at hv
              dsimp only at hv
              by_cases hname : name = k
              · rw [if_pos hname] at hv
                obtain rfl := Option.some.inj hv
                refine ⟨.str (depToken deps.length), ?_, shapeStep_str _ _⟩
                rw [jlookup]
                dsimp only
                rw [if_pos hname]
              · rw [if_neg hname] at hv
                obtain ⟨w, hw, hs⟩ := ih1 k v hv
                refine ⟨w, ?_, hs⟩
                rw [jlookup]
                dsimp only
                rw [if_neg hname]
                exact hw
            · intro idx e he
              cases idx with
              | zero =>
                obtain rfl := Option.some.inj he
                exact ⟨dictFile, depToken deps.length, rfl, rfl⟩
              | succ n => exact ih2 n e he
      | null => exact Except.noConfusion h
      | bool b => exact Except.noConfusion h
      | num n => exact Except.noConfusion h
      | arr ys => exact Except.noConfusion h
      | obj okvs => exact Except.noConfusion h

theorem processDictionaries_shape (ctx : Ctx) (p : Json) (deps : List Dep) (p' : Json)
    (deps' : List Dep) (h : processDictionaries ctx p deps = .ok (p', deps')) :
    ShapeStep p p' := by
  unfold processDictionaries at h
  cases hg : p.get? "dictionaries" with
  | none =>
    rw [hg] at h
    dsimp only at h
    obtain rfl : p = p' := congrArg Prod.fst (Except.ok.inj h)
    exact shapeStep_refl p
  | some v =>
    rw [hg] at h
    cases v with
    | obj kvs0 =>
      dsimp only at h
      cases haux : dictEntriesAux ctx kvs0 deps with
      | error e =>
        rw [haux] at h
        exact Except.noConfusion h
      | ok y =>
        obtain ⟨kvs', d2⟩ := y
        rw [haux] at h
        dsimp only at h
        simp only [Except.ok.injEq, Prod.mk.injEq] at h
        obtain ⟨hp, -⟩ := h
        subst hp
        exact shapeStep_setKey_get _ hg
          (shapeStep_obj (dictEntriesAux_shapes ctx kvs0 deps kvs' d2 haux).1)
    | arr xs =>
      dsimp only at h
      cases haux : dictEntriesAux ctx (indexedEntries 0 xs) deps with
      | error e =>
        rw [haux] at h
        exact Except.noConfusion h
      | ok y =>
        obtain ⟨kvs', d2⟩ := y
        rw [haux] at h
        dsimp only at h
        simp only [Except.ok.injEq, Prod.mk.injEq] at h
        obtain ⟨hp, -⟩ := h
        subst hp
        refine shapeStep_setKey_get _ hg (shapeStep_arr ?_)
        intro i v hv
        have hie : (indexedEntries 0 xs).get? i = some (toString (0 + i), v) := by
          rw [indexedEntries_get?, hv]
          rfl
        obtain ⟨s, t, hs, hk⟩ := (dictEntriesAux_shapes ctx _ deps kvs' d2 haux).2 i _ hie
        refine ⟨Json.str t, ?_, ?_⟩
        · rw [List.get?_map, hk]
          rfl
        · have hv2 : v = Json.str s := hs
          rw [hv2]
          exact shapeStep_str s t
    | str s =>
      dsimp only at h
      by_cases he : s = ""
      · rw [if_pos he] at h
        obtain rfl : p = p' := congrArg Prod.fst (Except.ok.inj h)
        exact shapeStep_refl p
      · rw [if_neg he] at h
        cases haux : dictEntriesAux ctx
            (indexedEntries 0 (s.data.map (fun c => Json.str (String.mk [c])))) deps with
        | error e =>
          rw [haux] at h
          exact Except.noConfusion h
        | ok y =>
          rw [haux] at h
          dsimp only at h
          exact Except.noConfusion h
    | null =>
      dsimp only at h
      obtain rfl : p = p' := congrArg Prod.fst (Except.ok.inj h)
      exact shapeStep_refl p
    | bool b =>
      dsimp only at h
      obtain rfl : p = p' := congrArg Prod.fst (Except.ok.inj h)
      exact shapeStep_refl p
    | num n =>
      dsimp only at h
      obtain rfl : p = p' := congrArg Prod.fst (Except.ok.inj h)
      exact shapeStep_refl p

theorem rewriteThemeIconKey_shape (ctx : Ctx) (ban : String) (i : Nat) (k : String)
    (icon : Json) (deps : List Dep) (icon' : Json) (deps' : List Dep)
    (h : rewriteThemeIconKey ctx ban i k icon deps = .ok (icon', deps')) :
    ShapeStep icon icon' := by
  unfold rewriteThemeIconKey at h
  by_cases hp : (!ctx.ptrs (themeIconPtr ban i k)) = true
  · rw [if_pos hp] at h
    exact Except.noConfusion h
  · rw [if_neg hp] at h
    cases hg : icon.get? k with
    | none =>
      rw [hg] at h
      exact Except.noConfusion h
    | some v =>
      rw [hg] at h
      cases v with
      | str s =>
        dsimp only at h
        simp only [addDep] at h
        simp only [Except.ok.injEq, Prod.mk.injEq] at h
        obtain ⟨hi, -⟩ := h
        subst hi
        exact shapeStep_setKey_get _ hg (shapeStep_str s _)
      | null => exact Except.noConfusion h
      | bool b => exact Except.noConfusion h
      | num n => exact Except.noConfusion h
      | arr ys => exact Except.noConfusion h
      | obj okvs => exact Except.noConfusion h

theorem themeIconsAux_shapes (ctx : Ctx) (ban : String) :
    ∀ (icons : List Json) (i : Nat) (deps : List Dep) (icons' : List Json) (deps' : List Dep),
    themeIconsAux ctx ban i icons deps = .ok (icons', deps') →
    ∀ idx v, icons.get? idx = some v → ∃ w, icons'.get? idx = some w ∧ ShapeStep v w := by
  intro icons
  induction icons with
  | nil =>
    intro i deps icons' deps' h idx v hv
    obtain rfl : ([] : List Json) = icons' := congrArg Prod.fst (Except.ok.inj h)
    simp at hv
  | cons icon rest ih =>
    intro i deps icons' deps' h idx v hv
    rw [themeIconsAux] at h
    cases h1 : rewriteThemeIconKey ctx ban i "light" icon deps with
    | error e =>
      rw [h1, exceptBind_err] at h
      exact Except.noConfusion h
    | ok x =>
      obtain ⟨ic1, d1⟩ := x
      rw [h1, exceptBind_ok] at h
      dsimp only at h
      cases h2 : rewriteThemeIconKey ctx ban i "dark" ic1 d1 with
      | error e =>
        rw [h2, exceptBind_err] at h
        exact Except.noConfusion h
      | ok y =>
        obtain ⟨ic2, d2⟩ := y
        rw [h2, exceptBind_ok] at h
        dsimp only at h
        cases h3 : themeIconsAux ctx ban (i + 1) rest d2 with
        | error e =>
          rw [h3, exceptBind_err] at h
          exact Except.noConfusion h
        | ok z =>
          obtain ⟨rest', d3⟩ := z
          rw [h3, exceptBind_ok] at h
          dsimp only at h
          simp only [Except.ok.injEq, Prod.mk.injEq] at h
          obtain ⟨hics, -⟩ := h
          subst hics
          cases idx with
          | zero =>
            obtain rfl := Option.some.inj hv
            exact ⟨ic2, rfl, shapeStep_trans
              (rewriteThemeIconKey_shape ctx ban i "light" _ deps ic1 d1 h1)
              (rewriteThemeIconKey_shape ctx ban i "dark" ic1 d1 ic2 d2 h2)⟩
          | succ n => exact ih (i + 1) d2 rest' d3 h3 n v hv

theorem processThemeIcons_shape (ctx : Ctx) (isMV2 : Bool) (p : Json) (deps : List Dep)
    (p' : Json) (deps' : List Dep)
    (h : processThemeIcons ctx isMV2 p deps = .ok (p', deps')) :
    ShapeStep p p' := by
  unfold processThemeIcons at h
  generalize (if isMV2 = true then "browser_action" else "action") = ban at h
  dsimp only at h
  cases hg : p.get? ban with
  | none =>
    rw [hg] at h
    dsimp only at h
    obtain rfl : p = p' := congrArg Prod.fst (Except.ok.inj h)
    exact shapeStep_refl p
  | some bact =>
    rw [hg] at h
    dsimp only at h
    cases hti : bact.get? "theme_icons" with
    | none =>
      rw [hti] at h
      dsimp only at h
      obtain rfl : p = p' := congrArg Prod.fst (Except.ok.inj h)
      exact shapeStep_refl p
    | some ti =>
      rw [hti] at h
      cases ti with
      | arr icons =>
        dsimp only at h
        cases haux : themeIconsAux ctx ban 0 icons deps with
        | error e =>
          rw [haux] at h
          exact Except.noConfusion h
        | ok y =>
          obtain ⟨icons', d2⟩ := y
          rw [haux] at h
          dsimp only at h
          simp only [Except.ok.injEq, Prod.mk.injEq] at h
          obtain ⟨hp, -⟩ := h
          subst hp
          exact shapeStep_setKey_get _ hg (shapeStep_setKey_get _ hti
            (shapeStep_arr (themeIconsAux_shapes ctx ban icons 0 deps icons' d2 haux)))
      | str s =>
        dsimp only at h
        by_cases he : s = ""
        · rw [if_pos he] at h
          obtain rfl : p = p' := congrArg Prod.fst (Except.ok.inj h)
          exact shapeStep_refl p
        · rw [if_neg he] at h
          exact Except.noConfusion h
      | null =>
        dsimp only at h
        obtain rfl : p = p' := congrArg Prod.fst (Except.ok.inj h)
        exact shapeStep_refl p
      | bool b =>
        dsimp only at h
        obtain rfl : p = p' := congrArg Prod.fst (Except.ok.inj h)
        exact shapeStep_refl p
      | num n =>
        dsimp only at h
        obtain rfl : p = p' := congrArg Prod.fst (Except.ok.inj h)
        exact shapeStep_refl p
      | obj okvs =>
        dsimp only at h
        obtain rfl : p = p' := congrArg Prod.fst (Except.ok.inj h)
        exact shapeStep_refl p

theorem warMV2Aux_strs (ctx : Ctx) :
    ∀ (xs : List Json) (i : Nat) (deps : List Dep) (war : List Json) (deps' : List Dep),
    warMV2Aux ctx i xs deps = .ok (war, deps') →
    (∀ x ∈ xs, ∃ s, x = Json.str s) ∧ (∀ w ∈ war, ∃ t, w = Json.str t) := by
  intro xs
  induction xs with
  | nil =>
    intro i deps war deps' h
    obtain rfl : ([] : List Json) = war := congrArg Prod.fst (Except.ok.inj h)
    constructor
    · intro x hx
      simp at hx
    · intro w hw
      simp at hw
  | cons f rest ih =>
    intro i deps war deps' h
    rw [warMV2Aux.eq_def] at h
    dsimp only at h
    cases f with
    | str pat =>
      dsimp only at h
      cases hg : globDeps ctx ("/web_accessible_resources/" ++ toString i)
          (ctx.fs.glob (joinPath (dirname ctx.filePath) pat)) deps with
      | error e =>
        rw [hg] at h
        exact Except.noConfusion h
      | ok y =>
        obtain ⟨toks, d1⟩ := y
        rw [hg] at h
        dsimp only at h
        cases hrec : warMV2Aux ctx (i + 1) rest d1 with
        | error e =>
          rw [hrec] at h
          exact Except.noConfusion h
        | ok z =>
          obtain ⟨rest', d2⟩ := z
          rw [hrec] at h
          dsimp only at h
          simp only [Except.ok.injEq, Prod.mk.injEq] at h
          obtain ⟨hwar, -⟩ := h
          subst hwar
          obtain ⟨ih1, ih2⟩ := ih (i + 1) d1 rest' d2 hrec
          constructor
          · intro x hx
            rcases List.mem_cons.mp hx with rfl | hx'
            · exact ⟨pat, rfl⟩
            · exact ih1 x hx'
          · intro w hw
            rcases List.mem_append.mp hw with hw1 | hw2
            · obtain ⟨t, -, rfl⟩ := List.mem_map.mp hw1
              exact ⟨t, rfl⟩
            · exact ih2 w hw2
    | null => exact Except.noConfusion h
    | bool b => exact Except.noConfusion h
    | num n => exact Except.noConfusion h
    | arr ys => exact Except.noConfusion h
    | obj okvs => exact Except.noConfusion h

theorem processWAR_mv2_shape (ctx : Ctx) (p : Json) (deps : List Dep) (p' : Json)
    (deps' : List Dep)
    (hwar : ∀ j, p.get? "web_accessible_resources" = some j →
      (∃ xs, j = .arr xs) ∨ j.truthy = false)
    (h : processWAR ctx true p deps = .ok (p', deps')) :
    ShapePres p p' := by
  unfold processWAR at h
  cases hg : p.get? "web_accessible_resources" with
  | none =>
    rw [hg] at h
    dsimp only at h
    obtain rfl : p = p' := congrArg Prod.fst (Except.ok.inj h)
    exact (shapeStep_refl p).1
  | some j =>
    rw [hg] at h
    rcases hwar j hg with ⟨xs, rfl⟩ | hfal
    · dsimp only at h
      rw [if_pos rfl] at h
      cases haux : warMV2Aux ctx 0 xs deps with
      | error e =>
        rw [haux] at h
        exact Except.noConfusion h
      | ok y =>
        obtain ⟨war, d2⟩ := y
        rw [haux] at h
        dsimp only at h
        simp only [Except.ok.injEq, Prod.mk.injEq] at h
        obtain ⟨hp, -⟩ := h
        subst hp
        obtain ⟨hxs, hwarstr⟩ := warMV2Aux_strs ctx xs 0 deps war d2 haux
        have hpres : ShapePres (.arr xs) (.arr war) := by
          refine shapePres_arr (fun i v w hv hw => ?_)
          obtain ⟨s, rfl⟩ := hxs v (List.get?_mem hv)
          obtain ⟨t, rfl⟩ := hwarstr w (List.get?_mem hw)
          exact shapePres_str s t
        cases p with
        | obj kvs => exact shapePres_setKey_present hg hpres
        | null => exact Option.noConfusion hg
        | bool b => exact Option.noConfusion hg
        | num n => exact Option.noConfusion hg
        | str s => exact Option.noConfusion hg
        | arr ys => exact Option.noConfusion hg
    · cases j with
      | str s =>
        dsimp only at h
        by_cases he : s = ""
        · rw [if_pos he] at h
          obtain rfl : p = p' := congrArg Prod.fst (Except.ok.inj h)
          exact (shapeStep_refl p).1
        · simp [Json.truthy, he] at hfal
      | null =>
        dsimp only at h
        rw [if_neg (show ¬(Json.null.truthy = true) by decide)] at h
        obtain rfl : p = p' := congrArg Prod.fst (Except.ok.inj h)
        exact (shapeStep_refl p).1
      | bool b =>
        dsimp only at h
        rw [hfal, if_neg (show ¬(false = true) by decide)] at h
        obtain rfl : p = p' := congrArg Prod.fst (Except.ok.inj h)
        exact (shapeStep_refl p).1
      | num n =>
        dsimp only at h
        rw [hfal, if_neg (show ¬(false = true) by decide)] at h
        obtain rfl : p = p' := congrArg Prod.fst (Except.ok.inj h)
        exact (shapeStep_refl p).1
      | arr ys => simp [Json.truthy] at hfal
      | obj kvs => simp [Json.truthy] at hfal

theorem depLocObjAux_shapes (ctx : Ctx) (location : String) :
    ∀ (kvs : List (String × Json)) (deps : List Dep) (kvs' : List (String × Json))
      (deps' : List Dep),
    depLocObjAux ctx location kvs deps = .ok (kvs', deps') →
    ∀ k v, jlookup k kvs = some v → ∃ w, jlookup k kvs' = some w ∧ ShapeStep v w := by
  intro kvs
  induction kvs with
  | nil =>
    intro deps kvs' deps' h k v hv
    simp [jlookup] at hv
  | cons kv rest ih =>
    obtain ⟨name, v0⟩ := kv
    intro deps kvs' deps' h k v hv
    rw [depLocObjAux.eq_def] at h
    dsimp only at h
    by_cases hp : (!ctx.ptrs (location ++ "/" ++ name)) = true
    · rw [if_pos hp] at h
      exact Except.noConfusion h
    · rw [if_neg hp] at h
      cases v0 with
      | str s =>
        dsimp only at h
        simp only [addDep] at h
        cases hrec : depLocObjAux ctx location rest
            (deps ++ [depLocDep ctx (location ++ "/" ++ name) s]) with
        | error e =>
          rw [hrec] at h
          exact Except.noConfusion h
        | ok y =>
          obtain ⟨rest', d2⟩ := y
          rw [hrec] at h
          dsimp only at h
          simp only [Except.ok.injEq, Prod.mk.injEq] at h
          obtain ⟨hkvs, -⟩ := h
          subst hkvs
          rw [jlookup] at hv
          dsimp only at hv
          by_cases hname : name = k
          · rw [if_pos hname] at hv
            obtain rfl := Option.some.inj hv
            refine ⟨.str (depToken deps.length), ?_, shapeStep_str _ _⟩
            rw [jlookup]
            dsimp only
            rw [if_pos hname]
          · rw [if_neg hname] at hv
            obtain ⟨w, hw, hs⟩ := ih _ rest' d2 hrec k v hv
            refine ⟨w, ?_, hs⟩
            rw [jlookup]
            dsimp only
            rw [if_neg hname]
            exact hw
      | null => exact Except.noConfusion h
      | bool b => exact Except.noConfusion h
      | num n => exact Except.noConfusion h
      | arr ys => exact Except.noConfusion h
      | obj okvs => exact Except.noConfusion h

theorem depLocArrAux_shapes (ctx : Ctx) (location : String) :
    ∀ (xs : List Json) (j : Nat) (deps : List Dep) (xs' : List Json) (deps' : List Dep),
    depLocArrAux ctx location j xs deps = .ok (xs', deps') →
    ∀ idx v, xs.get? idx = some v → ∃ w, xs'.get? idx = some w ∧ ShapeStep v w := by
  intro xs
  induction xs with
  | nil =>
    intro j deps xs' deps' h idx v hv
    simp at hv
  | cons x rest ih =>
    intro j deps xs' deps' h idx v hv
    rw [depLocArrAux.eq_def] at h
    dsimp only at h
    by_cases hp : (!ctx.ptrs (location ++ "/" ++ toString j)) = true
    · rw [if_pos hp] at h
      exact Except.noConfusion h
    · rw [if_neg hp] at h
      cases x with
      | str s =>
        dsimp only at h
        simp only [addDep] at h
        cases hrec : depLocArrAux ctx location (j + 1) rest
            (deps ++ [depLocDep ctx (location ++ "/" ++ toString j) s]) with
        | error e =>
          rw [hrec] at h
          exact Except.noConfusion h
        | ok y =>
          obtain ⟨rest', d2⟩ := y
          rw [hrec] at h
          dsimp only at h
          simp only [Except.ok.injEq, Prod.mk.injEq] at h
          obtain ⟨hxs, -⟩ := h
          subst hxs
          cases idx with
          | zero =>
            obtain rfl := Option.some.inj hv
            exact ⟨.str (depToken deps.length), rfl, shapeStep_str _ _⟩
          | succ n =>
            exact ih (j + 1) _ rest' d2 hrec n v hv
      | null => exact Except.noConfusion h
      | bool b => exact Except.noConfusion h
      | num n => exact Except.noConfusion h
      | arr ys => exact Except.noConfusion h
      | obj okvs => exact Except.noConfusion h

theorem depLocStep_shape (ctx : Ctx) (p : Json) (loc : List String) (deps : List Dep)
    (p1 : Json) (d1 : List Dep) (h : depLocStep ctx p loc deps = .ok (p1, d1)) :
    ShapeStep p p1 := by
  unfold depLocStep at h
  dsimp only at h
  by_cases hp : (!ctx.ptrs (ptrOfLoc loc)) = true
  · rw [if_pos hp] at h
    obtain rfl : p = p1 := congrArg Prod.fst (Except.ok.inj h)
    exact shapeStep_refl p
  · rw [if_neg hp] at h
    cases hw : walkValue loc p with
    | none =>
      rw [hw] at h
      exact Except.noConfusion h
    | some v =>
      rw [hw] at h
      cases v with
      | str s =>
        dsimp only at h
        simp only [addDep] at h
        simp only [Except.ok.injEq, Prod.mk.injEq] at h
        obtain ⟨hp1, -⟩ := h
        subst hp1
        exact shapeStep_updatePath loc p (.str s) _ hw (shapeStep_str s _)
      | obj kvs =>
        dsimp only at h
        cases haux : depLocObjAux ctx (ptrOfLoc loc) kvs deps with
        | error e =>
          rw [haux] at h
          exact Except.noConfusion h
        | ok y =>
          obtain ⟨kvs', d2⟩ := y
          rw [haux] at h
          dsimp only at h
          simp only [Except.ok.injEq, Prod.mk.injEq] at h
          obtain ⟨hp1, -⟩ := h
          subst hp1
          exact shapeStep_updatePath loc p (.obj kvs) _ hw
            (shapeStep_obj (depLocObjAux_shapes ctx (ptrOfLoc loc) kvs deps kvs' d2 haux))
      | arr xs =>
        dsimp only at h
        cases haux : depLocArrAux ctx (ptrOfLoc loc) 0 xs deps with
        | error e =>
          rw [haux] at h
          exact Except.noConfusion h
        | ok y =>
          obtain ⟨xs', d2⟩ := y
          rw [haux] at h
          dsimp only at h
          simp only [Except.ok.injEq, Prod.mk.injEq] at h
          obtain ⟨hp1, -⟩ := h
          subst hp1
          exact shapeStep_updatePath loc p (.arr xs) _ hw
            (shapeStep_arr (depLocArrAux_shapes ctx (ptrOfLoc loc) xs 0 deps xs' d2 haux))
      | null =>
        exact Except.noConfusion h
      | bool b =>
        dsimp only at h
        obtain rfl : p = p1 := congrArg Prod.fst (Except.ok.inj h)
        exact shapeStep_refl p
      | num n =>
        dsimp only at h
        obtain rfl : p = p1 := congrArg Prod.fst (Except.ok.inj h)
        exact shapeStep_refl p

theorem depLocsFold_shape (ctx : Ctx) :
    ∀ (L : List (List String)) (p : Json) (deps : List Dep) (p' : Json) (d' : List Dep),
    depLocsFold ctx L p deps = .ok (p', d') → ShapeStep p p' := by
  intro L
  induction L with
  | nil =>
    intro p deps p' d' h
    obtain rfl : p = p' := congrArg Prod.fst (Except.ok.inj h)
    exact shapeStep_refl p
  | cons loc rest ih =>
    intro p deps p' d' h
    unfold depLocsFold at h
    cases h1 : depLocStep ctx p loc deps with
    | error e =>
      rw [h1] at h
      exact Except.noConfusion h
    | ok x =>
      obtain ⟨p1, d1⟩ := x
      rw [h1] at h
      dsimp only at h
      exact shapeStep_trans (depLocStep_shape ctx p loc deps p1 d1 h1) (ih p1 d1 p' d' h)

theorem processDepLocs_shape (ctx : Ctx) (p : Json) (deps : List Dep) (p' : Json)
    (d' : List Dep) (h : processDepLocs ctx p deps = .ok (p', d')) : ShapeStep p p' :=
  depLocsFold_shape ctx DEP_LOCS p deps p' d' h

theorem processBackground_shape (ctx : Ctx) (isMV2 need : Bool) (p : Json) (deps : List Dep)
    (p' : Json) (d' : List Dep)
    (hcsp : ∀ j, p.get? "content_security_policy" = some j → ∃ s, j = Json.str s)
    (hbg : ∀ j, p.get? "background" = some j → ∃ bkvs, j = Json.obj bkvs)
    (hscripts : ∀ bkvs j, p.get? "background" = some (.obj bkvs) →
      jlookup "scripts" bkvs = some j → ∃ xs, j = Json.arr xs)
    (hsw : ∀ bkvs j, p.get? "background" = some (.obj bkvs) →
      jlookup "service_worker" bkvs = some j → ∃ s, j = Json.str s)
    (h : processBackground ctx isMV2 need p deps = .ok (p', d')) :
    ShapePres p p' := by
  unfold processBackground at h
  cases isMV2 with
  | false =>
    rw [if_neg (show ¬(false = true) by decide)] at h
    dsimp only at h
    simp only [addDep] at h
    cases hbg0 : p.get? "background" with
    | none =>
      rw [hbg0] at h
      dsimp only [Option.bind] at h
      rw [if_neg (show ¬(false = true) by decide)] at h
      cases need with
      | false =>
        rw [if_neg (show ¬(false = true) by decide)] at h
        obtain rfl : p = p' := congrArg Prod.fst (Except.ok.inj h)
        exact (shapeStep_refl p).1
      | true =>
        rw [if_pos rfl] at h
        simp only [Except.ok.injEq, Prod.mk.injEq] at h
        obtain ⟨hp, -⟩ := h
        subst hp
        exact (shapeStep_setKey_none p "background" _ hbg0).1
    | some b =>
      obtain ⟨bkvs, rfl⟩ := hbg b hbg0
      rw [hbg0] at h
      dsimp only [Option.bind, Json.get?] at h
      cases hswl : jlookup "service_worker" bkvs with
      | none =>
        rw [hswl] at h
        dsimp only at h
        rw [if_neg (show ¬(false = true) by decide)] at h
        cases need with
        | false =>
          rw [if_neg (show ¬(false = true) by decide)] at h
          obtain rfl : p = p' := congrArg Prod.fst (Except.ok.inj h)
          exact (shapeStep_refl p).1
        | true =>
          rw [if_pos rfl] at h
          rw [show (Json.obj bkvs).truthy = true from rfl] at h
          rw [if_pos rfl] at h
          dsimp only at h
          simp only [Except.ok.injEq, Prod.mk.injEq] at h
          obtain ⟨hp, -⟩ := h
          subst hp
          exact (shapeStep_setKey_get _ hbg0 (shapeStep_setKey_new _ hswl)).1
      | some sw0 =>
        obtain ⟨sws, rfl⟩ := hsw bkvs sw0 hbg0 hswl
        rw [hswl] at h
        dsimp only at h
        by_cases hse : sws = ""
        · rw [show (Json.str sws).truthy = false by simp [Json.truthy, hse]] at h
          rw [if_neg (show ¬(false = true) by decide)] at h
          cases need with
          | false =>
            rw [if_neg (show ¬(false = true) by decide)] at h
            obtain rfl : p = p' := congrArg Prod.fst (Except.ok.inj h)
            exact (shapeStep_refl p).1
          | true =>
            rw [if_pos rfl] at h
            rw [show (Json.obj bkvs).truthy = true from rfl] at h
            rw [if_pos rfl] at h
            dsimp only at h
            simp only [Except.ok.injEq, Prod.mk.injEq] at h
            obtain ⟨hp, -⟩ := h
            subst hp
            exact (shapeStep_setKey_get _ hbg0
              (shapeStep_setKey_get _ hswl (shapeStep_str sws _))).1
        · rw [show (Json.str sws).truthy = true by simp [Json.truthy, hse]] at h
          rw [if_pos rfl] at h
          simp only [Except.ok.injEq, Prod.mk.injEq] at h
          obtain ⟨hp, -⟩ := h
          subst hp
          have hwv : walkValue ["background", "service_worker"] p = some (.str sws) := by
            rw [walkValue, hbg0]
            dsimp only
            rw [walkValue]
            rw [show (Json.obj bkvs).get? "service_worker" = some (.str sws) from hswl]
            rfl
          exact (shapeStep_updatePath ["background", "service_worker"] p (.str sws) _ hwv
            (shapeStep_str sws _)).1
  | true =>
    rw [if_pos rfl] at h
    cases hhot : ctx.hot with
    | false =>
      rw [hhot, if_neg (show ¬(false = true) by decide)] at h
      obtain rfl : p = p' := congrArg Prod.fst (Except.ok.inj h)
      exact (shapeStep_refl p).1
    | true =>
      rw [hhot, if_pos rfl] at h
      have hstep1 : ∀ arg, ShapeStep p (p.setKey "content_security_policy"
          (.str (cspPatchHMR arg))) := by
        intro arg
        cases hc : p.get? "content_security_policy" with
        | none => exact shapeStep_setKey_none p _ _ hc
        | some j =>
          obtain ⟨s, rfl⟩ := hcsp j hc
          exact shapeStep_setKey_get _ hc (shapeStep_str s _)
      cases hc : p.get? "content_security_policy" with
      | none =>
        rw [hc] at h
        simp only [cspArg] at h
        simp only [addDep] at h
        cases need with
        | false =>
          rw [if_neg (show ¬(false = true) by decide)] at h
          obtain rfl : p.setKey "content_security_policy" (.str (cspPatchHMR none)) = p' :=
            congrArg Prod.fst (Except.ok.inj h)
          exact (hstep1 none).1
        | true =>
          rw [if_pos rfl] at h
          rw [get?_setKey_ne p "content_security_policy" "background" _ (by decide)] at h
          cases hbg0 : p.get? "background" with
          | none =>
            rw [hbg0] at h
            dsimp only [jlookup] at h
            simp only [Except.ok.injEq, Prod.mk.injEq] at h
            obtain ⟨hp, -⟩ := h
            subst hp
            refine (shapeStep_trans (hstep1 none) (shapeStep_setKey_none _ "background" _ ?_)).1
            rw [get?_setKey_ne p "content_security_policy" "background" _ (by decide)]
            exact hbg0
          | some b =>
            obtain ⟨bkvs, rfl⟩ := hbg b hbg0
            rw [hbg0] at h
            dsimp only at h
            rw [show (Json.obj bkvs).truthy = true from rfl] at h
            rw [if_pos rfl] at h
            dsimp only at h
            have hbg7 : (p.setKey "content_security_policy"
                (.str (cspPatchHMR none))).get? "background" = some (.obj bkvs) := by
              rw [get?_setKey_ne p "content_security_policy" "background" _ (by decide)]
              exact hbg0
            cases hsc : jlookup "scripts" bkvs with
            | none =>
              rw [hsc] at h
              dsimp only at h
              simp only [Except.ok.injEq, Prod.mk.injEq] at h
              obtain ⟨hp, -⟩ := h
              subst hp
              exact (shapeStep_trans (hstep1 none)
                (shapeStep_setKey_get _ hbg7 (shapeStep_setKey_new _ hsc))).1
            | some sj =>
              obtain ⟨xs, rfl⟩ := hscripts bkvs sj hbg0 hsc
              rw [hsc] at h
              dsimp only at h
              rw [show (Json.arr xs).truthy = true from rfl] at h
              rw [if_pos rfl] at h
              dsimp only at h
              simp only [Except.ok.injEq, Prod.mk.injEq] at h
              obtain ⟨hp, -⟩ := h
              subst hp
              exact (shapeStep_trans (hstep1 none)
                (shapeStep_setKey_get _ hbg7
                  (shapeStep_setKey_get _ hsc (shapeStep_arr_append xs _)))).1
      | some j =>
        obtain ⟨s, rfl⟩ := hcsp j hc
        rw [hc] at h
        simp only [cspArg] at h
        simp only [addDep] at h
        cases need with
        | false =>
          rw [if_neg (show ¬(false = true) by decide)] at h
          obtain rfl : p.setKey "content_security_policy" (.str (cspPatchHMR (some s))) = p' :=
            congrArg Prod.fst (Except.ok.inj h)
          exact (hstep1 (some s)).1
        | true =>
          rw [if_pos rfl] at h
          rw [get?_setKey_ne p "content_security_policy" "background" _ (by decide)] at h
          cases hbg0 : p.get? "background" with
          | none =>
            rw [hbg0] at h
            dsimp only [jlookup] at h
            simp only [Except.ok.injEq, Prod.mk.injEq] at h
            obtain ⟨hp, -⟩ := h
            subst hp
            refine (shapeStep_trans (hstep1 (some s))
              (shapeStep_setKey_none _ "background" _ ?_)).1
            rw [get?_setKey_ne p "content_security_policy" "background" _ (by decide)]
            exact hbg0
          | some b =>
            obtain ⟨bkvs, rfl⟩ := hbg b hbg0
            rw [hbg0] at h
            dsimp only at h
            rw [show (Json.obj bkvs).truthy = true from rfl] at h
            rw [if_pos rfl] at h
            dsimp only at h
            have hbg7 : (p.setKey "content_security_policy"
                (.str (cspPatchHMR (some s)))).get? "background" = some (.obj bkvs) := by
              rw [get?_setKey_ne p "content_security_policy" "background" _ (by decide)]
              exact hbg0
            cases hsc : jlookup "scripts" bkvs with
            | none =>
              rw [hsc] at h
              dsimp only at h
              simp only [Except.ok.injEq, Prod.mk.injEq] at h
              obtain ⟨hp, -⟩ := h
              subst hp
              exact (shapeStep_trans (hstep1 (some s))
                (shapeStep_setKey_get _ hbg7 (shapeStep_setKey_new _ hsc))).1
            | some sj =>
              obtain ⟨xs, rfl⟩ := hscripts bkvs sj hbg0 hsc
              rw [hsc] at h
              dsimp only at h
              rw [show (Json.arr xs).truthy = true from rfl] at h
              rw [if_pos rfl] at h
              dsimp only at h
              simp only [Except.ok.injEq, Prod.mk.injEq] at h
              obtain ⟨hp, -⟩ := h
              subst hp
              exact (shapeStep_trans (hstep1 (some s))
                (shapeStep_setKey_get _ hbg7
                  (shapeStep_setKey_get _ hsc (shapeStep_arr_append xs _)))).1

/-- C9 (counterexample to the unamended claim): on an MV3 manifest whose
web-accessible-resources entry declares a string `resources` glob, dependency
collection changes the structural type of that value — the string leaf is
replaced by an array of dependency tokens. -/
theorem claim_C9_cex :
    (Json.resolve ["web_accessible_resources", "0", "resources"] cexProg9).map Json.tag
      = some JTag.tstr ∧
    (collectDependencies cexCtx9 cexProg9 []).toOption.map
        (fun x => (Json.resolve ["web_accessible_resources", "0", "resources"] x.1).map Json.tag)
      = some (some JTag.tarr) :=
  ⟨rfl, rfl⟩

/-- C9 (amended): every dependency rewrite the collection phases perform
replaces a string leaf by a new string leaf (the dependency token) and
preserves structural types pointwise — unconditionally for the localization,
content-script, dictionary, theme-icon and fixed-location phases; for the
web-accessible-resources phase on MV2 manifests whose declared value is an
array (or falsy); and for the background phase when the slots it touches are
absent or already of the written shape (a string `content_security_policy`, an
object `background` with array `scripts` and string `service_worker`).  The
MV3 web-accessible-resources expansion violates the invariant: it replaces
each entry's string `resources` glob by an array of dependency tokens (see
the counterexample). -/
theorem claim_C9 (ctx : Ctx) (p : Json) (deps : List Dep) :
    (∀ p' d', processLocales ctx p deps = .ok (p', d') → ShapePres p p') ∧
    (∀ p' need d', processContentScripts ctx p deps = .ok ((p', need), d') → ShapePres p p') ∧
    (∀ p' d', processDictionaries ctx p deps = .ok (p', d') → ShapePres p p') ∧
    (∀ isMV2 p' d', processThemeIcons ctx isMV2 p deps = .ok (p', d') → ShapePres p p') ∧
    (∀ p' d',
      (∀ j, p.get? "web_accessible_resources" = some j →
        (∃ xs, j = Json.arr xs) ∨ j.truthy = false) →
      processWAR ctx true p deps = .ok (p', d') → ShapePres p p') ∧
    (∀ p' d', processDepLocs ctx p deps = .ok (p', d') → ShapePres p p') ∧
    (∀ isMV2 need p' d',
      (∀ j, p.get? "content_security_policy" = some j → ∃ s, j = Json.str s) →
      (∀ j, p.get? "background" = some j → ∃ bkvs, j = Json.obj bkvs) →
      (∀ bkvs j, p.get? "background" = some (.obj bkvs) →
        jlookup "scripts" bkvs = some j → ∃ xs, j = Json.arr xs) →
      (∀ bkvs j, p.get? "background" = some (.obj bkvs) →
        jlookup "service_worker" bkvs = some j → ∃ s, j = Json.str s) →
      processBackground ctx isMV2 need p deps = .ok (p', d') → ShapePres p p') := by
  refine ⟨?_, ?_, ?_, ?_, ?_, ?_, ?_⟩
  · intro p' d' h
    obtain rfl := processLocales_program ctx p deps p' d' h
    exact (shapeStep_refl _).1
  · intro p' need d' h
    exact (processContentScripts_shape ctx p deps p' need d' h).1
  · intro p' d' h
    exact (processDictionaries_shape ctx p deps p' d' h).1
  · intro isMV2 p' d' h
    exact (processThemeIcons_shape ctx isMV2 p deps p' d' h).1
  · intro p' d' hwar h
    exact processWAR_mv2_shape ctx p deps p' d' hwar h
  · intro p' d' h
    exact (processDepLocs_shape ctx p deps p' d' h).1
  · intro isMV2 need p' d' hcsp hbg hscripts hsw h
    exact processBackground_shape ctx isMV2 need p deps p' d' hcsp hbg hscripts hsw h

/-- C9 (witness): the MV2 web-accessible-resources expansion on a concrete
manifest — the glob entry is replaced by two token strings and the result is
pointwise shape-preserving. -/
theorem claim_C9_witness :
    processWAR wCtx9 true wProg9 []
      = .ok (Json.obj [("manifest_version", Json.num 2),
          ("web_accessible_resources", Json.arr [Json.str "@@parcel-dep-0",
            Json.str "@@parcel-dep-1"])],
          [warDep wCtx9 "/web_accessible_resources/0" "ext/x.png",
           warDep wCtx9 "/web_accessible_resources/0" "ext/y.png"]) ∧
    ShapePres wProg9 (Json.obj [("manifest_version", Json.num 2),
        ("web_accessible_resources", Json.arr [Json.str "@@parcel-dep-0",
          Json.str "@@parcel-dep-1"])]) :=
  ⟨rfl, (claim_C9 wCtx9 wProg9 []).2.2.2.2.1 _
    [warDep wCtx9 "/web_accessible_resources/0" "ext/x.png",
     warDep wCtx9 "/web_accessible_resources/0" "ext/y.png"]
    (fun _ hj => Or.inl ⟨[Json.str "*.png"], (Option.some.inj hj).symm⟩) rfl⟩

end WebExt
